import Mathlib

/-!
Verification development for the fboss switch-agent RIB core
(route contributions per client, recursive next-hop resolution,
snapshot publication), the Broadcom route-table ALPM discipline
(fboss/agent/hw/bcm/BcmRoute.cpp), and the port remediator
(fboss/agent/PortRemediator.cpp).

The RIB core itself (RouteUpdater / Route / RouteNextHopsMulti /
ThriftHandler) is not part of the provided sources; only its tests are
(fboss/agent/state/tests/RouteTests.cpp, fboss/agent/test/ThriftTest.cpp).
Those components are therefore modelled from the specification
(spec.md sections 3, 4.1, 4.2, 4.4 and 6), with the modelling notes
recorded in the doc comment of each definition.  The model fixes a single
router id (RouterID 0), the one exercised throughout the tests; v4 and v6
routes live in one table keyed by family-tagged prefixes, which is
equivalent to the source's pair of per-family ribs.
-/

namespace Fboss

/-- An IP address, IPv4 or IPv6, as a numeric value in host order. -/
inductive IP where
  | v4 : Nat → IP
  | v6 : Nat → IP
deriving DecidableEq

/-- Is this a v6 address? -/
def IP.isV6 : IP → Bool
  | .v4 _ => false
  | .v6 _ => true

/-- Numeric value of the address. -/
def IP.val : IP → Nat
  | .v4 n => n
  | .v6 n => n

/-- Link-local test: 169.254.0.0/16 for v4, fe80::/10 for v6
(folly::IPAddress::isLinkLocal). -/
def IP.isLinkLocal : IP → Bool
  | .v4 n => n / 2 ^ 16 = 43518
  | .v6 n => n / 2 ^ 118 = 1018

/-- Build a v4 address from its four octets. -/
def ip4 (a b c d : Nat) : IP := .v4 (((a * 256 + b) * 256 + c) * 256 + d)

/-- Build a v6 address from its eight 16-bit groups. -/
def ip6 (g1 g2 g3 g4 g5 g6 g7 g8 : Nat) : IP :=
  .v6 ((((((((g1 * 65536 + g2) * 65536 + g3) * 65536 + g4) * 65536 + g5)
      * 65536 + g6) * 65536 + g7) * 65536 + g8))

/-- Strict order on addresses (family tag first, then value); used only to
keep next-hop sets in the canonical sorted order of the source's ordered
sets. -/
def IP.lt (x y : IP) : Bool :=
  match x, y with
  | .v4 a, .v4 b => a < b
  | .v4 _, .v6 _ => true
  | .v6 _, .v4 _ => false
  | .v6 a, .v6 b => a < b

/-- Modelled from the spec: a NextHop is an IP plus an optional scoping
interface (spec section 3, "NextHop"); the scope is irrelevant to
resolution, which matches on the address only. -/
structure NextHop where
  addr : IP
  intf : Option Nat
deriving DecidableEq

/-- Order on next-hops: address first, then scope. -/
def NextHop.lt (x y : NextHop) : Bool :=
  x.addr.lt y.addr ||
    (x.addr = y.addr &&
      match x.intf, y.intf with
      | none, none => false
      | none, some _ => true
      | some _, none => false
      | some a, some b => a < b)

/-- Insert a next-hop into a sorted duplicate-free next-hop list
(the model of the source's ordered NextHopSet). -/
def insNh (x : NextHop) : List NextHop → List NextHop
  | [] => [x]
  | y :: l => if x = y then y :: l
              else if NextHop.lt x y then x :: y :: l
              else y :: insNh x l

/-- Build a next-hop set from a list of addresses (the tests' makeNextHops). -/
def mkNhs (l : List IP) : List NextHop :=
  l.foldl (fun acc a => insNh ⟨a, none⟩ acc) []

/-- Forward action (spec section 3, "ForwardAction"). -/
inductive FwdAction where
  | NEXTHOPS
  | DROP
  | TO_CPU
deriving DecidableEq

/-- One resolved egress: (interface id, concrete IP). -/
abbrev Egress := Nat × IP

/-- Order on egresses: interface id, then IP. -/
def egLt (x y : Egress) : Bool :=
  x.1 < y.1 || (x.1 = y.1 && x.2.lt y.2)

/-- Insert into a sorted duplicate-free egress list. -/
def insEg (x : Egress) : List Egress → List Egress
  | [] => [x]
  | y :: l => if x = y then y :: l
              else if egLt x y then x :: y :: l
              else y :: insEg x l

/-- Union of an egress list into an accumulated sorted egress list
(spec section 4.4, "duplicates are deduplicated"). -/
def unionEg (acc : List Egress) (l : List Egress) : List Egress :=
  l.foldl (fun a e => insEg e a) acc

/-- Modelled from the spec: resolved forwarding info,
(action, egress set); for DROP/TO_CPU the egress set is empty
(spec section 3, "ForwardInfo"). -/
structure FwdInfo where
  action : FwdAction
  nexthops : List Egress
deriving DecidableEq

/-- The default-constructed forward info carried by a route before (or
without) successful resolution. -/
def emptyFwd : FwdInfo := ⟨.DROP, []⟩

/-- Modelled from the spec: the client id → NextHopSet mapping of
RouteNextHopsMulti, as a list sorted by client id with unique keys
(spec section 4.1); the smallest client id sits at the head. -/
abbrev Contribs := List (Nat × List NextHop)

/-- Insert (or overwrite) a client's next-hop set, keeping the list sorted
by client id (RouteNextHopsMulti::update). -/
def insC (c : Nat) (v : List NextHop) : Contribs → Contribs
  | [] => [(c, v)]
  | (c', v') :: l => if c = c' then (c, v) :: l
                     else if c < c' then (c, v) :: (c', v') :: l
                     else (c', v') :: insC c v l

/-- Remove a client's entry; no-op if absent
(RouteNextHopsMulti::delNexthopsForClient). -/
def eraseC (c : Nat) : Contribs → Contribs
  | [] => []
  | (c', v') :: l => if c = c' then l else (c', v') :: eraseC c l

/-- Look up a client's next-hop set. -/
def lookupC (c : Nat) : Contribs → Option (List NextHop)
  | [] => none
  | (c', v') :: l => if c' = c then some v' else lookupC c l

/-- Error kinds of the RIB core (spec section 7). -/
inductive RibErr where
  | NoEntries
  | EmptyNextHops
  | RouteNotFound
  | RouteStillHasNextHops
  | InvalidNextHopScope
deriving DecidableEq

/-- Modelled from the spec: RouteNextHopsMulti::bestNextHopList — the set
for the minimum client id present, NoEntries if no client entry exists
(spec section 4.1).  With the sorted representation the minimum client is
the head. -/
def bestNextHopList (m : Contribs) : Except RibErr (List NextHop) :=
  match m with
  | [] => .error .NoEntries
  | (_, s) :: _ => .ok s

/-- Total variant of bestNextHopList used inside resolution (a route with
no client entries contributes no next-hops and thus resolves to
unresolvable rather than failing, spec section 7). -/
def bestListD (m : Contribs) : List NextHop :=
  match m with
  | [] => []
  | (_, s) :: _ => s

/-- Modelled from the spec: one Route (spec sections 3 and 4.2): the
multi-client next-hop container, an optional DROP/TO_CPU action override,
the connected-route data (interface id and interface address) when the
route was contributed by the INTERFACE client, the forward info populated
by resolution, the resolution flags, and the generation counter.  The
update operations touch only contribs/action/connected; the flags and the
forward info are recomputed from scratch by every resolution pass. -/
structure Route where
  contribs : Contribs
  action : Option FwdAction
  connected : Option (Nat × IP)
  fwd : FwdInfo
  resolved : Bool
  unresolvable : Bool
  processing : Bool
  needResolve : Bool
  generation : Nat
deriving DecidableEq

/-- A route newly allocated inside the updater. -/
def freshRoute : Route :=
  ⟨[], none, none, emptyFwd, false, false, false, false, 0⟩

/-- isWithNexthops: the route carries client next-hop sets. -/
def Route.isWithNexthops (r : Route) : Bool := !(r.contribs = [])

/-- isConnected flag. -/
def Route.isConnected (r : Route) : Bool := r.connected.isSome

/-- The route content with the generation erased; two routes are
"same content" when these coincide (spec section 4.4, commit). -/
def Route.content (r : Route) : Route := { r with generation := 0 }

/-- A family-tagged prefix: family, mask length, and the network with the
bits below the mask cleared (spec section 4.3, "keys are normalized"). -/
structure Pfx where
  isV6 : Bool
  mask : Nat
  network : Nat
deriving DecidableEq

/-- Address width of the prefix's family. -/
def Pfx.width (p : Pfx) : Nat := if p.isV6 then 128 else 32

/-- Strict order on prefixes (family, then mask, then network), used to
keep tables canonically sorted. -/
def Pfx.lt (x y : Pfx) : Bool :=
  (!x.isV6 && y.isV6) ||
    (x.isV6 = y.isV6 &&
      (x.mask < y.mask || (x.mask = y.mask && x.network < y.network)))

/-- Clear the bits of n below the mask (width w). -/
def maskNet (w n m : Nat) : Nat := n / 2 ^ (w - m) * 2 ^ (w - m)

/-- The normalized prefix of an address and mask length. -/
def mkPfx (a : IP) (m : Nat) : Pfx :=
  ⟨a.isV6, m, maskNet (if a.isV6 then 128 else 32) a.val m⟩

/-- Does prefix p cover address a (same family, top mask bits equal)? -/
def covers (p : Pfx) (a : IP) : Bool :=
  p.isV6 = a.isV6 && a.val / 2 ^ (p.width - p.mask) = p.network / 2 ^ (p.width - p.mask)

/-- The route table of one router: prefix → route, as a list sorted by
Pfx.lt with unique keys (the per-family ribs of the source merged into one
family-tagged map). -/
abbrev Table := List (Pfx × Route)

/-- Exact-match lookup. -/
def lookupTbl (t : Table) (p : Pfx) : Option Route :=
  match t with
  | [] => none
  | (q, r) :: l => if q = p then some r else lookupTbl l p

/-- Update the route stored at key p (no-op if the key is absent; never
inserts or removes, so the resolution pass preserves the table skeleton). -/
def setRoute (t : Table) (p : Pfx) (f : Route → Route) : Table :=
  t.map (fun e => (e.1, if e.1 = p then f e.2 else e.2))

/-- The keys of a table. -/
def tblKeys (t : Table) : List Pfx := t.map (fun e => e.1)

/-- Insert a new key into a sorted table (assumes the key is absent). -/
def insTbl (p : Pfx) (r : Route) : Table → Table
  | [] => [(p, r)]
  | (q, v) :: l => if Pfx.lt p q then (p, r) :: (q, v) :: l
                   else (q, v) :: insTbl p r l

/-- Remove a key from a table. -/
def eraseTbl (p : Pfx) : Table → Table
  | [] => []
  | (q, v) :: l => if q = p then l else (q, v) :: eraseTbl p l

/-- Get-or-create followed by an update of the route at p
(RouteUpdater's getRouteInfo / makeRoute path). -/
def upsertTbl (t : Table) (p : Pfx) (f : Route → Route) : Table :=
  match lookupTbl t p with
  | some _ => setRoute t p f
  | none => insTbl p (f freshRoute) t

/-- Pick the most specific covering prefix among a list of keys. -/
def pickLM (ks : List Pfx) (a : IP) : Option Pfx :=
  ks.foldl
    (fun best q =>
      if covers q a then
        match best with
        | none => some q
        | some b => if b.mask < q.mask then some q else some b
      else best)
    none

/-- Longest prefix match of an address in a table (spec section 4.3);
a function of the key set only. -/
def longestMatch (t : Table) (a : IP) : Option Pfx :=
  pickLM (tblKeys t) a

/-- A route is "white" when it is untouched by the current resolution pass:
neither resolved, nor unresolvable, nor on the DFS stack. -/
def white (r : Route) : Bool := !r.resolved && !r.unresolvable && !r.processing

/-- Number of white routes in a table; the DFS depth bound. -/
def countWhite (t : Table) : Nat := (t.filter (fun e => white e.2)).length

/-- Mark a route as being processed (spec section 4.4, step c). -/
def markProcessing (t : Table) (p : Pfx) : Table :=
  setRoute t p (fun r => { r with processing := true })

/-- Settle a route as resolved with the given forward info and clear the
processing / need-resolve flags (spec section 4.4, steps d-h). -/
def settleWith (t : Table) (p : Pfx) (fw : FwdInfo) : Table :=
  setRoute t p (fun r =>
    { r with fwd := fw, resolved := true, processing := false, needResolve := false })

/-- Settle a route as unresolvable (spec section 4.4, step g). -/
def settleUnres (t : Table) (p : Pfx) : Table :=
  setRoute t p (fun r =>
    { r with unresolvable := true, processing := false, needResolve := false })

/-- Cycle detection: re-entering a route that is on the DFS stack marks it
unresolvable (spec section 4.4, step b). -/
def bMark (t : Table) (p : Pfx) : Table :=
  setRoute t p (fun r => { r with unresolvable := true })

/-- Should the caller inherit this resolved action (spec section 4.4,
step f)? -/
def inheritAct (a : FwdAction) : Bool :=
  match a with
  | .DROP => true
  | .TO_CPU => true
  | .NEXTHOPS => false

/-- Modelled from the spec: one iteration of the next-hop loop of
resolve (spec section 4.4, step f), parameterized by the recursive
resolver.  The accumulator carries the table, the egress set built so far
and the inherited action if any.  Once an action is inherited the
remaining next-hops are skipped.  Per the resolution behaviour pinned by
the tests (TEST(RouteUpdater, dedup), TEST(Route, fwdInfoRanking)): when
the longest match of a next-hop is a connected route, the contributed
egress is (that route's interface, the next-hop address itself); when it
is an ordinary resolved route, its whole egress set is unioned in. -/
def nhAcc (t' : Table) (q : Pfx) (nh : NextHop)
    (eg : List Egress) (inh : Option FwdAction) :
    List Egress × Option FwdAction :=
  match lookupTbl t' q with
  | none => (eg, inh)
  | some L =>
    if L.resolved then
      if inheritAct L.fwd.action then (eg, some L.fwd.action)
      else
        match L.connected with
        | some ia => (insEg (ia.1, nh.addr) eg, inh)
        | none => (unionEg eg L.fwd.nexthops, inh)
    else (eg, inh)

/-- One iteration of the next-hop loop: resolve the longest match of the
next-hop recursively, then fold its outcome into the accumulator with
nhAcc. -/
def nhStep (rec : Table → Pfx → Table)
    (st : Table × List Egress × Option FwdAction) (nh : NextHop) :
    Table × List Egress × Option FwdAction :=
  match st with
  | (t, eg, inh) =>
    if inh.isSome then (t, eg, inh)
    else
      match longestMatch t nh.addr with
      | none => (t, eg, inh)
      | some q =>
        let t' := rec t q
        (t', nhAcc t' q nh eg inh)

/-- Steps g-h of resolve (spec section 4.4): once the next-hop loop is
done, settle the route from the accumulated egress set and inherited
action. -/
def resolveFinish (p : Pfx) (st : Table × List Egress × Option FwdAction) : Table :=
  match st.2.2 with
  | some act => settleWith st.1 p ⟨act, []⟩
  | none =>
    if st.2.1 = [] then settleUnres st.1 p
    else settleWith st.1 p ⟨.NEXTHOPS, st.2.1⟩

/-- Modelled from the spec: the recursive resolver resolve(R)
(spec section 4.4, steps a-h), with an explicit fuel bounding the DFS
depth.  update_done always supplies fuel exceeding the number of white
routes, which (each recursion level turning one white route into a
processing one) is an upper bound of the recursion depth, so the fuel
never runs out on a reachable call. -/
def resolveBody (rec : Table → Pfx → Table) (t : Table) (p : Pfx) (r : Route) :
    Table :=
  if r.resolved || r.unresolvable then t
  else if r.processing then bMark t p
  else if r.action.isSome && decide (r.contribs = []) then
    settleWith (markProcessing t p) p ⟨r.action.getD .DROP, []⟩
  else
    match r.connected with
    | some ia => settleWith (markProcessing t p) p ⟨.NEXTHOPS, [(ia.1, ia.2)]⟩
    | none =>
      resolveFinish p
        ((bestListD r.contribs).foldl (nhStep rec) (markProcessing t p, [], none))

/-- The fueled resolver: look the route up and run the body on it. -/
def resolveGo : Nat → Table → Pfx → Table
  | 0, t, _ => t
  | Nat.succ f, t, p =>
    match lookupTbl t p with
    | none => t
    | some r => resolveBody (resolveGo f) t p r

/-- One route as reset for a fresh resolution pass (spec section 4.4,
step 1); the forward info is also cleared, resolution repopulating it for
every route it resolves, and the in-updater generation is normalized to
0 — the commit never reads it (mergeGens takes every published generation
from the previous snapshot). -/
def resetFn (r : Route) : Route :=
  { r with resolved := false, unresolvable := false, processing := false,
           needResolve := true, fwd := emptyFwd, generation := 0 }

/-- Reset every route for a fresh resolution pass. -/
def resetAll (t : Table) : Table :=
  t.map (fun e => (e.1, resetFn e.2))

/-- Run resolve over every route of the table (spec section 4.4, step 2),
giving each top-level call fuel exceeding the white-route count. -/
def resolveAll (t : Table) : Table :=
  (tblKeys t).foldl (fun t' p => resolveGo (t'.length + 1) t' p) t

/-- A route with no client sets, no action override and no connected
data; the commit drops such routes. -/
def emptyCore (r : Route) : Bool :=
  decide (r.contribs = []) && decide (r.action = none) && decide (r.connected = none)

/-- Drop the routes with no client sets, no action override and no
connected data (spec section 4.4, commit). -/
def prune (t : Table) : Table :=
  t.filter (fun e => !emptyCore e.2)

/-- Modelled from the spec: the generation bookkeeping of the commit
(spec section 4.4): a route whose content (generation erased) equals the
route the previous snapshot holds for the same prefix is kept as that
previous route; a changed route gets the previous generation plus one; a
new prefix starts at generation 0. -/
def mergeFn (orig : Table) (p : Pfx) (r : Route) : Route :=
  match lookupTbl orig p with
  | some o =>
    if o.content = r.content then o
    else { r with generation := o.generation + 1 }
  | none => { r with generation := 0 }

/-- mergeGens folds the generation bookkeeping over the whole table. -/
def mergeGens (orig t : Table) : Table :=
  t.map (fun e => (e.1, mergeFn orig e.1 e.2))

/-- Modelled from the spec: update_done (spec section 4.4): reset, resolve
every route, prune, fold the generations against the input snapshot, and
return the no-change sentinel (none) when the result is structurally equal
to the input snapshot. -/
def updateDone (orig u : Table) : Option Table :=
  let merged := mergeGens orig (prune (resolveAll (resetAll u)))
  if merged = orig then none else some merged

/-- The snapshot in effect after update_done: the published new table, or
the unchanged input when the sentinel was returned. -/
def effectiveTables (orig u : Table) : Table :=
  (updateDone orig u).getD orig

/-- Modelled from the spec: the add_route overloads of RouteUpdater
(spec section 4.4, input operations). -/
inductive AddOp where
  | client : IP → Nat → Nat → List NextHop → AddOp
  | act : IP → Nat → FwdAction → AddOp
  | conn : Nat → IP → Nat → AddOp
deriving DecidableEq

/-- The prefix an add_route call targets. -/
def opPfx : AddOp → Pfx
  | .client a m _ _ => mkPfx a m
  | .act a m _ => mkPfx a m
  | .conn _ a m => mkPfx a m

/-- Whether the add_route call mutates the table: a client add with an
empty next-hop set fails with EmptyNextHops and leaves the table
unchanged (spec sections 4.4 and 7: the failing call's mutations are
rolled back), which the model renders as a no-op. -/
def opLive : AddOp → Bool
  | .client _ _ _ nhs => !decide (nhs = [])
  | .act _ _ _ => true
  | .conn _ _ _ => true

/-- The per-route effect of one add_route call (spec section 4.4, input
operations): a client add replaces that client's entry, addRoute with a
forward action sets the action override, a connected add records the
interface and address. -/
def opApply : AddOp → Route → Route
  | .client _ _ c nhs => fun r => { r with contribs := insC c nhs r.contribs }
  | .act _ _ x => fun r => { r with action := some x }
  | .conn i a _ => fun r => { r with connected := some (i, a) }

/-- Apply one add_route call to the updater's table (get-or-create the
route at the call's prefix, then apply the call's per-route effect). -/
def applyAddOp (t : Table) (op : AddOp) : Table :=
  if opLive op then upsertTbl t (opPfx op) (opApply op) else t

/-- Apply a list of add_route calls in order. -/
def applyAddOps (t : Table) (ops : List AddOp) : Table :=
  ops.foldl applyAddOp t

/-- delNexthopsForClient: prune one client's contribution from one route;
no-op when the route or the entry is absent (spec section 4.4). -/
def delNexthopsForClient (t : Table) (a : IP) (m c : Nat) : Table :=
  setRoute t (mkPfx a m) (fun r => { r with contribs := eraseC c r.contribs })

/-- delRouteWithNoNexthops (spec section 4.4): remove a route that
currently has no client next-hops; RouteNotFound if absent,
RouteStillHasNextHops if it still carries client sets. -/
def delRouteWithNoNexthops (t : Table) (a : IP) (m : Nat) : Except RibErr Table :=
  match lookupTbl t (mkPfx a m) with
  | none => .error .RouteNotFound
  | some r =>
    if r.contribs = [] then .ok (eraseTbl (mkPfx a m) t)
    else .error .RouteStillHasNextHops

/-- Remove one client's contribution from every route of the table (the
first half of sync_fib, spec section 6). -/
def stripClient (t : Table) (c : Nat) : Table :=
  t.map (fun e => (e.1, { e.2 with contribs := eraseC c e.2.contribs }))

/-- Modelled from the spec: sync_fib(client, routes) at the updater level
(spec section 6): drop the client's contribution everywhere, then add the
client's new routes. -/
def syncFib (t : Table) (c : Nat) (routes : List (IP × Nat × List NextHop)) : Table :=
  applyAddOps (stripClient t c) (routes.map (fun e => .client e.1 e.2.1 c e.2.2))

/-- Sortedness (strictly increasing keys) of a table; canonical tables
compare structurally iff they agree as maps. -/
def sortedT : Table → Bool
  | [] => true
  | [_] => true
  | (p, _) :: (q, s) :: l => Pfx.lt p q && sortedT ((q, s) :: l)

/-! ### Next-hop scope validation (thrift mapping) -/

/-- Modelled from the spec: the validation performed when a RouteNextHop
is constructed or converted from thrift (spec section 6, "Next-hop thrift
mapping").  The v4 link-local rule follows the behaviour pinned by
TEST(RouteTypes, toFromRouteNextHops)
(src/fboss/agent/state/tests/RouteTests.cpp lines 1618-1673), which
successfully constructs an unscoped 169.254.0.1 next-hop and expects the
round trip to succeed: an interface scope is accepted exactly on
link-local addresses (v4 or v6), and an address without a scope is
accepted unless it is v6 link-local. -/
def mkRouteNextHop (a : IP) (i : Option Nat) : Except RibErr NextHop :=
  match i with
  | some j =>
    if a.isLinkLocal then .ok ⟨a, some j⟩
    else .error .InvalidNextHopScope
  | none =>
    if a.isV6 && a.isLinkLocal then .error .InvalidNextHopScope
    else .ok ⟨a, none⟩

/-! ### The Broadcom route table (BcmRoute.cpp) -/

/-- Key of BcmRouteTable::fib_ (BcmRoute.cpp, BcmRouteTable::Key):
network, mask and vrf. -/
structure BKey where
  vrf : Nat
  mask : Nat
  network : IP
deriving DecidableEq

/-- The programmed hardware fib: key → programmed forward info. -/
abbrev BFib := List (BKey × FwdInfo)

/-- Look up a programmed route. -/
def bLookup (f : BFib) (k : BKey) : Option FwdInfo :=
  match f with
  | [] => none
  | (k', v) :: l => if k' = k then some v else bLookup l k

/-- BcmRouteTable::addRoute (BcmRoute.cpp lines 353-368): emplace the key
if absent, then program the forward info onto it; the net effect is an
associative set. -/
def bSet (f : BFib) (k : BKey) (fw : FwdInfo) : BFib :=
  match f with
  | [] => [(k, fw)]
  | (k', v) :: l => if k' = k then (k, fw) :: l else (k', v) :: bSet l k fw

/-- Remove a key from the fib (fib_.erase). -/
def bErase (f : BFib) (k : BKey) : BFib :=
  match f with
  | [] => []
  | (k', v) :: l => if k' = k then l else (k', v) :: bErase l k

/-- The Broadcom route table state: the programmed fib plus the ALPM
flag set by addDefaultRoutes. -/
structure BcmTbl where
  fib : BFib
  alpmEnabled : Bool
deriving DecidableEq

/-- kDefaultVrf (BcmRoute.cpp line 41). -/
def kDefaultVrf : Nat := 0

/-- The key of the synthetic v4 default route 0.0.0.0/0 in the default
vrf. -/
def defaultV4Key : BKey := ⟨kDefaultVrf, 0, .v4 0⟩

/-- The key of the synthetic v6 default route ::/0 in the default vrf. -/
def defaultV6Key : BKey := ⟨kDefaultVrf, 0, .v6 0⟩

/-- The forward info of the synthetic default route: DROP with no
next-hops (BcmRouteTable::createDefaultRoute). -/
def dropFwd : FwdInfo := ⟨.DROP, []⟩

/-- BcmRouteTable::isDefaultRouteV4: mask 0 and the all-zero v4 network
(the vrf is not inspected). -/
def isDefaultRouteV4 (k : BKey) : Bool := k.mask = 0 && k.network = .v4 0

/-- BcmRouteTable::isDefaultRouteV6. -/
def isDefaultRouteV6 (k : BKey) : Bool := k.mask = 0 && k.network = .v6 0

/-- BcmRouteTable::addRoute at the state level: program fwd under
(network, mask, vrf). -/
def bcmAddRoute (st : BcmTbl) (vrf : Nat) (network : IP) (mask : Nat)
    (fw : FwdInfo) : BcmTbl :=
  { st with fib := bSet st.fib ⟨vrf, mask, network⟩ fw }

/-- BcmRouteTable::addDefaultRoutes (BcmRoute.cpp lines 324-337): enable
ALPM; unless warm booted, program the synthetic DROP defaults. -/
def bcmAddDefaultRoutes (st : BcmTbl) (warmBooted : Bool) : BcmTbl :=
  let st1 := { st with alpmEnabled := true }
  if warmBooted then st1
  else bcmAddRoute (bcmAddRoute st1 kDefaultVrf (.v4 0) 0 dropFwd)
    kDefaultVrf (.v6 0) 0 dropFwd

/-- BcmRouteTable::deleteRoute (BcmRoute.cpp lines 370-387): fail on a
missing key; in ALPM mode a default route is re-programmed as the
synthetic DROP default under kDefaultVrf instead of being erased;
otherwise erase. -/
def bcmDeleteRoute (st : BcmTbl) (vrf : Nat) (network : IP) (mask : Nat) :
    Option BcmTbl :=
  let key : BKey := ⟨vrf, mask, network⟩
  match bLookup st.fib key with
  | none => none
  | some _ =>
    if st.alpmEnabled && isDefaultRouteV4 key then
      some (bcmAddRoute st kDefaultVrf (.v4 0) 0 dropFwd)
    else if st.alpmEnabled && isDefaultRouteV6 key then
      some (bcmAddRoute st kDefaultVrf (.v6 0) 0 dropFwd)
    else some { st with fib := bErase st.fib key }

/-- One hardware-table operation. -/
inductive BcmOp where
  | add : Nat → IP → Nat → FwdInfo → BcmOp
  | del : Nat → IP → Nat → BcmOp
deriving DecidableEq

/-- Apply one operation; a failing delete (FbossError in the source)
aborts the call and leaves the table as it was. -/
def bcmStep (st : BcmTbl) : BcmOp → BcmTbl
  | .add vrf n m fw => bcmAddRoute st vrf n m fw
  | .del vrf n m => (bcmDeleteRoute st vrf n m).getD st

/-- Run a sequence of operations. -/
def bcmRun (ops : List BcmOp) (st : BcmTbl) : BcmTbl :=
  ops.foldl bcmStep st

/-- Both default routes are programmed. -/
def defaultsPresent (st : BcmTbl) : Bool :=
  (bLookup st.fib defaultV4Key).isSome && (bLookup st.fib defaultV6Key).isSome

/-! ### The port remediator (PortRemediator.cpp) -/

/-- Admin state of a port (cfg::PortState). -/
inductive PortState where
  | UP
  | DOWN
  | POWER_DOWN
deriving DecidableEq

/-- One port: id, admin state, operational state. -/
structure Port where
  id : Nat
  state : PortState
  operState : Bool
deriving DecidableEq

/-- The port map of a SwitchState. -/
abbrev PortMap := List Port

/-- PortMap::getPortIf: the port with the given id, if present. -/
def getPortIf (pm : PortMap) (i : Nat) : Option Port :=
  pm.find? (fun p => decide (p.id = i))

/-- Set the admin state of the port with the given id (the
port->modify(&newState); newPort->setState(..) path). -/
def setPortState (pm : PortMap) (i : Nat) (s : PortState) : PortMap :=
  pm.map (fun p => if p.id = i then { p with state := s } else p)

/-- One iteration of the PortRemediator loop body: skip i = 0 (the loop
starts at 1); look port i up in the snapshot the pass started from; when
it exists and is operationally down set its admin state in the new
state. -/
def remStep (ports : PortMap) (new : PortState) (st : PortMap) (i : Nat) : PortMap :=
  if i = 0 then st
  else
    match getPortIf ports i with
    | some port => if port.operState then st else setPortState st i new
    | none => st

/-- PortRemediator::updatePortState (PortRemediator.cpp lines 22-38): for
i from 1 to numPorts()-1, flap the admin state of the operationally-down
ports. -/
def updatePortState (ports : PortMap) (new : PortState) : PortMap :=
  (List.range ports.length).foldl (remStep ports new) ports

/-! ### Basic lemmas about the table maps -/

theorem lookupTbl_setRoute (t : Table) (p q : Pfx) (f : Route → Route) :
    lookupTbl (setRoute t p f) q =
      (lookupTbl t q).map (fun r => if q = p then f r else r) := by
  induction t with
  | nil => rfl
  | cons e l ih =>
    simp only [setRoute, List.map_cons, lookupTbl]
    by_cases h : e.1 = q
    · simp [h]
    · simp only [h, if_neg]
      exact ih

theorem lookupTbl_resetAll (t : Table) (q : Pfx) :
    lookupTbl (resetAll t) q = (lookupTbl t q).map resetFn := by
  induction t with
  | nil => rfl
  | cons e l ih =>
    simp only [resetAll, List.map_cons, lookupTbl]
    by_cases h : e.1 = q
    · simp [h]
    · simp only [h, if_neg]
      exact ih

theorem lookupTbl_mergeGens (orig t : Table) (q : Pfx) :
    lookupTbl (mergeGens orig t) q = (lookupTbl t q).map (mergeFn orig q) := by
  induction t with
  | nil => rfl
  | cons e l ih =>
    simp only [mergeGens, List.map_cons, lookupTbl]
    by_cases h : e.1 = q
    · simp [h]
    · simp only [h, if_neg]
      exact ih

theorem lookupTbl_stripClient (t : Table) (c : Nat) (q : Pfx) :
    lookupTbl (stripClient t c) q =
      (lookupTbl t q).map (fun r => { r with contribs := eraseC c r.contribs }) := by
  induction t with
  | nil => rfl
  | cons e l ih =>
    simp only [stripClient, List.map_cons, lookupTbl]
    by_cases h : e.1 = q
    · simp [h]
    · simp only [h, if_neg]
      exact ih

theorem tblKeys_setRoute (t : Table) (p : Pfx) (f : Route → Route) :
    tblKeys (setRoute t p f) = tblKeys t := by
  simp [tblKeys, setRoute]

theorem tblKeys_resetAll (t : Table) : tblKeys (resetAll t) = tblKeys t := by
  simp [tblKeys, resetAll]

theorem length_setRoute (t : Table) (p : Pfx) (f : Route → Route) :
    (setRoute t p f).length = t.length := by
  simp [setRoute]

/-- The route content ignores the generation. -/
theorem content_setGen (r : Route) (n : Nat) :
    Route.content { r with generation := n } = r.content := rfl

/-! ### C5: generation discipline of the commit -/

/-- C5: between two adjacent snapshots, a prefix present in both either
kept its content, in which case the published route is the previous
snapshot's route object itself (generation included), or changed it, in
which case the published generation is the previous one plus one. -/
theorem generation_discipline :
    ∀ (orig u T : Table), updateDone orig u = some T →
    ∀ (p : Pfx) (ro rn : Route),
      lookupTbl orig p = some ro → lookupTbl T p = some rn →
      (rn.content = ro.content → rn = ro) ∧
      (rn.content ≠ ro.content → rn.generation = ro.generation + 1) := by
  intro orig u T hU p ro rn hO hT
  have hTm : T = mergeGens orig (prune (resolveAll (resetAll u))) := by
    by_cases h : mergeGens orig (prune (resolveAll (resetAll u))) = orig
    · simp [updateDone, h] at hU
    · simp [updateDone, h] at hU
      exact hU.symm
  subst hTm
  rw [lookupTbl_mergeGens] at hT
  match hX : lookupTbl (prune (resolveAll (resetAll u))) p with
  | none => rw [hX] at hT; simp at hT
  | some x =>
    rw [hX] at hT
    have hT' : some (mergeFn orig p x) = some rn := hT
    have hM : mergeFn orig p x = rn := by injection hT'
    have hMdef : mergeFn orig p x =
        if ro.content = x.content then ro
        else { x with generation := ro.generation + 1 } := by
      simp [mergeFn, hO]
    rw [hMdef] at hM
    by_cases hc : ro.content = x.content
    · rw [if_pos hc] at hM
      constructor
      · intro _; exact hM.symm
      · intro hne
        exact absurd (congrArg Route.content hM).symm hne
    · rw [if_neg hc] at hM
      constructor
      · intro he
        rw [← hM, content_setGen] at he
        exact absurd he.symm hc
      · intro _
        rw [← hM]

/-- C5 witness scenario: a snapshot with a connected route and one client
route, then the client route's next-hop set is changed. -/
def c5orig : Table :=
  effectiveTables [] (applyAddOps []
    [.conn 1 (ip4 1 1 1 1) 24,
     .client (ip4 8 8 8 0) 24 1001 (mkNhs [ip4 1 1 1 10])])

/-- C5 witness updater table: the same client contributes a different
next-hop. -/
def c5u : Table :=
  applyAddOps c5orig [.client (ip4 8 8 8 0) 24 1001 (mkNhs [ip4 1 1 1 11])]

/-- C5 witness published table. -/
def c5T : Table := effectiveTables c5orig c5u

/-- The changed prefix of the C5 witness. -/
def c5p : Pfx := mkPfx (ip4 8 8 8 0) 24

/-- The old route of the C5 witness. -/
def c5ro : Route := (lookupTbl c5orig c5p).getD freshRoute

/-- The new route of the C5 witness. -/
def c5rn : Route := (lookupTbl c5T c5p).getD freshRoute

/-- C5 witness: changing the 8.8.8.0/24 next-hop bumps that route's
generation by exactly one. -/
theorem generation_discipline_witness : c5rn.generation = c5ro.generation + 1 :=
  (generation_discipline c5orig c5u c5T (by decide) c5p c5ro c5rn
    (by decide) (by decide)).2 (by decide)

/-! ### C3: client-priority arbitration -/

/-- Sortedness (strictly increasing client ids) of a multi-client
next-hop map; insC keeps this invariant, so it canonically holds of every
contribution map the model builds. -/
def sortedC : Contribs → Bool
  | [] => true
  | (c, _) :: l =>
    match l with
    | [] => true
    | (c', _) :: _ => decide (c < c') && sortedC l

/-- The head client of a sorted contribution map is the minimum. -/
theorem sortedC_head_min :
    ∀ (m : Contribs) (c : Nat) (s : List NextHop),
      sortedC ((c, s) :: m) = true → ∀ e ∈ (c, s) :: m, c ≤ e.1 := by
  intro m
  induction m with
  | nil =>
    intro c s _ e he
    rw [List.mem_singleton.mp he]
  | cons q l ih =>
    intro c s hs e he
    obtain ⟨c', v'⟩ := q
    simp only [sortedC, Bool.and_eq_true, decide_eq_true_eq] at hs
    rcases List.mem_cons.mp he with h | h
    · rw [h]
    · exact le_trans (le_of_lt hs.1) (ih c' v' hs.2 e h)

/-- The prefix used throughout the C3 ranking scenario
(TEST(Route, fwdInfoRanking): 22.22.22.22/32 resolving through interface
9 = 10.10.0.0/16). -/
def rkP : Pfx := mkPfx (ip4 22 22 22 22) 32

/-- Ranking scenario, stage 1: interface 9 plus client 30. -/
def rk1 : Table :=
  effectiveTables [] (applyAddOps []
    [.conn 9 (ip4 10 10 0 0) 16,
     .client (ip4 22 22 22 22) 32 30
       (mkNhs [ip4 10 10 30 10, ip4 10 10 30 11, ip4 10 10 30 12])])

/-- Stage 2: add client 20. -/
def rk2 : Table :=
  effectiveTables rk1 (applyAddOps rk1
    [.client (ip4 22 22 22 22) 32 20
      (mkNhs [ip4 10 10 20 10, ip4 10 10 20 11, ip4 10 10 20 12])])

/-- Stage 3: add client 40. -/
def rk3 : Table :=
  effectiveTables rk2 (applyAddOps rk2
    [.client (ip4 22 22 22 22) 32 40
      (mkNhs [ip4 10 10 40 10, ip4 10 10 40 11, ip4 10 10 40 12])])

/-- Stage 4: add client 10. -/
def rk4 : Table :=
  effectiveTables rk3 (applyAddOps rk3
    [.client (ip4 22 22 22 22) 32 10
      (mkNhs [ip4 10 10 10 10, ip4 10 10 10 11, ip4 10 10 10 12])])

/-- Stage 5: delete client 20. -/
def rk5 : Table :=
  effectiveTables rk4 (delNexthopsForClient rk4 (ip4 22 22 22 22) 32 20)

/-- Stage 6: delete client 10. -/
def rk6 : Table :=
  effectiveTables rk5 (delNexthopsForClient rk5 (ip4 22 22 22 22) 32 10)

/-- Stage 7: delete client 30. -/
def rk7 : Table :=
  effectiveTables rk6 (delNexthopsForClient rk6 (ip4 22 22 22 22) 32 30)

/-- The published forwarding next-hops of the ranking prefix. -/
def rkFwd (t : Table) : Option (List Egress) :=
  (lookupTbl t rkP).map (fun r => r.fwd.nexthops)

/-- C3 (amended): bestNextHopList returns the set of the minimum client
id present and fails with NoEntries when no client entry exists; the
forwarding info published by update_done is derived from the set of the
lowest client id present (the resolution pass consults only the best
set, with no fallback to the next client when it fails to resolve), so
in the ranking scenario the forwarding info follows clients
30, 20, 20, 10 as lower-priority clients are added, and moves to the
next-lowest remaining client as entries are deleted. -/
theorem client_priority_lowest_client :
    (bestNextHopList [] = .error .NoEntries)
  ∧ (∀ (m : Contribs) (c : Nat) (s : List NextHop),
      sortedC ((c, s) :: m) = true →
      bestNextHopList ((c, s) :: m) = .ok s ∧ ∀ e ∈ (c, s) :: m, c ≤ e.1)
  ∧ rkFwd rk1 = some [(9, ip4 10 10 30 10), (9, ip4 10 10 30 11), (9, ip4 10 10 30 12)]
  ∧ rkFwd rk2 = some [(9, ip4 10 10 20 10), (9, ip4 10 10 20 11), (9, ip4 10 10 20 12)]
  ∧ rkFwd rk3 = some [(9, ip4 10 10 20 10), (9, ip4 10 10 20 11), (9, ip4 10 10 20 12)]
  ∧ rkFwd rk4 = some [(9, ip4 10 10 10 10), (9, ip4 10 10 10 11), (9, ip4 10 10 10 12)]
  ∧ rkFwd rk5 = some [(9, ip4 10 10 10 10), (9, ip4 10 10 10 11), (9, ip4 10 10 10 12)]
  ∧ rkFwd rk6 = some [(9, ip4 10 10 30 10), (9, ip4 10 10 30 11), (9, ip4 10 10 30 12)]
  ∧ rkFwd rk7 = some [(9, ip4 10 10 40 10), (9, ip4 10 10 40 11), (9, ip4 10 10 40 12)] :=
  ⟨rfl,
   fun m c s hs => ⟨rfl, sortedC_head_min m c s hs⟩,
   by decide, by decide, by decide, by decide, by decide, by decide, by decide⟩

/-- C3 witness: the min-client rule applied to the listRanking sets. -/
theorem client_priority_lowest_client_witness :
    bestNextHopList
        [(10, mkNhs [ip4 10 10 10 10]), (20, mkNhs [ip4 10 10 20 10]),
         (30, mkNhs [ip4 10 10 30 10])] = .ok (mkNhs [ip4 10 10 10 10]) :=
  (client_priority_lowest_client.2.1
    [(20, mkNhs [ip4 10 10 20 10]), (30, mkNhs [ip4 10 10 30 10])]
    10 (mkNhs [ip4 10 10 10 10]) (by decide)).1

/-- C3 counterexample table: client 1 contributes an unresolvable
next-hop (9.9.9.9 matches nothing), client 2 contributes a next-hop that
resolves through the connected route 1.1.1.0/24. -/
def c3T : Table :=
  effectiveTables [] (applyAddOps []
    [.conn 1 (ip4 1 1 1 1) 24,
     .client (ip4 22 22 22 22) 32 1 (mkNhs [ip4 9 9 9 9]),
     .client (ip4 22 22 22 22) 32 2 (mkNhs [ip4 1 1 1 10])])

/-- The C3 counterexample prefix. -/
def c3p : Pfx := mkPfx (ip4 22 22 22 22) 32

/-- C3 counterexample: after update_done the route is unresolvable with
empty forwarding info even though the higher-numbered client 2 holds a
resolvable set (its next-hop longest-matches the resolved connected
route) — the forwarding info is not derived from "the lowest ClientID
whose set is resolvable" but from the lowest ClientID present,
full stop. -/
theorem client_priority_no_fallback_cex :
    ((lookupTbl c3T c3p).map (fun r => (r.resolved, r.unresolvable, r.fwd.nexthops))
        = some (false, true, []))
  ∧ ((lookupTbl c3T c3p).map (fun r => lookupC 2 r.contribs)
        = some (some (mkNhs [ip4 1 1 1 10])))
  ∧ longestMatch c3T (ip4 1 1 1 10) = some (mkPfx (ip4 1 1 1 1) 24)
  ∧ ((lookupTbl c3T (mkPfx (ip4 1 1 1 1) 24)).map
        (fun r => (r.resolved, r.isConnected)) = some (true, true)) := by
  decide

/-! ### C8: next-hop scope validation -/

/-- C8 (amended): an interface scope is rejected on non-link-local
next-hops and accepted on link-local ones; a v6 link-local next-hop
without a scope is rejected; a v4 link-local next-hop without a scope is
accepted (the scope is optional, not required, for v4 link-local); and a
non-link-local next-hop without a scope is accepted. -/
theorem nexthop_scope_rules :
    (∀ (a : IP) (j : Nat), a.isLinkLocal = false →
        mkRouteNextHop a (some j) = .error .InvalidNextHopScope)
  ∧ (∀ (a : IP) (j : Nat), a.isLinkLocal = true →
        (mkRouteNextHop a (some j)).toOption = some ⟨a, some j⟩)
  ∧ (∀ n : Nat, (IP.v6 n).isLinkLocal = true →
        mkRouteNextHop (IP.v6 n) none = .error .InvalidNextHopScope)
  ∧ (∀ n : Nat, (IP.v4 n).isLinkLocal = true →
        (mkRouteNextHop (IP.v4 n) none).toOption = some ⟨IP.v4 n, none⟩)
  ∧ (∀ a : IP, a.isLinkLocal = false →
        (mkRouteNextHop a none).toOption = some ⟨a, none⟩) := by
  refine ⟨?_, ?_, ?_, ?_, ?_⟩
  · intro a j h; simp [mkRouteNextHop, h]
  · intro a j h; simp [mkRouteNextHop, h, Except.toOption]
  · intro n h; simp [mkRouteNextHop, IP.isV6, h]
  · intro n h; simp [mkRouteNextHop, IP.isV6, Except.toOption]
  · intro a h; simp [mkRouteNextHop, h, Except.toOption]

/-- C8 witness: the rules applied at concrete inputs — an unscoped
fe80::1 fails, a scoped 10.0.0.1 fails, a scoped fe80::1 converts. -/
theorem nexthop_scope_rules_witness :
    mkRouteNextHop (ip6 65152 0 0 0 0 0 0 1) none = .error .InvalidNextHopScope ∧
    mkRouteNextHop (ip4 10 0 0 1) (some 10) = .error .InvalidNextHopScope ∧
    (mkRouteNextHop (ip6 65152 0 0 0 0 0 0 1) (some 4)).toOption
      = some ⟨ip6 65152 0 0 0 0 0 0 1, some 4⟩ :=
  ⟨nexthop_scope_rules.2.2.1 _ (by decide),
   nexthop_scope_rules.1 _ 10 (by decide),
   nexthop_scope_rules.2.1 _ 4 (by decide)⟩

/-- C8 counterexample: the v4 link-local next-hop 169.254.0.1 without a
scope is link-local, yet its construction succeeds — refuting the claim
that a link-local next-hop without a scope fails. -/
theorem nexthop_v4_linklocal_noscope_ok :
    (ip4 169 254 0 1).isLinkLocal = true ∧
    (mkRouteNextHop (ip4 169 254 0 1) none).toOption
      = some ⟨ip4 169 254 0 1, none⟩ := by
  decide

/-! ### C7: the ALPM default-route discipline -/

theorem bLookup_bSet (f : BFib) (k j : BKey) (fw : FwdInfo) :
    bLookup (bSet f k fw) j = if j = k then some fw else bLookup f j := by
  induction f with
  | nil =>
    simp only [bSet, bLookup]
    by_cases h : j = k
    · subst h; simp
    · rw [if_neg (fun hh => h hh.symm), if_neg h]
  | cons e l ih =>
    simp only [bSet]
    by_cases h1 : e.1 = k
    · rw [if_pos h1]
      simp only [bLookup]
      by_cases h2 : j = k
      · subst h2; simp
      · have he : e.1 ≠ j := by rw [h1]; exact fun hh => h2 hh.symm
        rw [if_neg (fun hh => h2 hh.symm), if_neg h2, if_neg he]
    · rw [if_neg h1]
      simp only [bLookup]
      by_cases h2 : e.1 = j
      · have hjk : j ≠ k := fun hh => h1 (h2.trans hh)
        rw [if_pos h2, if_neg hjk, if_pos h2]
      · rw [if_neg h2, if_neg h2]
        exact ih

theorem bLookup_bErase_ne (f : BFib) (k j : BKey) (h : j ≠ k) :
    bLookup (bErase f k) j = bLookup f j := by
  induction f with
  | nil => rfl
  | cons e l ih =>
    simp only [bErase]
    by_cases h1 : e.1 = k
    · rw [if_pos h1]
      have he : e.1 ≠ j := by rw [h1]; exact fun hh => h hh.symm
      simp only [bLookup, if_neg he]
    · rw [if_neg h1]
      simp only [bLookup]
      by_cases h2 : e.1 = j
      · rw [if_pos h2, if_pos h2]
      · rw [if_neg h2, if_neg h2]
        exact ih

/-- The Broadcom model's step never turns the ALPM flag off. -/
theorem bcmStep_alpm (st : BcmTbl) (op : BcmOp) :
    (bcmStep st op).alpmEnabled = st.alpmEnabled := by
  match op with
  | .add vrf n m fw => rfl
  | .del vrf n m =>
    simp only [bcmStep, bcmDeleteRoute]
    match bLookup st.fib ⟨vrf, m, n⟩ with
    | none => rfl
    | some _ =>
      by_cases h4 : st.alpmEnabled && isDefaultRouteV4 ⟨vrf, m, n⟩
      · simp [h4, bcmAddRoute]
      · by_cases h6 : st.alpmEnabled && isDefaultRouteV6 ⟨vrf, m, n⟩
        · simp [h4, h6, bcmAddRoute]
        · simp [h4, h6]

/-- An addRoute step preserves the presence of both default routes. -/
theorem bcmAdd_defaults (st : BcmTbl) (vrf m : Nat) (n : IP) (fw : FwdInfo)
    (hP : (bLookup st.fib defaultV4Key).isSome = true ∧
      (bLookup st.fib defaultV6Key).isSome = true) :
    defaultsPresent (bcmStep st (.add vrf n m fw)) = true := by
  simp [bcmStep, bcmAddRoute, defaultsPresent, bLookup_bSet]
  constructor
  · by_cases h : defaultV4Key = (⟨vrf, m, n⟩ : BKey) <;> simp [h, hP.1]
  · by_cases h : defaultV6Key = (⟨vrf, m, n⟩ : BKey) <;> simp [h, hP.2]

/-- A deleteRoute step preserves the presence of both default routes when
ALPM is enabled. -/
theorem bcmDel_defaults (st : BcmTbl) (vrf m : Nat) (n : IP)
    (hA : st.alpmEnabled = true)
    (hP : (bLookup st.fib defaultV4Key).isSome = true ∧
      (bLookup st.fib defaultV6Key).isSome = true) :
    defaultsPresent (bcmStep st (.del vrf n m)) = true := by
  simp only [bcmStep, bcmDeleteRoute]
  match bLookup st.fib ⟨vrf, m, n⟩ with
  | none => simp [defaultsPresent, hP.1, hP.2]
  | some _ =>
    by_cases h4 : isDefaultRouteV4 ⟨vrf, m, n⟩ = true
    · simp [hA, h4, bcmAddRoute, defaultsPresent, bLookup_bSet, defaultV4Key, kDefaultVrf]
      rw [if_neg (by decide)]
      exact hP.2
    · by_cases h6 : isDefaultRouteV6 ⟨vrf, m, n⟩ = true
      · simp [hA, h4, h6, bcmAddRoute, defaultsPresent, bLookup_bSet, defaultV6Key, kDefaultVrf]
        rw [if_neg (by decide)]
        exact hP.1
      · have e4 : defaultV4Key ≠ (⟨vrf, m, n⟩ : BKey) := by
          intro h
          rw [← h] at h4
          exact h4 (by decide)
        have e6 : defaultV6Key ≠ (⟨vrf, m, n⟩ : BKey) := by
          intro h
          rw [← h] at h6
          exact h6 (by decide)
        simp [hA, h4, h6, defaultsPresent,
          bLookup_bErase_ne st.fib ⟨vrf, m, n⟩ defaultV4Key e4,
          bLookup_bErase_ne st.fib ⟨vrf, m, n⟩ defaultV6Key e6, hP.1, hP.2]

/-- One step preserves the presence of both default routes when ALPM is
enabled. -/
theorem bcmStep_defaults (st : BcmTbl) (op : BcmOp)
    (hA : st.alpmEnabled = true) (hP : defaultsPresent st = true) :
    defaultsPresent (bcmStep st op) = true := by
  simp only [defaultsPresent, Bool.and_eq_true] at hP
  cases op with
  | add vrf n m fw => exact bcmAdd_defaults st vrf m n fw hP
  | del vrf n m => exact bcmDel_defaults st vrf m n hA hP

/-- C7: when ALPM is enabled the synthetic v4 and v6 default routes are
always present: addDefaultRoutes establishes them (cold boot), every
sequence of add/delete operations preserves them, and deleting a default
route re-programs the synthetic DROP default under the reserved default
vrf instead of removing the entry. -/
theorem alpm_default_always_present :
    (∀ st : BcmTbl, (bcmAddDefaultRoutes st false).alpmEnabled = true ∧
        defaultsPresent (bcmAddDefaultRoutes st false) = true)
  ∧ (∀ (ops : List BcmOp) (st : BcmTbl), st.alpmEnabled = true →
        defaultsPresent st = true → defaultsPresent (bcmRun ops st) = true)
  ∧ (∀ (st : BcmTbl) (vrf : Nat) (t' : BcmTbl), st.alpmEnabled = true →
        bcmDeleteRoute st vrf (.v4 0) 0 = some t' →
        bLookup t'.fib defaultV4Key = some dropFwd)
  ∧ (∀ (st : BcmTbl) (vrf : Nat) (t' : BcmTbl), st.alpmEnabled = true →
        bcmDeleteRoute st vrf (.v6 0) 0 = some t' →
        bLookup t'.fib defaultV6Key = some dropFwd) := by
  refine ⟨?_, ?_, ?_, ?_⟩
  · intro st
    refine ⟨rfl, ?_⟩
    simp [bcmAddDefaultRoutes, bcmAddRoute, defaultsPresent, bLookup_bSet,
      defaultV4Key, defaultV6Key, kDefaultVrf]
  · intro ops
    induction ops with
    | nil => intro st _ hP; exact hP
    | cons op l ih =>
      intro st hA hP
      have hA' : (bcmStep st op).alpmEnabled = true := by
        rw [bcmStep_alpm]; exact hA
      exact ih (bcmStep st op) hA' (bcmStep_defaults st op hA hP)
  · intro st vrf t' hA hDel
    simp only [bcmDeleteRoute] at hDel
    match hL : bLookup st.fib ⟨vrf, 0, IP.v4 0⟩ with
    | none => rw [hL] at hDel; simp at hDel
    | some fw =>
      rw [hL] at hDel
      have h4 : isDefaultRouteV4 (⟨vrf, 0, IP.v4 0⟩ : BKey) = true := by
        simp [isDefaultRouteV4]
      simp [hA, h4] at hDel
      rw [← hDel]
      simp [bcmAddRoute, bLookup_bSet, defaultV4Key]
  · intro st vrf t' hA hDel
    simp only [bcmDeleteRoute] at hDel
    match hL : bLookup st.fib ⟨vrf, 0, IP.v6 0⟩ with
    | none => rw [hL] at hDel; simp at hDel
    | some fw =>
      rw [hL] at hDel
      have h4 : isDefaultRouteV4 (⟨vrf, 0, IP.v6 0⟩ : BKey) = false := by
        simp [isDefaultRouteV4]
      have h6 : isDefaultRouteV6 (⟨vrf, 0, IP.v6 0⟩ : BKey) = true := by
        simp [isDefaultRouteV6]
      simp [hA, h4, h6] at hDel
      rw [← hDel]
      simp [bcmAddRoute, bLookup_bSet, defaultV6Key]

/-- C7 witness: a cold-boot table in ALPM mode keeps both defaults after
a sequence that deletes both of them, and deleting the v4 default leaves
the synthetic DROP default programmed. -/
theorem alpm_default_always_present_witness :
    defaultsPresent
      (bcmRun [BcmOp.del 0 (.v4 0) 0, BcmOp.del 0 (.v6 0) 0,
               BcmOp.add 0 (.v4 167772160) 8 ⟨.NEXTHOPS, [(1, ip4 1 1 1 10)]⟩]
        (bcmAddDefaultRoutes ⟨[], false⟩ false)) = true ∧
    bLookup ((bcmDeleteRoute (bcmAddDefaultRoutes ⟨[], false⟩ false) 0 (.v4 0) 0).getD
        ⟨[], false⟩).fib defaultV4Key = some dropFwd :=
  ⟨alpm_default_always_present.2.1
      [BcmOp.del 0 (.v4 0) 0, BcmOp.del 0 (.v6 0) 0,
       BcmOp.add 0 (.v4 167772160) 8 ⟨.NEXTHOPS, [(1, ip4 1 1 1 10)]⟩]
      (bcmAddDefaultRoutes ⟨[], false⟩ false) (by decide) (by decide),
   alpm_default_always_present.2.2.1 (bcmAddDefaultRoutes ⟨[], false⟩ false) 0
      ((bcmDeleteRoute (bcmAddDefaultRoutes ⟨[], false⟩ false) 0 (.v4 0) 0).getD
        ⟨[], false⟩) (by decide) (by decide)⟩

/-! ### Skeleton preservation through the resolution pass

The resolution pass only flips flags and rewrites forward info: the key
list and each route's core (client sets, action override, connected
data) pass through update_done unchanged, except for the final prune. -/

/-- The part of a route the resolution pass never modifies. -/
def coreOf (r : Route) : Contribs × Option FwdAction × Option (Nat × IP) :=
  (r.contribs, r.action, r.connected)

/-- The core stored at a key. -/
def coreAt (t : Table) (q : Pfx) :
    Option (Contribs × Option FwdAction × Option (Nat × IP)) :=
  (lookupTbl t q).map coreOf

theorem coreAt_setRoute (t : Table) (p q : Pfx) (f : Route → Route)
    (hf : ∀ r, coreOf (f r) = coreOf r) :
    coreAt (setRoute t p f) q = coreAt t q := by
  unfold coreAt
  rw [lookupTbl_setRoute]
  cases lookupTbl t q with
  | none => rfl
  | some r => by_cases h : q = p <;> simp [h, hf r]

theorem coreAt_markProcessing (t : Table) (p q : Pfx) :
    coreAt (markProcessing t p) q = coreAt t q :=
  coreAt_setRoute t p q _ (fun _ => rfl)

theorem coreAt_settleWith (t : Table) (p q : Pfx) (fw : FwdInfo) :
    coreAt (settleWith t p fw) q = coreAt t q :=
  coreAt_setRoute t p q _ (fun _ => rfl)

theorem coreAt_settleUnres (t : Table) (p q : Pfx) :
    coreAt (settleUnres t p) q = coreAt t q :=
  coreAt_setRoute t p q _ (fun _ => rfl)

theorem coreAt_bMark (t : Table) (p q : Pfx) :
    coreAt (bMark t p) q = coreAt t q :=
  coreAt_setRoute t p q _ (fun _ => rfl)

theorem tblKeys_markProcessing (t : Table) (p : Pfx) :
    tblKeys (markProcessing t p) = tblKeys t := tblKeys_setRoute t p _

theorem tblKeys_settleWith (t : Table) (p : Pfx) (fw : FwdInfo) :
    tblKeys (settleWith t p fw) = tblKeys t := tblKeys_setRoute t p _

theorem tblKeys_settleUnres (t : Table) (p : Pfx) :
    tblKeys (settleUnres t p) = tblKeys t := tblKeys_setRoute t p _

theorem tblKeys_bMark (t : Table) (p : Pfx) :
    tblKeys (bMark t p) = tblKeys t := tblKeys_setRoute t p _

theorem resolveFinish_skel (p : Pfx) (st : Table × List Egress × Option FwdAction) :
    tblKeys (resolveFinish p st) = tblKeys st.1 ∧
    ∀ q, coreAt (resolveFinish p st) q = coreAt st.1 q := by
  obtain ⟨t, eg, inh⟩ := st
  cases inh with
  | some act =>
    exact ⟨tblKeys_settleWith t p _, fun q => coreAt_settleWith t p q _⟩
  | none =>
    by_cases h : eg = []
    · simp only [resolveFinish, h, if_pos]
      exact ⟨tblKeys_settleUnres t p, fun q => coreAt_settleUnres t p q⟩
    · simp only [resolveFinish, h, if_neg, if_false]
      exact ⟨tblKeys_settleWith t p _, fun q => coreAt_settleWith t p q _⟩

/-- Every branch of one next-hop iteration either keeps the table or
applies the recursive resolver once. -/
theorem nhStep_fst (rec : Table → Pfx → Table)
    (st : Table × List Egress × Option FwdAction) (nh : NextHop) :
    (nhStep rec st nh).1 = st.1 ∨ ∃ q, (nhStep rec st nh).1 = rec st.1 q := by
  obtain ⟨t, eg, inh⟩ := st
  simp only [nhStep]
  by_cases hi : inh.isSome
  · rw [if_pos hi]
    exact Or.inl rfl
  · rw [if_neg hi]
    cases hm : longestMatch t nh.addr with
    | none => exact Or.inl rfl
    | some q => exact Or.inr ⟨q, rfl⟩

theorem nhStep_skel (rec : Table → Pfx → Table)
    (hrec : ∀ t q, tblKeys (rec t q) = tblKeys t ∧
      ∀ j, coreAt (rec t q) j = coreAt t j)
    (st : Table × List Egress × Option FwdAction) (nh : NextHop) :
    tblKeys (nhStep rec st nh).1 = tblKeys st.1 ∧
    ∀ j, coreAt (nhStep rec st nh).1 j = coreAt st.1 j := by
  rcases nhStep_fst rec st nh with h | ⟨q, h⟩
  · rw [h]; exact ⟨rfl, fun _ => rfl⟩
  · rw [h]; exact hrec st.1 q

theorem nhFold_skel (rec : Table → Pfx → Table)
    (hrec : ∀ t q, tblKeys (rec t q) = tblKeys t ∧
      ∀ j, coreAt (rec t q) j = coreAt t j) :
    ∀ (nhs : List NextHop) (st : Table × List Egress × Option FwdAction),
      tblKeys (nhs.foldl (nhStep rec) st).1 = tblKeys st.1 ∧
      ∀ j, coreAt (nhs.foldl (nhStep rec) st).1 j = coreAt st.1 j := by
  intro nhs
  induction nhs with
  | nil => intro st; exact ⟨rfl, fun _ => rfl⟩
  | cons nh rest ih =>
    intro st
    rw [List.foldl_cons]
    have h1 := nhStep_skel rec hrec st nh
    have h2 := ih (nhStep rec st nh)
    exact ⟨h2.1.trans h1.1, fun j => (h2.2 j).trans (h1.2 j)⟩

/-- The body of the resolver preserves the key list and all route cores
whenever the recursive resolver it calls does. -/
theorem resolveBody_skel (rec : Table → Pfx → Table)
    (hrec : ∀ t q, tblKeys (rec t q) = tblKeys t ∧
      ∀ j, coreAt (rec t q) j = coreAt t j)
    (t : Table) (p : Pfx) (r : Route) :
    tblKeys (resolveBody rec t p r) = tblKeys t ∧
    ∀ q, coreAt (resolveBody rec t p r) q = coreAt t q := by
  unfold resolveBody
  by_cases h1 : (r.resolved || r.unresolvable) = true
  · rw [if_pos h1]; exact ⟨rfl, fun _ => rfl⟩
  · rw [if_neg h1]
    by_cases h2 : r.processing = true
    · rw [if_pos h2]
      exact ⟨tblKeys_bMark t p, fun q => coreAt_bMark t p q⟩
    · rw [if_neg h2]
      by_cases h3 : (r.action.isSome && decide (r.contribs = [])) = true
      · rw [if_pos h3]
        exact ⟨(tblKeys_settleWith _ p _).trans (tblKeys_markProcessing t p),
          fun q => (coreAt_settleWith _ p q _).trans (coreAt_markProcessing t p q)⟩
      · rw [if_neg h3]
        cases hc : r.connected with
        | some ia =>
          exact ⟨(tblKeys_settleWith _ p _).trans (tblKeys_markProcessing t p),
            fun q => (coreAt_settleWith _ p q _).trans (coreAt_markProcessing t p q)⟩
        | none =>
          have hfold := nhFold_skel rec hrec (bestListD r.contribs)
            (markProcessing t p, [], none)
          have hfin := resolveFinish_skel p
            ((bestListD r.contribs).foldl (nhStep rec) (markProcessing t p, [], none))
          refine ⟨hfin.1.trans (hfold.1.trans (tblKeys_markProcessing t p)), ?_⟩
          intro q
          exact (hfin.2 q).trans ((hfold.2 q).trans (coreAt_markProcessing t p q))

/-- The recursive resolver preserves the key list and all route cores. -/
theorem resolveGo_skel :
    ∀ (f : Nat) (t : Table) (p : Pfx),
      tblKeys (resolveGo f t p) = tblKeys t ∧
      ∀ q, coreAt (resolveGo f t p) q = coreAt t q := by
  intro f
  induction f with
  | zero => intro t p; exact ⟨rfl, fun _ => rfl⟩
  | succ f ih =>
    intro t p
    simp only [resolveGo]
    cases hl : lookupTbl t p with
    | none => exact ⟨rfl, fun _ => rfl⟩
    | some r => exact resolveBody_skel (resolveGo f) ih t p r

theorem resolveFold_skel :
    ∀ (ks : List Pfx) (t : Table),
      tblKeys (ks.foldl (fun t' p => resolveGo (t'.length + 1) t' p) t) = tblKeys t ∧
      ∀ q, coreAt (ks.foldl (fun t' p => resolveGo (t'.length + 1) t' p) t) q
        = coreAt t q := by
  intro ks
  induction ks with
  | nil => intro t; exact ⟨rfl, fun _ => rfl⟩
  | cons k rest ih =>
    intro t
    rw [List.foldl_cons]
    have h1 := resolveGo_skel (t.length + 1) t k
    have h2 := ih (resolveGo (t.length + 1) t k)
    exact ⟨h2.1.trans h1.1, fun q => (h2.2 q).trans (h1.2 q)⟩

/-- The whole resolution pass preserves the key list and all cores. -/
theorem resolveAll_skel (t : Table) :
    tblKeys (resolveAll t) = tblKeys t ∧
    ∀ q, coreAt (resolveAll t) q = coreAt t q :=
  resolveFold_skel (tblKeys t) t

theorem coreAt_resetAll (t : Table) (q : Pfx) :
    coreAt (resetAll t) q = coreAt t q := by
  unfold coreAt
  rw [lookupTbl_resetAll]
  cases lookupTbl t q <;> rfl

/-- The core of the generation bookkeeping's output route. -/
theorem coreOf_mergeFn (orig : Table) (q : Pfx) (r : Route) :
    coreOf (mergeFn orig q r) = coreOf r := by
  unfold mergeFn
  cases lookupTbl orig q with
  | none => rfl
  | some o =>
    show coreOf (if o.content = r.content then o
      else { r with generation := o.generation + 1 }) = coreOf r
    by_cases h : o.content = r.content
    · rw [if_pos h]
      have h1 : o.contribs = r.contribs := congrArg (fun x => x.contribs) h
      have h2 : o.action = r.action := congrArg (fun x => x.action) h
      have h3 : o.connected = r.connected := congrArg (fun x => x.connected) h
      unfold coreOf
      rw [h1, h2, h3]
    · rw [if_neg h]; rfl

theorem mem_keys_of_lookup_some (t : Table) (q : Pfx) (r : Route)
    (h : lookupTbl t q = some r) : q ∈ tblKeys t := by
  induction t with
  | nil => cases h
  | cons e l ih =>
    simp only [lookupTbl] at h
    by_cases h1 : e.1 = q
    · simp [tblKeys, h1]
    · rw [if_neg h1] at h
      simp only [tblKeys, List.map_cons, List.mem_cons]
      exact Or.inr (ih h)

theorem lookup_none_of_not_mem_keys (t : Table) (q : Pfx)
    (h : q ∉ tblKeys t) : lookupTbl t q = none := by
  induction t with
  | nil => rfl
  | cons e l ih =>
    simp only [tblKeys, List.map_cons, List.mem_cons] at h
    push_neg at h
    simp only [lookupTbl]
    rw [if_neg (fun hh => h.1 hh.symm)]
    exact ih h.2

theorem lookupTbl_prune_some (t : Table) (q : Pfx) (r : Route)
    (h : lookupTbl t q = some r) (he : emptyCore r = false) :
    lookupTbl (prune t) q = some r := by
  induction t with
  | nil => cases h
  | cons e l ih =>
    simp only [lookupTbl] at h
    by_cases h1 : e.1 = q
    · rw [if_pos h1] at h
      injection h with h
      subst h
      simp only [prune, List.filter, he, Bool.not_false]
      simp only [lookupTbl, if_pos h1]
    · rw [if_neg h1] at h
      simp only [prune, List.filter]
      cases hk : !emptyCore e.2 with
      | false => exact ih h
      | true =>
        simp only [lookupTbl, if_neg h1]
        exact ih h

theorem lookupTbl_prune_none (t : Table) (q : Pfx)
    (h : lookupTbl t q = none) : lookupTbl (prune t) q = none := by
  induction t with
  | nil => rfl
  | cons e l ih =>
    simp only [lookupTbl] at h
    by_cases h1 : e.1 = q
    · rw [if_pos h1] at h; cases h
    · rw [if_neg h1] at h
      simp only [prune, List.filter]
      cases hk : !emptyCore e.2 with
      | false => exact ih h
      | true =>
        simp only [lookupTbl, if_neg h1]
        exact ih h

theorem lookupTbl_prune_empty (t : Table) (q : Pfx) (r : Route)
    (hnd : (tblKeys t).Nodup) (h : lookupTbl t q = some r)
    (he : emptyCore r = true) : lookupTbl (prune t) q = none := by
  induction t with
  | nil => cases h
  | cons e l ih =>
    simp only [tblKeys, List.map_cons, List.nodup_cons] at hnd
    simp only [lookupTbl] at h
    by_cases h1 : e.1 = q
    · rw [if_pos h1] at h
      injection h with h
      subst h
      simp only [prune, List.filter, he, Bool.not_true]
      have : q ∉ tblKeys l := h1 ▸ hnd.1
      exact lookupTbl_prune_none l q (lookup_none_of_not_mem_keys l q this)
    · rw [if_neg h1] at h
      simp only [prune, List.filter]
      cases hk : !emptyCore e.2 with
      | false => exact ih hnd.2 h
      | true =>
        simp only [lookupTbl, if_neg h1]
        exact ih hnd.2 h

/-- Whatever update_done returns, the effective snapshot is the merged
table. -/
theorem effectiveTables_eq (orig u : Table) :
    effectiveTables orig u
      = mergeGens orig (prune (resolveAll (resetAll u))) := by
  unfold effectiveTables updateDone
  by_cases h : mergeGens orig (prune (resolveAll (resetAll u))) = orig
  · simp only [h, if_pos]
    rfl
  · simp only [h, if_neg, if_false, Option.getD_some]

/-- Emptiness of the core is determined by the core. -/
theorem emptyCore_of_core {a b : Route} (h : coreOf a = coreOf b) :
    emptyCore a = emptyCore b := by
  unfold coreOf at h
  have h1 : a.contribs = b.contribs := congrArg (fun x => x.1) h
  have h2 : a.action = b.action := congrArg (fun x => x.2.1) h
  have h3 : a.connected = b.connected := congrArg (fun x => x.2.2) h
  unfold emptyCore
  rw [h1, h2, h3]

/-- A nonempty-core route of the updater table survives to the published
snapshot with its core intact. -/
theorem effective_lookup_some (orig u : Table) (q : Pfx) (r : Route)
    (h : lookupTbl u q = some r) (he : emptyCore r = false) :
    ∃ rn, lookupTbl (effectiveTables orig u) q = some rn ∧
      coreOf rn = coreOf r := by
  rw [effectiveTables_eq, lookupTbl_mergeGens]
  have hX : coreAt (resolveAll (resetAll u)) q = some (coreOf r) := by
    rw [(resolveAll_skel (resetAll u)).2 q, coreAt_resetAll]
    unfold coreAt
    rw [h]
    rfl
  unfold coreAt at hX
  cases hx : lookupTbl (resolveAll (resetAll u)) q with
  | none => rw [hx] at hX; cases hX
  | some x =>
    rw [hx] at hX
    have hX' : some (coreOf x) = some (coreOf r) := hX
    have hcx : coreOf x = coreOf r := by injection hX'
    have hex : emptyCore x = false := (emptyCore_of_core hcx).trans he
    rw [lookupTbl_prune_some _ _ _ hx hex]
    exact ⟨mergeFn orig q x, rfl, (coreOf_mergeFn orig q x).trans hcx⟩

/-- A key absent from the updater table is absent from the published
snapshot. -/
theorem effective_lookup_none (orig u : Table) (q : Pfx)
    (h : lookupTbl u q = none) :
    lookupTbl (effectiveTables orig u) q = none := by
  rw [effectiveTables_eq, lookupTbl_mergeGens]
  have hX : coreAt (resolveAll (resetAll u)) q = none := by
    rw [(resolveAll_skel (resetAll u)).2 q, coreAt_resetAll]
    unfold coreAt
    rw [h]
    rfl
  unfold coreAt at hX
  cases hx : lookupTbl (resolveAll (resetAll u)) q with
  | none => rw [lookupTbl_prune_none _ _ hx]; rfl
  | some x => rw [hx] at hX; cases hX

/-- An empty-core route of the updater table is pruned from the published
snapshot. -/
theorem effective_lookup_empty (orig u : Table) (q : Pfx) (r : Route)
    (hnd : (tblKeys u).Nodup) (h : lookupTbl u q = some r)
    (he : emptyCore r = true) :
    lookupTbl (effectiveTables orig u) q = none := by
  rw [effectiveTables_eq, lookupTbl_mergeGens]
  have hX : coreAt (resolveAll (resetAll u)) q = some (coreOf r) := by
    rw [(resolveAll_skel (resetAll u)).2 q, coreAt_resetAll]
    unfold coreAt
    rw [h]
    rfl
  have hndX : (tblKeys (resolveAll (resetAll u))).Nodup := by
    rw [(resolveAll_skel (resetAll u)).1, tblKeys_resetAll]
    exact hnd
  unfold coreAt at hX
  cases hx : lookupTbl (resolveAll (resetAll u)) q with
  | none => rw [hx] at hX; cases hX
  | some x =>
    rw [hx] at hX
    have hX' : some (coreOf x) = some (coreOf r) := hX
    have hcx : coreOf x = coreOf r := by injection hX'
    have hex : emptyCore x = true := (emptyCore_of_core hcx).trans he
    rw [lookupTbl_prune_empty _ _ _ hndX hx hex]
    rfl

/-! ### C6: sync_fib replaces one client's whole contribution -/

theorem lookupC_insC_self (c : Nat) (v : List NextHop) (m : Contribs) :
    lookupC c (insC c v m) = some v := by
  induction m with
  | nil => simp [insC, lookupC]
  | cons e l ih =>
    obtain ⟨c', v'⟩ := e
    simp only [insC]
    by_cases h : c = c'
    · rw [if_pos h]
      simp [lookupC]
    · rw [if_neg h]
      by_cases h2 : c < c'
      · rw [if_pos h2]
        simp [lookupC]
      · rw [if_neg h2]
        simp only [lookupC]
        rw [if_neg (fun hh => h hh.symm)]
        exact ih

theorem lookupC_insC_ne (c c' : Nat) (hne : c' ≠ c) (v : List NextHop)
    (m : Contribs) : lookupC c' (insC c v m) = lookupC c' m := by
  induction m with
  | nil =>
    simp only [insC, lookupC]
    rw [if_neg (fun hh => hne hh.symm)]
  | cons e l ih =>
    obtain ⟨c0, v0⟩ := e
    simp only [insC]
    by_cases h : c = c0
    · rw [if_pos h]
      simp only [lookupC]
      rw [if_neg (fun hh => hne hh.symm), if_neg (fun hh => hne (h ▸ hh).symm)]
    · rw [if_neg h]
      by_cases h2 : c < c0
      · rw [if_pos h2]
        simp only [lookupC]
        rw [if_neg (fun hh => hne hh.symm)]
      · rw [if_neg h2]
        simp only [lookupC]
        by_cases h3 : c0 = c'
        · rw [if_pos h3, if_pos h3]
        · rw [if_neg h3, if_neg h3]
          exact ih

theorem lookupC_eraseC_ne (c c' : Nat) (hne : c' ≠ c) (m : Contribs) :
    lookupC c' (eraseC c m) = lookupC c' m := by
  induction m with
  | nil => rfl
  | cons e l ih =>
    obtain ⟨c0, v0⟩ := e
    simp only [eraseC]
    by_cases h : c = c0
    · rw [if_pos h]
      simp only [lookupC]
      rw [if_neg (fun hh => hne (h ▸ hh).symm)]
    · rw [if_neg h]
      simp only [lookupC]
      by_cases h3 : c0 = c'
      · rw [if_pos h3, if_pos h3]
      · rw [if_neg h3, if_neg h3]
        exact ih

theorem insC_ne_nil (c : Nat) (v : List NextHop) (m : Contribs) :
    insC c v m ≠ [] := by
  cases m with
  | nil => simp [insC]
  | cons e l =>
    obtain ⟨c', v'⟩ := e
    simp only [insC]
    by_cases h : c = c'
    · simp [h]
    · rw [if_neg h]
      by_cases h2 : c < c' <;> simp [h2]

theorem lookupTbl_insTbl (t : Table) (p : Pfx) (r : Route) (q : Pfx)
    (hp : lookupTbl t p = none) :
    lookupTbl (insTbl p r t) q = if q = p then some r else lookupTbl t q := by
  induction t with
  | nil =>
    simp only [insTbl, lookupTbl]
    by_cases h : q = p
    · rw [if_pos h.symm, if_pos h]
    · rw [if_neg (fun hh => h hh.symm), if_neg h]
  | cons e l ih =>
    simp only [lookupTbl] at hp
    by_cases hep : e.1 = p
    · rw [if_pos hep] at hp; cases hp
    · rw [if_neg hep] at hp
      simp only [insTbl]
      by_cases hlt : Pfx.lt p e.1 = true
      · rw [if_pos hlt]
        by_cases h : q = p
        · subst h
          simp [lookupTbl]
        · simp only [lookupTbl]
          rw [if_neg (fun hh => h hh.symm), if_neg h]
      · rw [if_neg hlt]
        simp only [lookupTbl]
        by_cases heq : e.1 = q
        · have hqp : q ≠ p := fun hh => hep (heq.trans hh)
          rw [if_pos heq, if_neg hqp, if_pos heq]
        · rw [if_neg heq, if_neg heq]
          exact ih hp

theorem lookupTbl_upsert (t : Table) (p : Pfx) (f : Route → Route) (q : Pfx) :
    lookupTbl (upsertTbl t p f) q =
      if q = p then some (f ((lookupTbl t p).getD freshRoute))
      else lookupTbl t q := by
  unfold upsertTbl
  cases hp : lookupTbl t p with
  | some r =>
    rw [lookupTbl_setRoute]
    by_cases h : q = p
    · subst h
      rw [hp]
      simp
    · rw [if_neg h]
      cases hq : lookupTbl t q with
      | none => rfl
      | some x => simp [h]
  | none =>
    rw [lookupTbl_insTbl t p (f freshRoute) q hp]
    rfl

/-- A key of the table has a route. -/
theorem lookup_isSome_of_mem_keys (t : Table) (q : Pfx) (h : q ∈ tblKeys t) :
    (lookupTbl t q).isSome = true := by
  induction t with
  | nil => cases h
  | cons e l ih =>
    simp only [tblKeys, List.map_cons, List.mem_cons] at h
    simp only [lookupTbl]
    by_cases he : e.1 = q
    · rw [if_pos he]; rfl
    · rw [if_neg he]
      rcases h with hh | hh
      · exact absurd hh.symm he
      · exact ih hh

theorem lookup_applyAddOp_ne (t : Table) (op : AddOp) (q : Pfx)
    (h : opPfx op ≠ q) :
    lookupTbl (applyAddOp t op) q = lookupTbl t q := by
  unfold applyAddOp
  by_cases hl : opLive op = true
  · rw [if_pos hl, lookupTbl_upsert, if_neg (fun hh => h hh.symm)]
  · rw [if_neg hl]

theorem lookup_applyAddOps_ne :
    ∀ (ops : List AddOp) (t : Table) (q : Pfx),
      (∀ op ∈ ops, opPfx op ≠ q) →
      lookupTbl (applyAddOps t ops) q = lookupTbl t q := by
  intro ops
  induction ops with
  | nil => intro t q _; rfl
  | cons op rest ih =>
    intro t q h
    have h1 := ih (applyAddOp t op) q (fun x hx => h x (List.mem_cons_of_mem op hx))
    have h2 := lookup_applyAddOp_ne t op q (h op (List.mem_cons_self op rest))
    exact h1.trans h2

theorem mem_keys_insTbl (t : Table) (p : Pfx) (r : Route) (q : Pfx) :
    q ∈ tblKeys (insTbl p r t) ↔ q = p ∨ q ∈ tblKeys t := by
  induction t with
  | nil => simp [insTbl, tblKeys]
  | cons e l ih =>
    simp only [insTbl]
    by_cases hlt : Pfx.lt p e.1 = true
    · rw [if_pos hlt]
      simp [tblKeys]
    · rw [if_neg hlt]
      simp only [tblKeys, List.map_cons, List.mem_cons] at ih ⊢
      rw [ih]
      tauto

theorem nodup_keys_insTbl (t : Table) (p : Pfx) (r : Route)
    (hp : p ∉ tblKeys t) (hnd : (tblKeys t).Nodup) :
    (tblKeys (insTbl p r t)).Nodup := by
  induction t with
  | nil => simp [insTbl, tblKeys]
  | cons e l ih =>
    simp only [tblKeys, List.map_cons, List.mem_cons, List.nodup_cons] at hp hnd
    push_neg at hp
    simp only [insTbl]
    by_cases hlt : Pfx.lt p e.1 = true
    · rw [if_pos hlt]
      simp only [tblKeys, List.map_cons, List.nodup_cons, List.mem_cons]
      refine ⟨?_, hnd⟩
      push_neg
      exact ⟨fun hh => hp.1 hh, fun hh => hp.2 hh⟩
    · rw [if_neg hlt]
      simp only [tblKeys, List.map_cons, List.nodup_cons]
      refine ⟨?_, ih hp.2 hnd.2⟩
      intro hmem
      rcases (mem_keys_insTbl l p r e.1).mp hmem with hh | hh
      · exact hp.1 hh.symm
      · exact hnd.1 hh

theorem nodup_keys_upsert (t : Table) (p : Pfx) (f : Route → Route)
    (hnd : (tblKeys t).Nodup) : (tblKeys (upsertTbl t p f)).Nodup := by
  unfold upsertTbl
  cases hp : lookupTbl t p with
  | some r => rw [tblKeys_setRoute]; exact hnd
  | none =>
    exact nodup_keys_insTbl t p (f freshRoute)
      (fun hmem => by
        have hs := lookup_isSome_of_mem_keys t p hmem
        rw [hp] at hs
        cases hs)
      hnd

theorem nodup_keys_applyAddOp (t : Table) (op : AddOp)
    (hnd : (tblKeys t).Nodup) : (tblKeys (applyAddOp t op)).Nodup := by
  unfold applyAddOp
  by_cases hl : opLive op = true
  · rw [if_pos hl]; exact nodup_keys_upsert t _ _ hnd
  · rw [if_neg hl]; exact hnd

theorem nodup_keys_applyAddOps :
    ∀ (ops : List AddOp) (t : Table), (tblKeys t).Nodup →
      (tblKeys (applyAddOps t ops)).Nodup := by
  intro ops
  induction ops with
  | nil => intro t h; exact h
  | cons op rest ih =>
    intro t h
    exact ih (applyAddOp t op) (nodup_keys_applyAddOp t op h)

theorem tblKeys_stripClient (t : Table) (c : Nat) :
    tblKeys (stripClient t c) = tblKeys t := by
  simp [tblKeys, stripClient]

/-- Components of a core equality. -/
theorem core_components {a b : Route} (h : coreOf a = coreOf b) :
    a.contribs = b.contribs ∧ a.action = b.action ∧ a.connected = b.connected :=
  ⟨congrArg (fun x => x.1) h, congrArg (fun x => x.2.1) h,
   congrArg (fun x => x.2.2) h⟩

/-- After the sequence of client adds of a sync_fib, a listed prefix
carries the client's new entry on top of whatever the base table held. -/
theorem syncAdds_lookup_mem :
    ∀ (routes : List (IP × Nat × List NextHop)) (t : Table) (c : Nat)
      (a : IP) (m : Nat) (nhs : List NextHop),
      (a, m, nhs) ∈ routes →
      (routes.map (fun e => mkPfx e.1 e.2.1)).Nodup →
      (∀ e ∈ routes, e.2.2 ≠ []) →
      lookupTbl
          (applyAddOps t (routes.map (fun e => AddOp.client e.1 e.2.1 c e.2.2)))
          (mkPfx a m)
        = some { (lookupTbl t (mkPfx a m)).getD freshRoute with
            contribs :=
              insC c nhs ((lookupTbl t (mkPfx a m)).getD freshRoute).contribs } := by
  intro routes
  induction routes with
  | nil => intro t c a m nhs hmem; cases hmem
  | cons e rest ih =>
    intro t c a m nhs hmem hnd hne
    simp only [List.map_cons, List.nodup_cons] at hnd
    rcases List.mem_cons.mp hmem with he | he
    · subst he
      have hne0 : nhs ≠ [] := hne (a, m, nhs) (List.mem_cons_self _ _)
      have hrest : ∀ op ∈ rest.map (fun e => AddOp.client e.1 e.2.1 c e.2.2),
          opPfx op ≠ mkPfx a m := by
        intro op hop hc
        obtain ⟨e', he', hop'⟩ := List.mem_map.mp hop
        apply hnd.1
        rw [← hop'] at hc
        exact hc ▸ List.mem_map.mpr ⟨e', he', rfl⟩
      have h1 := lookup_applyAddOps_ne
        (rest.map (fun e => AddOp.client e.1 e.2.1 c e.2.2))
        (applyAddOp t (.client a m c nhs)) (mkPfx a m) hrest
      have h2 : lookupTbl (applyAddOp t (.client a m c nhs)) (mkPfx a m)
          = some { (lookupTbl t (mkPfx a m)).getD freshRoute with
              contribs :=
                insC c nhs ((lookupTbl t (mkPfx a m)).getD freshRoute).contribs } := by
        have hl : opLive (AddOp.client a m c nhs) = true := by
          simp [opLive, hne0]
        unfold applyAddOp
        rw [if_pos hl]
        have hq := lookupTbl_upsert t (opPfx (AddOp.client a m c nhs))
          (opApply (AddOp.client a m c nhs)) (mkPfx a m)
        rw [hq, if_pos (show mkPfx a m = opPfx (AddOp.client a m c nhs) from rfl)]
        rfl
      exact h1.trans h2
    · have htgt : mkPfx a m ∈ rest.map (fun e => mkPfx e.1 e.2.1) :=
        List.mem_map.mpr ⟨(a, m, nhs), he, rfl⟩
      have hfirst : opPfx (AddOp.client e.1 e.2.1 c e.2.2) ≠ mkPfx a m :=
        fun hc => hnd.1 ((show mkPfx e.1 e.2.1 = mkPfx a m from hc) ▸ htgt)
      have h1 := ih (applyAddOp t (.client e.1 e.2.1 c e.2.2)) c a m nhs he hnd.2
        (fun x hx => hne x (List.mem_cons_of_mem _ hx))
      have h2 := lookup_applyAddOp_ne t (.client e.1 e.2.1 c e.2.2) (mkPfx a m) hfirst
      exact h1.trans (by rw [h2])

/-- C6: sync_fib(client, routes) followed by update_done replaces the
client's complete contribution: a prefix whose only contribution came
from this client and which is not re-listed disappears; a prefix with
other contributions (other clients, an action override, or connected
data) survives with exactly the client's entry removed and everything
else untouched; every listed prefix carries the client's new set while
the entries of all other clients and the action/connected (interface and
link-local derived) data at that prefix are untouched — in particular
prefixes absent from the table are created. -/
theorem syncFib_replaces_client :
    ∀ (t : Table) (c : Nat) (routes : List (IP × Nat × List NextHop)),
      (tblKeys t).Nodup →
      (routes.map (fun e => mkPfx e.1 e.2.1)).Nodup →
      (∀ e ∈ routes, e.2.2 ≠ []) →
      ((∀ (p : Pfx) (ro : Route), lookupTbl t p = some ro →
          (∀ e ∈ routes, mkPfx e.1 e.2.1 ≠ p) →
          eraseC c ro.contribs = [] → ro.action = none → ro.connected = none →
          lookupTbl (effectiveTables t (syncFib t c routes)) p = none)
      ∧ (∀ (p : Pfx) (ro : Route), lookupTbl t p = some ro →
          (∀ e ∈ routes, mkPfx e.1 e.2.1 ≠ p) →
          ¬(eraseC c ro.contribs = [] ∧ ro.action = none ∧ ro.connected = none) →
          ∃ rn, lookupTbl (effectiveTables t (syncFib t c routes)) p = some rn ∧
            rn.contribs = eraseC c ro.contribs ∧
            rn.action = ro.action ∧ rn.connected = ro.connected)
      ∧ (∀ (a : IP) (m : Nat) (nhs : List NextHop), (a, m, nhs) ∈ routes →
          ∃ rn, lookupTbl (effectiveTables t (syncFib t c routes)) (mkPfx a m)
              = some rn ∧
            lookupC c rn.contribs = some nhs ∧
            (∀ c', c' ≠ c → lookupC c' rn.contribs =
              lookupC c' (((lookupTbl t (mkPfx a m)).getD freshRoute).contribs)) ∧
            rn.action = ((lookupTbl t (mkPfx a m)).getD freshRoute).action ∧
            rn.connected = ((lookupTbl t (mkPfx a m)).getD freshRoute).connected)) := by
  intro t c routes hndT hndR hneR
  have hu : ∀ p, (∀ e ∈ routes, mkPfx e.1 e.2.1 ≠ p) →
      lookupTbl (syncFib t c routes) p =
        (lookupTbl t p).map (fun r => { r with contribs := eraseC c r.contribs }) := by
    intro p hnot
    unfold syncFib
    rw [lookup_applyAddOps_ne]
    · exact lookupTbl_stripClient t c p
    · intro op hop
      obtain ⟨e', he', hop'⟩ := List.mem_map.mp hop
      rw [← hop']
      exact hnot e' he'
  have hndU : (tblKeys (syncFib t c routes)).Nodup := by
    unfold syncFib
    apply nodup_keys_applyAddOps
    rw [tblKeys_stripClient]
    exact hndT
  refine ⟨?_, ?_, ?_⟩
  · intro p ro hro hnot hc1 hc2 hc3
    have h1 : lookupTbl (syncFib t c routes) p =
        some { ro with contribs := eraseC c ro.contribs } := by
      rw [hu p hnot, hro]
      rfl
    have hemp : emptyCore { ro with contribs := eraseC c ro.contribs } = true := by
      simp [emptyCore, hc1, hc2, hc3]
    exact effective_lookup_empty t _ p _ hndU h1 hemp
  · intro p ro hro hnot hsome
    have h1 : lookupTbl (syncFib t c routes) p =
        some { ro with contribs := eraseC c ro.contribs } := by
      rw [hu p hnot, hro]
      rfl
    have hemp : emptyCore { ro with contribs := eraseC c ro.contribs } = false := by
      unfold emptyCore
      by_cases hc1 : eraseC c ro.contribs = []
      · by_cases hc2 : ro.action = none
        · by_cases hc3 : ro.connected = none
          · exact absurd ⟨hc1, hc2, hc3⟩ hsome
          · simp [hc1, hc2, hc3]
        · simp [hc1, hc2]
      · simp [hc1]
    obtain ⟨rn, hrn, hcore⟩ := effective_lookup_some t _ p _ h1 hemp
    obtain ⟨g1, g2, g3⟩ := core_components hcore
    exact ⟨rn, hrn, g1, g2, g3⟩
  · intro a m nhs hmem
    have h1 : lookupTbl (syncFib t c routes) (mkPfx a m)
        = some { (lookupTbl (stripClient t c) (mkPfx a m)).getD freshRoute with
            contribs := insC c nhs
              ((lookupTbl (stripClient t c) (mkPfx a m)).getD freshRoute).contribs } :=
      syncAdds_lookup_mem routes (stripClient t c) c a m nhs hmem hndR hneR
    have hbase : (lookupTbl (stripClient t c) (mkPfx a m)).getD freshRoute
        = { (lookupTbl t (mkPfx a m)).getD freshRoute with
            contribs := eraseC c (((lookupTbl t (mkPfx a m)).getD freshRoute).contribs) } := by
      rw [lookupTbl_stripClient]
      cases lookupTbl t (mkPfx a m) with
      | none => rfl
      | some x => rfl
    rw [hbase] at h1
    have hemp : emptyCore { (lookupTbl t (mkPfx a m)).getD freshRoute with
        contribs := insC c nhs
          (eraseC c (((lookupTbl t (mkPfx a m)).getD freshRoute).contribs)) } = false := by
      unfold emptyCore
      simp [insC_ne_nil]
    obtain ⟨rn, hrn, hcore⟩ := effective_lookup_some t _ (mkPfx a m) _ h1 hemp
    obtain ⟨g1, g2, g3⟩ := core_components hcore
    refine ⟨rn, hrn, ?_, ?_, g2, g3⟩
    · rw [g1]
      exact lookupC_insC_self c nhs _
    · intro c' hc'
      rw [g1, lookupC_insC_ne c c' hc' nhs _, lookupC_eraseC_ne c c' hc' _]

/-- C6 witness base table: the syncFib test's route mix (client 1 alone
on 7.1.0.0/16, clients 1 and 2 on 7.2.0.0/16, clients 1, 2 and 3 on
aaaa:3::/64). -/
def sfT : Table :=
  effectiveTables [] (applyAddOps []
    [.client (ip4 7 1 0 0) 16 1 (mkNhs [ip4 11 11 11 11]),
     .client (ip4 7 2 0 0) 16 1 (mkNhs [ip4 11 11 11 11]),
     .client (ip4 7 2 0 0) 16 2 (mkNhs [ip4 22 22 22 22]),
     .client (ip6 43690 3 0 0 0 0 0 0) 64 1 (mkNhs [ip6 17 17 0 0 0 0 0 0]),
     .client (ip6 43690 3 0 0 0 0 0 0) 64 2 (mkNhs [ip6 34 34 0 0 0 0 0 0]),
     .client (ip6 43690 3 0 0 0 0 0 0) 64 3 (mkNhs [ip6 51 51 0 0 0 0 0 0])])

/-- C6 witness sync list: re-list aaaa:3::/64 with a new next-hop, add
aaaa:4::/64 and 7.4.0.0/16. -/
def sfRoutes : List (IP × Nat × List NextHop) :=
  [(ip6 43690 3 0 0 0 0 0 0, 64, mkNhs [ip6 68 68 0 0 0 0 0 0]),
   (ip6 43690 4 0 0 0 0 0 0, 64, mkNhs [ip6 68 68 0 0 0 0 0 0]),
   (ip4 7 4 0 0, 16, mkNhs [ip4 11 11 11 11])]

/-- The 7.1.0.0/16 route of the C6 witness base table. -/
def sfRo1 : Route := (lookupTbl sfT (mkPfx (ip4 7 1 0 0) 16)).getD freshRoute

/-- C6 witness: after sync_fib(client 1, sfRoutes), 7.1.0.0/16 (client
1's sole contribution, not re-listed) is gone, and the newly listed
7.4.0.0/16 carries client 1's set. -/
theorem syncFib_replaces_client_witness :
    lookupTbl (effectiveTables sfT (syncFib sfT 1 sfRoutes))
        (mkPfx (ip4 7 1 0 0) 16) = none ∧
    (∃ rn, lookupTbl (effectiveTables sfT (syncFib sfT 1 sfRoutes))
          (mkPfx (ip4 7 4 0 0) 16) = some rn ∧
      lookupC 1 rn.contribs = some (mkNhs [ip4 11 11 11 11]) ∧
      (∀ c', c' ≠ 1 → lookupC c' rn.contribs =
        lookupC c' (((lookupTbl sfT (mkPfx (ip4 7 4 0 0) 16)).getD freshRoute).contribs)) ∧
      rn.action = ((lookupTbl sfT (mkPfx (ip4 7 4 0 0) 16)).getD freshRoute).action ∧
      rn.connected
        = ((lookupTbl sfT (mkPfx (ip4 7 4 0 0) 16)).getD freshRoute).connected) :=
  ⟨(syncFib_replaces_client sfT 1 sfRoutes (by decide) (by decide) (by decide)).1
      (mkPfx (ip4 7 1 0 0) 16) sfRo1 (by decide) (by decide) (by decide)
      (by decide) (by decide),
   (syncFib_replaces_client sfT 1 sfRoutes (by decide) (by decide) (by decide)).2.2
      (ip4 7 4 0 0) 16 (mkNhs [ip4 11 11 11 11]) (by decide)⟩

/-! ### C10: the port remediator touches only operationally-down ports -/

theorem getPortIf_set (pm : PortMap) (i j : Nat) (s : PortState) :
    getPortIf (setPortState pm i s) j =
      (getPortIf pm j).map
        (fun p => if p.id = i then { p with state := s } else p) := by
  induction pm with
  | nil => rfl
  | cons q l ih =>
    have hid : ((if q.id = i then { q with state := s } else q) : Port).id = q.id := by
      by_cases hh : q.id = i <;> simp [hh]
    simp only [setPortState, List.map_cons, getPortIf] at ih ⊢
    by_cases h : q.id = j
    · rw [List.find?_cons_of_pos _ (by simp only [decide_eq_true_eq]; rw [hid]; exact h),
          List.find?_cons_of_pos _ (by simp [h])]
      rfl
    · rw [List.find?_cons_of_neg _ (by simp only [decide_eq_true_eq]; rw [hid]; exact h),
          List.find?_cons_of_neg _ (by simp [h])]
      exact ih

/-- In a port map with distinct ids, getPortIf finds each member port. -/
theorem getPortIf_mem (pm : PortMap) (p : Port)
    (hnd : (pm.map Port.id).Nodup) (hm : p ∈ pm) :
    getPortIf pm p.id = some p := by
  induction pm with
  | nil => cases hm
  | cons q l ih =>
    simp only [List.map_cons, List.nodup_cons] at hnd
    rcases List.mem_cons.mp hm with h | h
    · subst h
      simp [getPortIf, List.find?]
    · by_cases hq : q.id = p.id
      · exact absurd (hq ▸ List.mem_map.mpr ⟨p, h, rfl⟩) hnd.1
      · simp only [getPortIf] at ih ⊢
        rw [List.find?_cons_of_neg _ (by simp [hq])]
        exact ih hnd.2 h

/-- One remediator iteration leaves an operationally-up port's entry
unchanged. -/
theorem remStep_keeps_up (ports : PortMap) (new : PortState) (st : PortMap)
    (i : Nat) (p : Port) (hport : getPortIf ports p.id = some p)
    (hop : p.operState = true) (hst : getPortIf st p.id = some p) :
    getPortIf (remStep ports new st i) p.id = some p := by
  unfold remStep
  by_cases h0 : i = 0
  · simp [h0, hst]
  · rw [if_neg h0]
    by_cases hip : i = p.id
    · subst hip
      rw [hport]
      simp [hop, hst]
    · match hg : getPortIf ports i with
      | none => exact hst
      | some port =>
        by_cases ho : port.operState = true
        · simp [ho, hst]
        · simp only [ho, if_false, Bool.false_eq_true]
          rw [getPortIf_set, hst]
          have hne : p.id ≠ i := fun hh => hip hh.symm
          simp [hne]

/-- One remediator iteration introduces no port id. -/
theorem remStep_keeps_none (ports : PortMap) (new : PortState) (st : PortMap)
    (i j : Nat) (hst : getPortIf st j = none) :
    getPortIf (remStep ports new st i) j = none := by
  unfold remStep
  by_cases h0 : i = 0
  · simp [h0, hst]
  · rw [if_neg h0]
    match getPortIf ports i with
    | none => exact hst
    | some port =>
      by_cases ho : port.operState = true
      · simp [ho, hst]
      · simp only [ho, if_false, Bool.false_eq_true]
        rw [getPortIf_set, hst]
        rfl

/-- C10: a remediation pass changes only operationally-down ports: every
port that is operationally up keeps its entry (admin state included)
unchanged in the new state, and every id absent from the port map stays
absent. -/
theorem port_remediator_frame :
    (∀ (pm : PortMap) (s : PortState) (p : Port),
        (pm.map Port.id).Nodup → p ∈ pm → p.operState = true →
        getPortIf (updatePortState pm s) p.id = some p)
  ∧ (∀ (pm : PortMap) (s : PortState) (j : Nat),
        getPortIf pm j = none → getPortIf (updatePortState pm s) j = none) := by
  constructor
  · intro pm s p hnd hm hop
    have hport : getPortIf pm p.id = some p := getPortIf_mem pm p hnd hm
    have hfold : ∀ (l : List Nat) (st : PortMap), getPortIf st p.id = some p →
        getPortIf (l.foldl (remStep pm s) st) p.id = some p := by
      intro l
      induction l with
      | nil => intro st hst; exact hst
      | cons i l ih =>
        intro st hst
        exact ih (remStep pm s st i) (remStep_keeps_up pm s st i p hport hop hst)
    exact hfold (List.range pm.length) pm hport
  · intro pm s j hnone
    have hfold : ∀ (l : List Nat) (st : PortMap), getPortIf st j = none →
        getPortIf (l.foldl (remStep pm s) st) j = none := by
      intro l
      induction l with
      | nil => intro st hst; exact hst
      | cons i l ih =>
        intro st hst
        exact ih (remStep pm s st i) (remStep_keeps_none pm s st i j hst)
    exact hfold (List.range pm.length) pm hnone

/-- C10 witness: in a two-port map where port 1 is operationally up and
port 2 is down, a DOWN pass keeps port 1 untouched and invents no
port 7. -/
theorem port_remediator_frame_witness :
    getPortIf (updatePortState [⟨1, .UP, true⟩, ⟨2, .UP, false⟩] .DOWN) 1
        = some ⟨1, .UP, true⟩ ∧
    getPortIf (updatePortState [⟨1, .UP, true⟩, ⟨2, .UP, false⟩] .DOWN) 7 = none :=
  ⟨port_remediator_frame.1 [⟨1, .UP, true⟩, ⟨2, .UP, false⟩] .DOWN ⟨1, .UP, true⟩
      (by decide) (by decide) rfl,
   port_remediator_frame.2 [⟨1, .UP, true⟩, ⟨2, .UP, false⟩] .DOWN 7 (by decide)⟩

/-! ### C4: replaying the same add_route batch is a no-op -/

/-- The live add_route calls of a batch that target prefix q, in order. -/
def opsAt (q : Pfx) (ops : List AddOp) : List AddOp :=
  ops.filter (fun op => opLive op && decide (opPfx op = q))

/-- Fold the per-route effects of a call list over one route. -/
def opsFold (l : List AddOp) (r : Route) : Route :=
  l.foldl (fun r op => opApply op r) r

/-- Combine an earlier call with the value the later calls left. -/
def lastActStep (op : AddOp) (acc : Option FwdAction) : Option FwdAction :=
  match acc with
  | some x => some x
  | none => match op with | .act _ _ x => some x | _ => none

/-- The action override left by a call list (later calls win). -/
def lastAct : List AddOp → Option FwdAction
  | [] => none
  | op :: l => lastActStep op (lastAct l)

/-- Combine an earlier call with the connected data the later calls left. -/
def lastConnStep (op : AddOp) (acc : Option (Nat × IP)) : Option (Nat × IP) :=
  match acc with
  | some v => some v
  | none => match op with | .conn i a _ => some (i, a) | _ => none

/-- The connected data left by a call list (later calls win). -/
def lastConn : List AddOp → Option (Nat × IP)
  | [] => none
  | op :: l => lastConnStep op (lastConn l)

/-- Combine an earlier call with the set the later calls left for client c. -/
def lastClStep (c : Nat) (op : AddOp) (acc : Option (List NextHop)) :
    Option (List NextHop) :=
  match acc with
  | some v => some v
  | none =>
    match op with
    | .client _ _ c' nhs => if c' = c then some nhs else none
    | _ => none

/-- The next-hop set a call list leaves for one client (later calls win). -/
def lastCl (c : Nat) : List AddOp → Option (List NextHop)
  | [] => none
  | op :: l => lastClStep c op (lastCl c l)

theorem lookup_applyAddOp_self (t : Table) (op : AddOp)
    (hl : opLive op = true) :
    lookupTbl (applyAddOp t op) (opPfx op)
      = some (opApply op ((lookupTbl t (opPfx op)).getD freshRoute)) := by
  unfold applyAddOp
  rw [if_pos hl, lookupTbl_upsert, if_pos rfl]

/-- Per-key trace of a batch of add_route calls: the route a batch leaves
at q is the fold of the calls that target q over the starting route (the
stored one, or a fresh one). -/
theorem lookup_applyAddOps_trace :
    ∀ (ops : List AddOp) (t : Table) (q : Pfx),
      lookupTbl (applyAddOps t ops) q =
        if opsAt q ops = [] then lookupTbl t q
        else some (opsFold (opsAt q ops) ((lookupTbl t q).getD freshRoute)) := by
  intro ops
  induction ops with
  | nil => intro t q; rw [if_pos (show opsAt q [] = [] from rfl)]; rfl
  | cons op rest ih =>
    intro t q
    have hstep : applyAddOps t (op :: rest) = applyAddOps (applyAddOp t op) rest := rfl
    by_cases hat : (opLive op && decide (opPfx op = q)) = true
    · have hboth : opLive op = true ∧ decide (opPfx op = q) = true :=
        (Bool.and_eq_true (opLive op) (decide (opPfx op = q))) ▸ hat
      have hlive : opLive op = true := hboth.1
      have hpfx : opPfx op = q := of_decide_eq_true hboth.2
      have hAt : opsAt q (op :: rest) = op :: opsAt q rest := by
        unfold opsAt
        exact @List.filter_cons_of_pos AddOp
          (fun o => opLive o && decide (opPfx o = q)) op rest hat
      have hbase : lookupTbl (applyAddOp t op) q
          = some (opApply op ((lookupTbl t q).getD freshRoute)) := by
        rw [← hpfx]
        exact lookup_applyAddOp_self t op hlive
      rw [hstep, ih (applyAddOp t op) q, hAt,
          if_neg (List.cons_ne_nil op (opsAt q rest)), hbase]
      by_cases hrest : opsAt q rest = []
      · rw [if_pos hrest, hrest]
        rfl
      · rw [if_neg hrest]
        rfl
    · have hAt : opsAt q (op :: rest) = opsAt q rest := by
        unfold opsAt
        exact @List.filter_cons_of_neg AddOp
          (fun o => opLive o && decide (opPfx o = q)) op rest hat
      have hbase : lookupTbl (applyAddOp t op) q = lookupTbl t q := by
        by_cases hlive : opLive op = true
        · refine lookup_applyAddOp_ne t op q (fun hpq => hat ?_)
          rw [hlive, hpq]
          simp
        · unfold applyAddOp
          rw [if_neg hlive]
      rw [hstep, ih (applyAddOp t op) q, hAt, hbase]

theorem opsFold_action : ∀ (l : List AddOp) (r : Route),
    (opsFold l r).action = (lastAct l).elim r.action some := by
  intro l
  induction l with
  | nil => intro r; rfl
  | cons op l ih =>
    intro r
    have hstep : opsFold (op :: l) r = opsFold l (opApply op r) := rfl
    rw [hstep, ih (opApply op r)]
    have hrec : lastAct (op :: l) = lastActStep op (lastAct l) := rfl
    cases hL : lastAct l with
    | some x =>
      have h2 : lastAct (op :: l) = some x := by rw [hrec, hL]; rfl
      rw [h2]
      rfl
    | none =>
      have h2 : lastAct (op :: l) = lastActStep op none := by rw [hrec, hL]
      rw [h2]
      cases op with
      | client a m c nhs => rfl
      | act a m x => rfl
      | conn i a m => rfl

theorem opsFold_connected : ∀ (l : List AddOp) (r : Route),
    (opsFold l r).connected = (lastConn l).elim r.connected some := by
  intro l
  induction l with
  | nil => intro r; rfl
  | cons op l ih =>
    intro r
    have hstep : opsFold (op :: l) r = opsFold l (opApply op r) := rfl
    rw [hstep, ih (opApply op r)]
    have hrec : lastConn (op :: l) = lastConnStep op (lastConn l) := rfl
    cases hL : lastConn l with
    | some v =>
      have h2 : lastConn (op :: l) = some v := by rw [hrec, hL]; rfl
      rw [h2]
      rfl
    | none =>
      have h2 : lastConn (op :: l) = lastConnStep op none := by rw [hrec, hL]
      rw [h2]
      cases op with
      | client a m c nhs => rfl
      | act a m x => rfl
      | conn i a m => rfl

theorem opsFold_lookupC : ∀ (l : List AddOp) (r : Route) (c : Nat),
    lookupC c (opsFold l r).contribs
      = (lastCl c l).elim (lookupC c r.contribs) some := by
  intro l
  induction l with
  | nil => intro r c; rfl
  | cons op l ih =>
    intro r c
    have hstep : opsFold (op :: l) r = opsFold l (opApply op r) := rfl
    rw [hstep, ih (opApply op r) c]
    have hrec : lastCl c (op :: l) = lastClStep c op (lastCl c l) := rfl
    cases hL : lastCl c l with
    | some v =>
      have h2 : lastCl c (op :: l) = some v := by rw [hrec, hL]; rfl
      rw [h2]
      rfl
    | none =>
      have h2 : lastCl c (op :: l) = lastClStep c op none := by rw [hrec, hL]
      rw [h2]
      cases op with
      | client a m c' nhs =>
        have h3 : lastClStep c (AddOp.client a m c' nhs) none
            = if c' = c then some nhs else none := rfl
        rw [h3]
        by_cases hc : c' = c
        · rw [if_pos hc]
          subst hc
          show lookupC c' (insC c' nhs r.contribs) = some nhs
          exact lookupC_insC_self c' nhs r.contribs
        · rw [if_neg hc]
          show lookupC c (insC c' nhs r.contribs) = lookupC c r.contribs
          exact lookupC_insC_ne c' c (fun h => hc h.symm) nhs r.contribs
      | act a m x => rfl
      | conn i a m => rfl

theorem sortedC_cons (e : Nat × List NextHop) (m : Contribs)
    (hm : sortedC m = true) (hb : ∀ x ∈ m, e.1 < x.1) :
    sortedC (e :: m) = true := by
  obtain ⟨c, s⟩ := e
  cases m with
  | nil => rfl
  | cons f l =>
    obtain ⟨c', s'⟩ := f
    show (decide (c < c') && sortedC ((c', s') :: l)) = true
    rw [hm, decide_eq_true (hb (c', s') (List.mem_cons_self _ _))]
    rfl

theorem sortedC_inv :
    ∀ (m : Contribs) (e : Nat × List NextHop),
      sortedC (e :: m) = true → sortedC m = true ∧ ∀ x ∈ m, e.1 < x.1 := by
  intro m
  induction m with
  | nil =>
    intro e h
    exact ⟨rfl, by intro x hx; cases hx⟩
  | cons f l ih =>
    intro e h
    obtain ⟨c, s⟩ := e
    obtain ⟨c', s'⟩ := f
    have h' : (decide (c < c') && sortedC ((c', s') :: l)) = true := h
    have hparts : decide (c < c') = true ∧ sortedC ((c', s') :: l) = true :=
      (Bool.and_eq_true _ _) ▸ h'
    have hcc : c < c' := of_decide_eq_true hparts.1
    have hih := ih (c', s') hparts.2
    refine ⟨hparts.2, ?_⟩
    intro x hx
    rcases List.mem_cons.mp hx with hx | hx
    · rw [hx]; exact hcc
    · exact Nat.lt_trans hcc (hih.2 x hx)

theorem mem_insC_elim (c : Nat) (v : List NextHop) :
    ∀ (m : Contribs) (x : Nat × List NextHop),
      x ∈ insC c v m → x = (c, v) ∨ x ∈ m := by
  intro m
  induction m with
  | nil =>
    intro x hx
    exact Or.inl (List.mem_singleton.mp hx)
  | cons f l ih =>
    intro x hx
    obtain ⟨c', v'⟩ := f
    by_cases h1 : c = c'
    · have he : insC c v ((c', v') :: l) = (c, v) :: l := by
        show (if c = c' then (c, v) :: l
              else if c < c' then (c, v) :: (c', v') :: l
              else (c', v') :: insC c v l) = (c, v) :: l
        rw [if_pos h1]
      rw [he] at hx
      rcases List.mem_cons.mp hx with h | h
      · exact Or.inl h
      · exact Or.inr (List.mem_cons_of_mem _ h)
    · by_cases h2 : c < c'
      · have he : insC c v ((c', v') :: l) = (c, v) :: (c', v') :: l := by
          show (if c = c' then (c, v) :: l
                else if c < c' then (c, v) :: (c', v') :: l
                else (c', v') :: insC c v l) = (c, v) :: (c', v') :: l
          rw [if_neg h1, if_pos h2]
        rw [he] at hx
        rcases List.mem_cons.mp hx with h | h
        · exact Or.inl h
        · exact Or.inr h
      · have he : insC c v ((c', v') :: l) = (c', v') :: insC c v l := by
          show (if c = c' then (c, v) :: l
                else if c < c' then (c, v) :: (c', v') :: l
                else (c', v') :: insC c v l) = (c', v') :: insC c v l
          rw [if_neg h1, if_neg h2]
        rw [he] at hx
        rcases List.mem_cons.mp hx with h | h
        · exact Or.inr (h ▸ List.mem_cons_self _ _)
        · rcases ih x h with h' | h'
          · exact Or.inl h'
          · exact Or.inr (List.mem_cons_of_mem _ h')

theorem sortedC_insC (c : Nat) (v : List NextHop) :
    ∀ (m : Contribs), sortedC m = true → sortedC (insC c v m) = true := by
  intro m
  induction m with
  | nil => intro _; rfl
  | cons f l ih =>
    intro h
    obtain ⟨c', v'⟩ := f
    have hinv := sortedC_inv l (c', v') h
    by_cases h1 : c = c'
    · have he : insC c v ((c', v') :: l) = (c, v) :: l := by
        show (if c = c' then (c, v) :: l
              else if c < c' then (c, v) :: (c', v') :: l
              else (c', v') :: insC c v l) = (c, v) :: l
        rw [if_pos h1]
      rw [he]
      apply sortedC_cons (c, v) l hinv.1
      intro x hx
      show c < x.1
      rw [h1]
      exact hinv.2 x hx
    · by_cases h2 : c < c'
      · have he : insC c v ((c', v') :: l) = (c, v) :: (c', v') :: l := by
          show (if c = c' then (c, v) :: l
                else if c < c' then (c, v) :: (c', v') :: l
                else (c', v') :: insC c v l) = (c, v) :: (c', v') :: l
          rw [if_neg h1, if_pos h2]
        rw [he]
        apply sortedC_cons (c, v) ((c', v') :: l) h
        intro x hx
        rcases List.mem_cons.mp hx with hx | hx
        · rw [hx]; exact h2
        · exact Nat.lt_trans h2 (hinv.2 x hx)
      · have hcc : c' < c :=
          Nat.lt_of_le_of_ne (Nat.not_lt.mp h2) (fun hh => h1 hh.symm)
        have he : insC c v ((c', v') :: l) = (c', v') :: insC c v l := by
          show (if c = c' then (c, v) :: l
                else if c < c' then (c, v) :: (c', v') :: l
                else (c', v') :: insC c v l) = (c', v') :: insC c v l
          rw [if_neg h1, if_neg h2]
        rw [he]
        apply sortedC_cons (c', v') (insC c v l) (ih hinv.1)
        intro x hx
        rcases mem_insC_elim c v l x hx with hx | hx
        · rw [hx]; exact hcc
        · exact hinv.2 x hx

theorem sortedC_opApply (op : AddOp) (r : Route)
    (h : sortedC r.contribs = true) :
    sortedC (opApply op r).contribs = true := by
  cases op with
  | client a m c nhs =>
    show sortedC (insC c nhs r.contribs) = true
    exact sortedC_insC c nhs r.contribs h
  | act a m x => exact h
  | conn i a m => exact h

theorem sortedC_opsFold : ∀ (l : List AddOp) (r : Route),
    sortedC r.contribs = true → sortedC (opsFold l r).contribs = true := by
  intro l
  induction l with
  | nil => intro r h; exact h
  | cons op l ih =>
    intro r h
    have hstep : opsFold (op :: l) r = opsFold l (opApply op r) := rfl
    rw [hstep]
    exact ih (opApply op r) (sortedC_opApply op r h)

theorem lookupC_mem : ∀ (m : Contribs) (c : Nat) (v : List NextHop),
    lookupC c m = some v → (c, v) ∈ m := by
  intro m
  induction m with
  | nil => intro c v h; cases h
  | cons f l ih =>
    intro c v h
    obtain ⟨c', v'⟩ := f
    have h' : (if c' = c then some v' else lookupC c l) = some v := h
    by_cases hc : c' = c
    · rw [if_pos hc] at h'
      subst hc
      rw [← Option.some.inj h']
      exact List.mem_cons_self _ _
    · rw [if_neg hc] at h'
      exact List.mem_cons_of_mem _ (ih c v h')

theorem lookupC_none_of_bound (b : Nat) :
    ∀ (m : Contribs), (∀ e ∈ m, b < e.1) → lookupC b m = none := by
  intro m
  induction m with
  | nil => intro _; rfl
  | cons f l ih =>
    intro h
    obtain ⟨c', v'⟩ := f
    have hb : b < c' := h (c', v') (List.mem_cons_self _ _)
    show (if c' = b then some v' else lookupC b l) = none
    rw [if_neg (fun hh : c' = b => Nat.lt_irrefl b (hh ▸ hb))]
    exact ih (fun e he => h e (List.mem_cons_of_mem _ he))

/-- Sorted contribution maps that agree on every client lookup are equal. -/
theorem contribs_ext :
    ∀ (m m' : Contribs), sortedC m = true → sortedC m' = true →
      (∀ c, lookupC c m = lookupC c m') → m = m' := by
  intro m
  induction m with
  | nil =>
    intro m' _ _ hl
    cases m' with
    | nil => rfl
    | cons f l' =>
      obtain ⟨c', v'⟩ := f
      have h := hl c'
      have h2 : lookupC c' ((c', v') :: l') = some v' := by
        show (if c' = c' then some v' else lookupC c' l') = some v'
        rw [if_pos rfl]
      rw [h2] at h
      exact Option.noConfusion h
  | cons e l ih =>
    intro m' hs hs' hl
    obtain ⟨c, v⟩ := e
    cases m' with
    | nil =>
      have h := hl c
      have h2 : lookupC c ((c, v) :: l) = some v := by
        show (if c = c then some v else lookupC c l) = some v
        rw [if_pos rfl]
      rw [h2] at h
      exact Option.noConfusion h
    | cons f l' =>
      obtain ⟨c', v'⟩ := f
      have hinv := sortedC_inv l (c, v) hs
      have hinv' := sortedC_inv l' (c', v') hs'
      have hcv : lookupC c ((c, v) :: l) = some v := by
        show (if c = c then some v else lookupC c l) = some v
        rw [if_pos rfl]
      have hcv' : lookupC c' ((c', v') :: l') = some v' := by
        show (if c' = c' then some v' else lookupC c' l') = some v'
        rw [if_pos rfl]
      have h1 : lookupC c ((c', v') :: l') = some v := by
        rw [← hl c]; exact hcv
      have h2 : lookupC c' ((c, v) :: l) = some v' := by
        rw [hl c']; exact hcv'
      have hm1 := lookupC_mem _ c v h1
      have hm2 := lookupC_mem _ c' v' h2
      have hcc : c = c' ∧ v = v' := by
        rcases List.mem_cons.mp hm1 with h | h
        · exact ⟨congrArg Prod.fst h, congrArg Prod.snd h⟩
        · rcases List.mem_cons.mp hm2 with h' | h'
          · exact ⟨(congrArg Prod.fst h').symm, (congrArg Prod.snd h').symm⟩
          · have ha := hinv'.2 (c, v) h
            have hb := hinv.2 (c', v') h'
            exact absurd (Nat.lt_trans ha hb) (Nat.lt_irrefl c')
      obtain ⟨hc, hv⟩ := hcc
      subst hc
      subst hv
      have htl : ∀ cc, lookupC cc l = lookupC cc l' := by
        intro cc
        by_cases hq : cc = c
        · subst hq
          rw [lookupC_none_of_bound cc l (fun e he => hinv.2 e he),
              lookupC_none_of_bound cc l' (fun e he => hinv'.2 e he)]
        · have hll := hl cc
          have e1 : lookupC cc ((c, v) :: l) = lookupC cc l := by
            show (if c = cc then some v else lookupC cc l) = lookupC cc l
            rw [if_neg (fun hh => hq hh.symm)]
          have e2 : lookupC cc ((c, v) :: l') = lookupC cc l' := by
            show (if c = cc then some v else lookupC cc l') = lookupC cc l'
            rw [if_neg (fun hh => hq hh.symm)]
          rw [e1, e2] at hll
          exact hll
      rw [ih l' hinv.1 hinv'.1 htl]

/-- Replaying a call list over a route that already carries its outcome
leaves the route's core unchanged. -/
theorem opsFold_idem_core (l : List AddOp) (r0 s : Route)
    (hsr0 : sortedC r0.contribs = true)
    (h : coreOf s = coreOf (opsFold l r0)) :
    coreOf (opsFold l s) = coreOf s := by
  obtain ⟨h1, h2, h3⟩ := core_components h
  have hact : (opsFold l s).action = s.action := by
    rw [opsFold_action l s, h2, opsFold_action l r0]
    cases lastAct l with
    | none => rfl
    | some x => rfl
  have hconn : (opsFold l s).connected = s.connected := by
    rw [opsFold_connected l s, h3, opsFold_connected l r0]
    cases lastConn l with
    | none => rfl
    | some v => rfl
  have hcon : (opsFold l s).contribs = s.contribs := by
    apply contribs_ext
    · apply sortedC_opsFold
      rw [h1]
      exact sortedC_opsFold l r0 hsr0
    · rw [h1]; exact sortedC_opsFold l r0 hsr0
    · intro cc
      rw [opsFold_lookupC l s cc, h1, opsFold_lookupC l r0 cc]
      cases lastCl cc l with
      | none => rfl
      | some v => rfl
  unfold coreOf
  rw [hact, hconn, hcon]

/-- Tables with the same key sequence that agree on every lookup are
equal. -/
theorem tbl_ext : ∀ (t t' : Table), tblKeys t = tblKeys t' →
    (tblKeys t).Nodup → (∀ q, lookupTbl t q = lookupTbl t' q) → t = t' := by
  intro t
  induction t with
  | nil =>
    intro t' hk _ _
    cases t' with
    | nil => rfl
    | cons e l => exact absurd hk (by simp [tblKeys])
  | cons e l ih =>
    intro t' hk hnd hl
    cases t' with
    | nil => exact absurd hk (by simp [tblKeys])
    | cons e' l' =>
      obtain ⟨hk1, hk2⟩ : e.1 = e'.1 ∧ tblKeys l = tblKeys l' := by
        have hk' : e.1 :: tblKeys l = e'.1 :: tblKeys l' := hk
        exact List.cons.injEq _ _ _ _ ▸ hk'
      have hndl : e.1 ∉ tblKeys l ∧ (tblKeys l).Nodup :=
        List.nodup_cons.mp (show (e.1 :: tblKeys l).Nodup from hnd)
      have he2 : e.2 = e'.2 := by
        have hA : lookupTbl (e :: l) e.1 = some e.2 := by
          show (if e.1 = e.1 then some e.2 else lookupTbl l e.1) = some e.2
          rw [if_pos rfl]
        have hB : lookupTbl (e' :: l') e.1 = some e'.2 := by
          show (if e'.1 = e.1 then some e'.2 else lookupTbl l' e.1) = some e'.2
          rw [if_pos hk1.symm]
        exact Option.some.inj (hA.symm.trans ((hl e.1).trans hB))
      have htl : ∀ q, lookupTbl l q = lookupTbl l' q := by
        intro q
        by_cases hq : q = e.1
        · rw [hq, lookup_none_of_not_mem_keys l e.1 hndl.1,
              lookup_none_of_not_mem_keys l' e.1 (hk2 ▸ hndl.1)]
        · have hA : lookupTbl (e :: l) q = lookupTbl l q := by
            show (if e.1 = q then some e.2 else lookupTbl l q) = lookupTbl l q
            rw [if_neg (fun hh => hq hh.symm)]
          have hB : lookupTbl (e' :: l') q = lookupTbl l' q := by
            show (if e'.1 = q then some e'.2 else lookupTbl l' q) = lookupTbl l' q
            rw [if_neg (fun hh => hq ((hk1.trans hh).symm))]
          exact hA.symm.trans ((hl q).trans hB)
      have hee : e = e' := Prod.ext hk1 he2
      rw [hee, ih l' hk2 hndl.2 htl]

theorem mem_of_lookup_some : ∀ (t : Table) (q : Pfx) (r : Route),
    lookupTbl t q = some r → (q, r) ∈ t := by
  intro t
  induction t with
  | nil => intro q r h; cases h
  | cons e l ih =>
    intro q r h
    have h' : (if e.1 = q then some e.2 else lookupTbl l q) = some r := h
    by_cases hq : e.1 = q
    · rw [if_pos hq] at h'
      subst hq
      rw [← Option.some.inj h']
      exact List.mem_cons_self _ _
    · rw [if_neg hq] at h'
      exact List.mem_cons_of_mem _ (ih q r h')

theorem lookup_of_mem_nodup : ∀ (t : Table), (tblKeys t).Nodup →
    ∀ e ∈ t, lookupTbl t e.1 = some e.2 := by
  intro t
  induction t with
  | nil => intro _ e he; cases he
  | cons f l ih =>
    intro hnd e he
    have hnd' := List.nodup_cons.mp (show (f.1 :: tblKeys l).Nodup from hnd)
    rcases List.mem_cons.mp he with he | he
    · subst he
      show (if e.1 = e.1 then some e.2 else lookupTbl l e.1) = some e.2
      rw [if_pos rfl]
    · have hne : f.1 ≠ e.1 := by
        intro hh
        apply hnd'.1
        rw [hh]
        exact List.mem_map.mpr ⟨e, he, rfl⟩
      show (if f.1 = e.1 then some f.2 else lookupTbl l e.1) = some e.2
      rw [if_neg hne]
      exact ih hnd'.2 e he

theorem mem_setRoute_elim {t : Table} {p : Pfx} {f : Route → Route}
    {e : Pfx × Route} (he : e ∈ setRoute t p f) :
    ∃ e' ∈ t, e.1 = e'.1 ∧ (e.2 = f e'.2 ∨ e.2 = e'.2) := by
  obtain ⟨e', he', heq⟩ := List.mem_map.mp he
  refine ⟨e', he', ?_⟩
  rw [← heq]
  constructor
  · rfl
  · by_cases hc : e'.1 = p
    · left
      show (if e'.1 = p then f e'.2 else e'.2) = f e'.2
      rw [if_pos hc]
    · right
      show (if e'.1 = p then f e'.2 else e'.2) = e'.2
      rw [if_neg hc]

theorem mem_insTbl_elim : ∀ (t : Table) {p : Pfx} {r : Route}
    {e : Pfx × Route}, e ∈ insTbl p r t → e = (p, r) ∨ e ∈ t := by
  intro t
  induction t with
  | nil =>
    intro p r e he
    exact Or.inl (List.mem_singleton.mp he)
  | cons f l ih =>
    intro p r e he
    obtain ⟨q, v⟩ := f
    have hdef : insTbl p r ((q, v) :: l)
        = if Pfx.lt p q then (p, r) :: (q, v) :: l
          else (q, v) :: insTbl p r l := rfl
    rw [hdef] at he
    by_cases hlt : Pfx.lt p q = true
    · rw [if_pos hlt] at he
      rcases List.mem_cons.mp he with h | h
      · exact Or.inl h
      · exact Or.inr h
    · rw [if_neg hlt] at he
      rcases List.mem_cons.mp he with h | h
      · exact Or.inr (h ▸ List.mem_cons_self _ _)
      · rcases ih h with h' | h'
        · exact Or.inl h'
        · exact Or.inr (List.mem_cons_of_mem _ h')

/-- An invariant of routes that every add_route effect preserves (and
that the effect establishes on a fresh route) holds for every entry a
call leaves in the table. -/
theorem entries_applyAddOp (P : Route → Prop) (t : Table) (op : AddOp)
    (hP : ∀ e ∈ t, P e.2)
    (hcl : ∀ r, P r → P (opApply op r))
    (hfresh : P (opApply op freshRoute)) :
    ∀ e ∈ applyAddOp t op, P e.2 := by
  intro e he
  unfold applyAddOp at he
  by_cases hl : opLive op = true
  · rw [if_pos hl] at he
    unfold upsertTbl at he
    cases hlk : lookupTbl t (opPfx op) with
    | some r0 =>
      rw [hlk] at he
      obtain ⟨e', he', h1, h2⟩ := mem_setRoute_elim he
      rcases h2 with h2 | h2
      · rw [h2]; exact hcl e'.2 (hP e' he')
      · rw [h2]; exact hP e' he'
    | none =>
      rw [hlk] at he
      rcases mem_insTbl_elim t he with h | h
      · rw [h]; exact hfresh
      · exact hP e h
  · rw [if_neg hl] at he
    exact hP e he

theorem entries_applyAddOps (P : Route → Prop) :
    ∀ (ops : List AddOp) (t : Table),
      (∀ e ∈ t, P e.2) →
      (∀ op r, P r → P (opApply op r)) →
      (∀ op, P (opApply op freshRoute)) →
      ∀ e ∈ applyAddOps t ops, P e.2 := by
  intro ops
  induction ops with
  | nil => intro t hP _ _ e he; exact hP e he
  | cons op rest ih =>
    intro t hP hcl hfresh e he
    exact ih (applyAddOp t op)
      (entries_applyAddOp P t op hP (hcl op) (hfresh op)) hcl hfresh e he

/-- Every add_route effect leaves a route with a non-empty core. -/
theorem nonempty_opApply (op : AddOp) (r : Route) :
    emptyCore (opApply op r) = false := by
  cases op with
  | client a m c nhs =>
    show ((decide (insC c nhs r.contribs = []) && decide (r.action = none))
        && decide (r.connected = none)) = false
    rw [decide_eq_false (insC_ne_nil c nhs r.contribs)]
    rfl
  | act a m x =>
    show ((decide (r.contribs = []) && decide ((some x : Option FwdAction) = none))
        && decide (r.connected = none)) = false
    rw [decide_eq_false (fun h => Option.noConfusion h :
          ¬ (some x : Option FwdAction) = none)]
    rw [Bool.and_false, Bool.false_and]
  | conn i a m =>
    show ((decide (r.contribs = []) && decide (r.action = none))
        && decide ((some (i, a) : Option (Nat × IP)) = none)) = false
    rw [decide_eq_false (fun h => Option.noConfusion h :
          ¬ (some (i, a) : Option (Nat × IP)) = none)]
    rw [Bool.and_false]

theorem prune_eq_self (t : Table) (h : ∀ e ∈ t, emptyCore e.2 = false) :
    prune t = t := by
  unfold prune
  rw [List.filter_eq_self]
  intro e he
  rw [h e he]
  rfl

theorem resetFn_eq_of_core {a b : Route} (h : coreOf a = coreOf b) :
    resetFn a = resetFn b := by
  obtain ⟨h1, h2, h3⟩ := core_components h
  show Route.mk a.contribs a.action a.connected emptyFwd false false false true 0
      = Route.mk b.contribs b.action b.connected emptyFwd false false false true 0
  rw [h1, h2, h3]

/-- The reset of a committed table equals the reset of the table the
commit merged, because the generation bookkeeping never touches a
route's core and reset normalizes everything else. -/
theorem resetAll_mergeGens (orig t : Table) :
    resetAll (mergeGens orig t) = resetAll t := by
  unfold resetAll mergeGens
  rw [List.map_map]
  apply List.map_congr_left
  intro e _
  show (e.1, resetFn (mergeFn orig e.1 e.2)) = (e.1, resetFn e.2)
  rw [resetFn_eq_of_core (coreOf_mergeFn orig e.1 e.2)]

/-- Tables with the same keys and the same cores reset identically. -/
theorem resetAll_eq_of_core (a b : Table) (hk : tblKeys a = tblKeys b)
    (hnd : (tblKeys a).Nodup) (hc : ∀ q, coreAt a q = coreAt b q) :
    resetAll a = resetAll b := by
  apply tbl_ext
  · rw [tblKeys_resetAll, tblKeys_resetAll]; exact hk
  · rw [tblKeys_resetAll]; exact hnd
  · intro q
    rw [lookupTbl_resetAll, lookupTbl_resetAll]
    have hq := hc q
    unfold coreAt at hq
    cases ha : lookupTbl a q with
    | none =>
      cases hb : lookupTbl b q with
      | none => rfl
      | some r =>
        rw [ha, hb] at hq
        exact Option.noConfusion hq
    | some r =>
      cases hb : lookupTbl b q with
      | none =>
        rw [ha, hb] at hq
        exact Option.noConfusion hq
      | some r' =>
        rw [ha, hb] at hq
        have hcr : coreOf r = coreOf r' := Option.some.inj hq
        show some (resetFn r) = some (resetFn r')
        rw [resetFn_eq_of_core hcr]

theorem content_mergeFn (orig : Table) (q : Pfx) (r : Route) :
    (mergeFn orig q r).content = r.content := by
  unfold mergeFn
  cases hlk : lookupTbl orig q with
  | none => exact content_setGen r 0
  | some o =>
    show (if o.content = r.content then o
          else { r with generation := o.generation + 1 }).content = r.content
    by_cases h : o.content = r.content
    · rw [if_pos h]; exact h
    · rw [if_neg h]; exact content_setGen r (o.generation + 1)

theorem tblKeys_mergeGens (orig t : Table) :
    tblKeys (mergeGens orig t) = tblKeys t := by
  simp [tblKeys, mergeGens]

theorem isSome_lookup_applyAddOp (t : Table) (op : AddOp) (q : Pfx)
    (h : (lookupTbl t q).isSome = true) :
    (lookupTbl (applyAddOp t op) q).isSome = true := by
  unfold applyAddOp
  by_cases hl : opLive op = true
  · rw [if_pos hl, lookupTbl_upsert]
    by_cases hq : q = opPfx op
    · rw [if_pos hq]; rfl
    · rw [if_neg hq]; exact h
  · rw [if_neg hl]; exact h

theorem tblKeys_applyAddOp_of_present (t : Table) (op : AddOp)
    (h : opLive op = true → (lookupTbl t (opPfx op)).isSome = true) :
    tblKeys (applyAddOp t op) = tblKeys t := by
  unfold applyAddOp
  by_cases hl : opLive op = true
  · rw [if_pos hl]
    unfold upsertTbl
    cases hlk : lookupTbl t (opPfx op) with
    | some r => exact tblKeys_setRoute t (opPfx op) (opApply op)
    | none =>
      have h2 := h hl
      rw [hlk] at h2
      exact absurd h2 (by simp)
  · rw [if_neg hl]

/-- A batch whose live calls all target keys already present inserts no
new key. -/
theorem tblKeys_applyAddOps_of_present :
    ∀ (ops : List AddOp) (t : Table),
      (∀ op ∈ ops, opLive op = true → (lookupTbl t (opPfx op)).isSome = true) →
      tblKeys (applyAddOps t ops) = tblKeys t := by
  intro ops
  induction ops with
  | nil => intro t _; rfl
  | cons op rest ih =>
    intro t h
    have h1 : tblKeys (applyAddOp t op) = tblKeys t :=
      tblKeys_applyAddOp_of_present t op (h op (List.mem_cons_self _ _))
    have h2 := ih (applyAddOp t op)
      (fun x hx hlx => isSome_lookup_applyAddOp t op (opPfx x)
        (h x (List.mem_cons_of_mem _ hx) hlx))
    exact h2.trans h1

/-- C4: applying the same batch of add_route calls to the snapshot that
the first application published (that snapshot already contains exactly
those contributions) yields no change: update_done on the second updater
returns the no-change sentinel (none).  The starting snapshot is any
well-formed published table: unique keys, per-route client maps sorted
by client id, and no empty-core routes (the commit prunes those). -/
theorem add_route_idempotent (t0 : Table) (ops : List AddOp)
    (hnd : (tblKeys t0).Nodup)
    (hsort : ∀ e ∈ t0, sortedC e.2.contribs = true)
    (hne : ∀ e ∈ t0, emptyCore e.2 = false) :
    updateDone (effectiveTables t0 (applyAddOps t0 ops))
      (applyAddOps (effectiveTables t0 (applyAddOps t0 ops)) ops) = none := by
  cases hUD : updateDone t0 (applyAddOps t0 ops) with
  | none =>
    have hT : effectiveTables t0 (applyAddOps t0 ops) = t0 := by
      unfold effectiveTables
      rw [hUD]
      rfl
    rw [hT]
    exact hUD
  | some T1 =>
    have hT : effectiveTables t0 (applyAddOps t0 ops) = T1 := by
      unfold effectiveTables
      rw [hUD]
      rfl
    rw [hT]
    have hT1 : T1 = mergeGens t0 (prune (resolveAll (resetAll (applyAddOps t0 ops)))) := by
      have h' : (if mergeGens t0 (prune (resolveAll (resetAll (applyAddOps t0 ops)))) = t0
          then (none : Option Table)
          else some (mergeGens t0 (prune (resolveAll (resetAll (applyAddOps t0 ops))))))
          = some T1 := hUD
      by_cases hc : mergeGens t0 (prune (resolveAll (resetAll (applyAddOps t0 ops)))) = t0
      · rw [if_pos hc] at h'
        exact Option.noConfusion h'
      · rw [if_neg hc] at h'
        exact (Option.some.inj h').symm
    have hu1sort : ∀ e ∈ applyAddOps t0 ops, sortedC e.2.contribs = true :=
      entries_applyAddOps (fun r => sortedC r.contribs = true) ops t0 hsort
        (fun op r hr => sortedC_opApply op r hr)
        (fun op => sortedC_opApply op freshRoute rfl)
    have hu1ne : ∀ e ∈ applyAddOps t0 ops, emptyCore e.2 = false :=
      entries_applyAddOps (fun r => emptyCore r = false) ops t0 hne
        (fun op r _ => nonempty_opApply op r)
        (fun op => nonempty_opApply op freshRoute)
    have hndu1 : (tblKeys (applyAddOps t0 ops)).Nodup :=
      nodup_keys_applyAddOps ops t0 hnd
    have hkX : tblKeys (resolveAll (resetAll (applyAddOps t0 ops)))
        = tblKeys (applyAddOps t0 ops) :=
      ((resolveAll_skel (resetAll (applyAddOps t0 ops))).1).trans
        (tblKeys_resetAll (applyAddOps t0 ops))
    have hcX : ∀ q, coreAt (resolveAll (resetAll (applyAddOps t0 ops))) q
        = coreAt (applyAddOps t0 ops) q := by
      intro q
      exact ((resolveAll_skel (resetAll (applyAddOps t0 ops))).2 q).trans
        (coreAt_resetAll (applyAddOps t0 ops) q)
    have hndX : (tblKeys (resolveAll (resetAll (applyAddOps t0 ops)))).Nodup := by
      rw [hkX]; exact hndu1
    have hXtrans : ∀ e ∈ resolveAll (resetAll (applyAddOps t0 ops)),
        ∃ r', (e.1, r') ∈ applyAddOps t0 ops ∧ coreOf e.2 = coreOf r' := by
      intro e he
      have hlk := lookup_of_mem_nodup _ hndX e he
      have hcq := hcX e.1
      unfold coreAt at hcq
      rw [hlk] at hcq
      cases hlk' : lookupTbl (applyAddOps t0 ops) e.1 with
      | none => rw [hlk'] at hcq; exact Option.noConfusion hcq
      | some r' =>
        rw [hlk'] at hcq
        exact ⟨r', mem_of_lookup_some _ e.1 r' hlk', Option.some.inj hcq⟩
    have hXne : ∀ e ∈ resolveAll (resetAll (applyAddOps t0 ops)),
        emptyCore e.2 = false := by
      intro e he
      obtain ⟨r', hmem, hcore⟩ := hXtrans e he
      rw [emptyCore_of_core hcore]
      exact hu1ne (e.1, r') hmem
    have hpr : prune (resolveAll (resetAll (applyAddOps t0 ops)))
        = resolveAll (resetAll (applyAddOps t0 ops)) :=
      prune_eq_self _ hXne
    rw [hpr] at hT1
    have hkT1 : tblKeys T1 = tblKeys (resolveAll (resetAll (applyAddOps t0 ops))) := by
      rw [hT1]; exact tblKeys_mergeGens t0 _
    have hndT1 : (tblKeys T1).Nodup := by rw [hkT1]; exact hndX
    have hlT1 : ∀ q, lookupTbl T1 q
        = (lookupTbl (resolveAll (resetAll (applyAddOps t0 ops))) q).map (mergeFn t0 q) := by
      intro q; rw [hT1]; exact lookupTbl_mergeGens t0 _ q
    have hcT1 : ∀ q, coreAt T1 q = coreAt (applyAddOps t0 ops) q := by
      intro q
      have h1 : coreAt T1 q = coreAt (resolveAll (resetAll (applyAddOps t0 ops))) q := by
        unfold coreAt
        rw [hlT1 q]
        cases hx : lookupTbl (resolveAll (resetAll (applyAddOps t0 ops))) q with
        | none => rfl
        | some r =>
          show some (coreOf (mergeFn t0 q r)) = some (coreOf r)
          rw [coreOf_mergeFn]
      exact h1.trans (hcX q)
    have hpres : ∀ op ∈ ops, opLive op = true →
        (lookupTbl T1 (opPfx op)).isSome = true := by
      intro op hop hl
      have hmemAt : op ∈ opsAt (opPfx op) ops := by
        unfold opsAt
        refine List.mem_filter.mpr ⟨hop, ?_⟩
        rw [hl]
        simp
      have hAtne : opsAt (opPfx op) ops ≠ [] := List.ne_nil_of_mem hmemAt
      have htr := lookup_applyAddOps_trace ops t0 (opPfx op)
      rw [if_neg hAtne] at htr
      have hq1 : (opPfx op) ∈ tblKeys (applyAddOps t0 ops) :=
        mem_keys_of_lookup_some _ _ _ htr
      have hq2 : (opPfx op) ∈ tblKeys T1 := by
        rw [hkT1, hkX]; exact hq1
      exact lookup_isSome_of_mem_keys _ _ hq2
    have hbase0sort : ∀ q, sortedC ((lookupTbl t0 q).getD freshRoute).contribs = true := by
      intro q
      cases hx : lookupTbl t0 q with
      | none => rfl
      | some r => exact hsort (q, r) (mem_of_lookup_some t0 q r hx)
    have hcu2 : ∀ q, coreAt (applyAddOps T1 ops) q = coreAt T1 q := by
      intro q
      have htr2 := lookup_applyAddOps_trace ops T1 q
      by_cases hA : opsAt q ops = []
      · rw [if_pos hA] at htr2
        unfold coreAt
        rw [htr2]
      · rw [if_neg hA] at htr2
        obtain ⟨op, hopAt⟩ := List.exists_mem_of_ne_nil _ hA
        have hopP : op ∈ ops ∧ (opLive op && decide (opPfx op = q)) = true :=
          List.mem_filter.mp hopAt
        have hlive : opLive op = true := ((Bool.and_eq_true _ _) ▸ hopP.2).1
        have hpfx : opPfx op = q := of_decide_eq_true ((Bool.and_eq_true _ _) ▸ hopP.2).2
        have hTq : (lookupTbl T1 q).isSome = true := by
          rw [← hpfx]; exact hpres op hopP.1 hlive
        cases hT1q : lookupTbl T1 q with
        | none =>
          rw [hT1q] at hTq
          exact absurd hTq (by simp)
        | some rT1 =>
          rw [hT1q] at htr2
          have hT1core : coreOf rT1
              = coreOf (opsFold (opsAt q ops) ((lookupTbl t0 q).getD freshRoute)) := by
            have h1 := hcT1 q
            have htr1 := lookup_applyAddOps_trace ops t0 q
            rw [if_neg hA] at htr1
            unfold coreAt at h1
            rw [hT1q, htr1] at h1
            exact Option.some.inj h1
          have hidem := opsFold_idem_core (opsAt q ops)
            ((lookupTbl t0 q).getD freshRoute) rT1 (hbase0sort q) hT1core
          unfold coreAt
          rw [htr2, hT1q]
          show some (coreOf (opsFold (opsAt q ops) rT1)) = some (coreOf rT1)
          rw [hidem]
    have hku2 : tblKeys (applyAddOps T1 ops) = tblKeys T1 :=
      tblKeys_applyAddOps_of_present ops T1 hpres
    have hreset1 : resetAll (applyAddOps T1 ops) = resetAll T1 :=
      resetAll_eq_of_core _ _ hku2 (by rw [hku2]; exact hndT1) hcu2
    have hreset2 : resetAll T1 = resetAll (resolveAll (resetAll (applyAddOps t0 ops))) := by
      rw [hT1]
      exact resetAll_mergeGens t0 _
    have hreset3 : resetAll (resolveAll (resetAll (applyAddOps t0 ops)))
        = resetAll (applyAddOps t0 ops) :=
      resetAll_eq_of_core _ _ hkX hndX hcX
    have hres : resolveAll (resetAll (applyAddOps T1 ops))
        = resolveAll (resetAll (applyAddOps t0 ops)) := by
      rw [hreset1, hreset2, hreset3]
    have hmerged : mergeGens T1 (prune (resolveAll (resetAll (applyAddOps T1 ops)))) = T1 := by
      rw [hres, hpr]
      have hstep : mergeGens T1 (resolveAll (resetAll (applyAddOps t0 ops)))
          = mergeGens t0 (resolveAll (resetAll (applyAddOps t0 ops))) := by
        unfold mergeGens
        apply List.map_congr_left
        intro e he
        have hXe := lookup_of_mem_nodup _ hndX e he
        have hT1e : lookupTbl T1 e.1 = some (mergeFn t0 e.1 e.2) := by
          rw [hlT1 e.1, hXe]
          rfl
        have hcontent : (mergeFn t0 e.1 e.2).content = e.2.content :=
          content_mergeFn t0 e.1 e.2
        show (e.1, mergeFn T1 e.1 e.2) = (e.1, mergeFn t0 e.1 e.2)
        have hm : mergeFn T1 e.1 e.2 = mergeFn t0 e.1 e.2 := by
          unfold mergeFn
          rw [hT1e]
          show (if (mergeFn t0 e.1 e.2).content = e.2.content
                then mergeFn t0 e.1 e.2
                else { e.2 with generation := (mergeFn t0 e.1 e.2).generation + 1 })
              = mergeFn t0 e.1 e.2
          rw [if_pos hcontent]
        rw [hm]
      rw [hstep]
      exact hT1.symm
    show (if mergeGens T1 (prune (resolveAll (resetAll (applyAddOps T1 ops)))) = T1
          then (none : Option Table)
          else some (mergeGens T1 (prune (resolveAll (resetAll (applyAddOps T1 ops))))))
        = none
    rw [if_pos hmerged]

/-- The dedup-style batch of the witness: a connected route, two client
routes (one of them recursive), an action override, and a duplicated
client add. -/
def c4ops : List AddOp :=
  [ .conn 1 (ip4 1 1 1 0) 24,
    .client (ip4 10 10 10 10) 32 1000 (mkNhs [ip4 1 1 1 10]),
    .client (ip4 20 20 20 20) 32 1000 (mkNhs [ip4 10 10 10 10]),
    .act (ip4 30 30 30 0) 24 .DROP,
    .client (ip4 10 10 10 10) 32 1000 (mkNhs [ip4 1 1 1 10]) ]

/-- C4 witness: replaying the dedup-style batch over the snapshot its
first application published makes update_done return the sentinel. -/
theorem add_route_idempotent_witness :
    updateDone (effectiveTables [] (applyAddOps [] c4ops))
      (applyAddOps (effectiveTables [] (applyAddOps [] c4ops)) c4ops) = none :=
  add_route_idempotent [] c4ops (by decide) (by decide) (by decide)

/-! ### C9: connected routes resolve to a single (interface, address) egress -/

theorem lookup_setRoute_ne (t : Table) (p : Pfx) (f : Route → Route)
    (q : Pfx) (h : q ≠ p) :
    lookupTbl (setRoute t p f) q = lookupTbl t q := by
  rw [lookupTbl_setRoute]
  cases lookupTbl t q with
  | none => rfl
  | some r =>
    show some (if q = p then f r else r) = some r
    rw [if_neg h]

theorem lookup_setRoute_self (t : Table) (p : Pfx) (f : Route → Route)
    (r : Route) (h : lookupTbl t p = some r) :
    lookupTbl (setRoute t p f) p = some (f r) := by
  rw [lookupTbl_setRoute, h]
  show some (if p = p then f r else r) = some (f r)
  rw [if_pos rfl]

theorem lookup_resolveFinish_ne (p : Pfx)
    (st : Table × List Egress × Option FwdAction) (q : Pfx) (h : q ≠ p) :
    lookupTbl (resolveFinish p st) q = lookupTbl st.1 q := by
  obtain ⟨t, eg, inh⟩ := st
  cases inh with
  | some act =>
    show lookupTbl (settleWith t p ⟨act, []⟩) q = lookupTbl t q
    unfold settleWith
    exact lookup_setRoute_ne t p _ q h
  | none =>
    show lookupTbl (if eg = [] then settleUnres t p
        else settleWith t p ⟨.NEXTHOPS, eg⟩) q = lookupTbl t q
    by_cases he : eg = []
    · rw [if_pos he]
      exact lookup_setRoute_ne t p _ q h
    · rw [if_neg he]
      exact lookup_setRoute_ne t p _ q h

/-- A settled route (resolved or unresolvable) is never modified by one
next-hop iteration whose recursive resolver never modifies settled
routes. -/
theorem nhStep_keep (rec : Table → Pfx → Table)
    (hrec : ∀ t k q r, lookupTbl t q = some r →
      (r.resolved || r.unresolvable) = true → lookupTbl (rec t k) q = some r)
    (st : Table × List Egress × Option FwdAction) (nh : NextHop)
    (q : Pfx) (r : Route) (hq : lookupTbl st.1 q = some r)
    (hs : (r.resolved || r.unresolvable) = true) :
    lookupTbl (nhStep rec st nh).1 q = some r := by
  rcases nhStep_fst rec st nh with h | ⟨j, h⟩
  · rw [h]; exact hq
  · rw [h]; exact hrec st.1 j q r hq hs

theorem nhFold_keep (rec : Table → Pfx → Table)
    (hrec : ∀ t k q r, lookupTbl t q = some r →
      (r.resolved || r.unresolvable) = true → lookupTbl (rec t k) q = some r) :
    ∀ (nhs : List NextHop) (st : Table × List Egress × Option FwdAction)
      (q : Pfx) (r : Route), lookupTbl st.1 q = some r →
      (r.resolved || r.unresolvable) = true →
      lookupTbl ((nhs.foldl (nhStep rec) st)).1 q = some r := by
  intro nhs
  induction nhs with
  | nil => intro st q r hq _; exact hq
  | cons nh rest ih =>
    intro st q r hq hs
    rw [List.foldl_cons]
    exact ih (nhStep rec st nh) q r (nhStep_keep rec hrec st nh q r hq hs) hs

theorem resolveBody_keep (rec : Table → Pfx → Table)
    (hrec : ∀ t k q r, lookupTbl t q = some r →
      (r.resolved || r.unresolvable) = true → lookupTbl (rec t k) q = some r)
    (t : Table) (p : Pfx) (r0 : Route) (hlk : lookupTbl t p = some r0)
    (q : Pfx) (r : Route) (hq : lookupTbl t q = some r)
    (hs : (r.resolved || r.unresolvable) = true) :
    lookupTbl (resolveBody rec t p r0) q = some r := by
  unfold resolveBody
  by_cases h1 : (r0.resolved || r0.unresolvable) = true
  · rw [if_pos h1]; exact hq
  · rw [if_neg h1]
    have hpq : q ≠ p := by
      intro he
      subst he
      rw [hlk] at hq
      apply h1
      rw [Option.some.inj hq]
      exact hs
    by_cases h2 : r0.processing = true
    · rw [if_pos h2]
      exact (lookup_setRoute_ne t p _ q hpq).trans hq
    · rw [if_neg h2]
      by_cases h3 : (r0.action.isSome && decide (r0.contribs = [])) = true
      · rw [if_pos h3]
        exact ((lookup_setRoute_ne (markProcessing t p) p _ q hpq).trans
          ((lookup_setRoute_ne t p _ q hpq).trans hq))
      · rw [if_neg h3]
        cases hc : r0.connected with
        | some ia =>
          exact ((lookup_setRoute_ne (markProcessing t p) p _ q hpq).trans
            ((lookup_setRoute_ne t p _ q hpq).trans hq))
        | none =>
          have e1 : lookupTbl (markProcessing t p) q = some r :=
            (lookup_setRoute_ne t p _ q hpq).trans hq
          have e2 := nhFold_keep rec hrec (bestListD r0.contribs)
            (markProcessing t p, [], none) q r e1 hs
          exact (lookup_resolveFinish_ne p _ q hpq).trans e2

/-- The resolver never modifies a settled route. -/
theorem resolveGo_keep :
    ∀ (f : Nat) (t : Table) (p q : Pfx) (r : Route),
      lookupTbl t q = some r → (r.resolved || r.unresolvable) = true →
      lookupTbl (resolveGo f t p) q = some r := by
  intro f
  induction f with
  | zero => intro t p q r hq _; exact hq
  | succ f ih =>
    intro t p q r hq hs
    simp only [resolveGo]
    cases hl : lookupTbl t p with
    | none => exact hq
    | some r0 =>
      exact resolveBody_keep (resolveGo f) (fun t' k' q' r' => ih t' k' q' r')
        t p r0 hl q r hq hs

/-- Any table predicate preserved by the recursive resolver is preserved
by the next-hop loop. -/
theorem nhFold_pres (rec : Table → Pfx → Table) (G : Table → Prop)
    (hrec : ∀ t k, G t → G (rec t k)) :
    ∀ (nhs : List NextHop) (st : Table × List Egress × Option FwdAction),
      G st.1 → G ((nhs.foldl (nhStep rec) st)).1 := by
  intro nhs
  induction nhs with
  | nil => intro st h; exact h
  | cons nh rest ih =>
    intro st h
    rw [List.foldl_cons]
    apply ih
    rcases nhStep_fst rec st nh with he | ⟨j, he⟩
    · rw [he]; exact h
    · rw [he]; exact hrec st.1 j h

/-- The settled form of a connected route (spec section 4.4, step d):
resolved with action NEXTHOPS and a single (interface, address) egress. -/
def connSettle (r : Route) (ia : Nat × IP) : Route :=
  { r with fwd := ⟨.NEXTHOPS, [(ia.1, ia.2)]⟩,
           resolved := true, processing := false, needResolve := false }

theorem resolveBody_conn_inv (p : Pfx) (r0 : Route) (ia : Nat × IP)
    (hproc : r0.processing = false)
    (hact : (r0.action.isSome && decide (r0.contribs = [])) = false)
    (hc : r0.connected = some ia)
    (rec : Table → Pfx → Table)
    (hrec : ∀ t k,
      (lookupTbl t p = some r0 ∨ lookupTbl t p = some (connSettle r0 ia)) →
      (lookupTbl (rec t k) p = some r0
        ∨ lookupTbl (rec t k) p = some (connSettle r0 ia)))
    (t : Table) (k : Pfx) (rk : Route) (hlk : lookupTbl t k = some rk)
    (hG : lookupTbl t p = some r0 ∨ lookupTbl t p = some (connSettle r0 ia)) :
    lookupTbl (resolveBody rec t k rk) p = some r0
      ∨ lookupTbl (resolveBody rec t k rk) p = some (connSettle r0 ia) := by
  unfold resolveBody
  by_cases h1 : (rk.resolved || rk.unresolvable) = true
  · rw [if_pos h1]; exact hG
  · rw [if_neg h1]
    by_cases hkp : k = p
    · subst hkp
      have hrk : rk = r0 := by
        rcases hG with h | h
        · exact Option.some.inj (hlk.symm.trans h)
        · exfalso
          apply h1
          rw [Option.some.inj (hlk.symm.trans h)]
          rfl
      subst hrk
      rw [if_neg (by rw [hproc]; exact Bool.false_ne_true)]
      rw [if_neg (by rw [hact]; exact Bool.false_ne_true)]
      rw [hc]
      right
      have m1 : lookupTbl (markProcessing t k) k = some { rk with processing := true } :=
        lookup_setRoute_self t k _ rk hlk
      show lookupTbl (settleWith (markProcessing t k) k
          ⟨.NEXTHOPS, [(ia.1, ia.2)]⟩) k = some (connSettle rk ia)
      exact lookup_setRoute_self (markProcessing t k) k _
        { rk with processing := true } m1
    · have hne : p ≠ k := fun hh => hkp hh.symm
      by_cases h2 : rk.processing = true
      · rw [if_pos h2]
        rcases hG with h | h
        · exact Or.inl ((lookup_setRoute_ne t k _ p hne).trans h)
        · exact Or.inr ((lookup_setRoute_ne t k _ p hne).trans h)
      · rw [if_neg h2]
        by_cases h3 : (rk.action.isSome && decide (rk.contribs = [])) = true
        · rw [if_pos h3]
          have e2 : lookupTbl (settleWith (markProcessing t k) k
              ⟨rk.action.getD .DROP, []⟩) p = lookupTbl t p :=
            (lookup_setRoute_ne (markProcessing t k) k _ p hne).trans
              (lookup_setRoute_ne t k _ p hne)
          rcases hG with h | h
          · exact Or.inl (e2.trans h)
          · exact Or.inr (e2.trans h)
        · rw [if_neg h3]
          cases hck : rk.connected with
          | some ia2 =>
            have e2 : lookupTbl (settleWith (markProcessing t k) k
                ⟨.NEXTHOPS, [(ia2.1, ia2.2)]⟩) p = lookupTbl t p :=
              (lookup_setRoute_ne (markProcessing t k) k _ p hne).trans
                (lookup_setRoute_ne t k _ p hne)
            rcases hG with h | h
            · exact Or.inl (e2.trans h)
            · exact Or.inr (e2.trans h)
          | none =>
            have e1 : lookupTbl (markProcessing t k) p = lookupTbl t p :=
              lookup_setRoute_ne t k _ p hne
            have hGm : lookupTbl (markProcessing t k) p = some r0
                ∨ lookupTbl (markProcessing t k) p = some (connSettle r0 ia) := by
              rcases hG with h | h
              · exact Or.inl (e1.trans h)
              · exact Or.inr (e1.trans h)
            have hGf := nhFold_pres rec
              (fun tt => lookupTbl tt p = some r0
                ∨ lookupTbl tt p = some (connSettle r0 ia))
              hrec (bestListD rk.contribs) (markProcessing t k, [], none) hGm
            have e3 := lookup_resolveFinish_ne k
              ((bestListD rk.contribs).foldl (nhStep rec)
                (markProcessing t k, [], none)) p hne
            rcases hGf with h | h
            · exact Or.inl (e3.trans h)
            · exact Or.inr (e3.trans h)

theorem resolveGo_conn_inv (p : Pfx) (r0 : Route) (ia : Nat × IP)
    (hproc : r0.processing = false)
    (hact : (r0.action.isSome && decide (r0.contribs = [])) = false)
    (hc : r0.connected = some ia) :
    ∀ (f : Nat) (t : Table) (k : Pfx),
      (lookupTbl t p = some r0 ∨ lookupTbl t p = some (connSettle r0 ia)) →
      (lookupTbl (resolveGo f t k) p = some r0
        ∨ lookupTbl (resolveGo f t k) p = some (connSettle r0 ia)) := by
  intro f
  induction f with
  | zero => intro t k h; exact h
  | succ f ih =>
    intro t k h
    simp only [resolveGo]
    cases hl : lookupTbl t k with
    | none => exact h
    | some rk =>
      exact resolveBody_conn_inv p r0 ia hproc hact hc (resolveGo f)
        (fun t' k' => ih t' k') t k rk hl h

theorem resolveGo_conn_progress (p : Pfx) (r0 : Route) (ia : Nat × IP)
    (hres : r0.resolved = false) (hunr : r0.unresolvable = false)
    (hproc : r0.processing = false)
    (hact : (r0.action.isSome && decide (r0.contribs = [])) = false)
    (hc : r0.connected = some ia)
    (f : Nat) (t : Table) (hlk : lookupTbl t p = some r0) :
    lookupTbl (resolveGo (f + 1) t p) p = some (connSettle r0 ia) := by
  simp only [resolveGo]
  rw [hlk]
  show lookupTbl (resolveBody (resolveGo f) t p r0) p = some (connSettle r0 ia)
  unfold resolveBody
  rw [if_neg (by rw [hres, hunr]; decide)]
  rw [if_neg (by rw [hproc]; exact Bool.false_ne_true)]
  rw [if_neg (by rw [hact]; exact Bool.false_ne_true)]
  rw [hc]
  have m1 : lookupTbl (markProcessing t p) p = some { r0 with processing := true } :=
    lookup_setRoute_self t p _ r0 hlk
  show lookupTbl (settleWith (markProcessing t p) p
      ⟨.NEXTHOPS, [(ia.1, ia.2)]⟩) p = some (connSettle r0 ia)
  exact lookup_setRoute_self (markProcessing t p) p _
    { r0 with processing := true } m1

theorem resolveFold_conn_pres (p : Pfx) (r0 : Route) (ia : Nat × IP)
    (hproc : r0.processing = false)
    (hact : (r0.action.isSome && decide (r0.contribs = [])) = false)
    (hc : r0.connected = some ia) :
    ∀ (ks : List Pfx) (t : Table),
      (lookupTbl t p = some r0 ∨ lookupTbl t p = some (connSettle r0 ia)) →
      (lookupTbl (ks.foldl (fun t' q => resolveGo (t'.length + 1) t' q) t) p = some r0
        ∨ lookupTbl (ks.foldl (fun t' q => resolveGo (t'.length + 1) t' q) t) p
            = some (connSettle r0 ia)) := by
  intro ks
  induction ks with
  | nil => intro t h; exact h
  | cons k rest ih =>
    intro t h
    rw [List.foldl_cons]
    exact ih (resolveGo (t.length + 1) t k)
      (resolveGo_conn_inv p r0 ia hproc hact hc (t.length + 1) t k h)

theorem resolveFold_keep (p : Pfx) (rS : Route)
    (hs : (rS.resolved || rS.unresolvable) = true) :
    ∀ (ks : List Pfx) (t : Table), lookupTbl t p = some rS →
      lookupTbl (ks.foldl (fun t' q => resolveGo (t'.length + 1) t' q) t) p
        = some rS := by
  intro ks
  induction ks with
  | nil => intro t h; exact h
  | cons k rest ih =>
    intro t h
    rw [List.foldl_cons]
    exact ih (resolveGo (t.length + 1) t k)
      (resolveGo_keep (t.length + 1) t k p rS h hs)

/-- The resolution pass settles every connected white route as resolved
with the single (interface, address) egress. -/
theorem resolveAll_conn (u : Table) (p : Pfx) (r0 : Route) (ia : Nat × IP)
    (h0 : lookupTbl u p = some r0)
    (hres : r0.resolved = false) (hunr : r0.unresolvable = false)
    (hproc : r0.processing = false)
    (hact : (r0.action.isSome && decide (r0.contribs = [])) = false)
    (hc : r0.connected = some ia) :
    lookupTbl (resolveAll u) p = some (connSettle r0 ia) := by
  unfold resolveAll
  obtain ⟨ks1, ks2, hks⟩ := List.append_of_mem (mem_keys_of_lookup_some u p r0 h0)
  rw [hks, List.foldl_append, List.foldl_cons]
  have hG1 := resolveFold_conn_pres p r0 ia hproc hact hc ks1 u (Or.inl h0)
  have hAtP : lookupTbl
      (resolveGo ((ks1.foldl (fun t' q => resolveGo (t'.length + 1) t' q) u).length + 1)
        (ks1.foldl (fun t' q => resolveGo (t'.length + 1) t' q) u) p) p
      = some (connSettle r0 ia) := by
    rcases hG1 with h | h
    · exact resolveGo_conn_progress p r0 ia hres hunr hproc hact hc _ _ h
    · exact resolveGo_keep _ _ p p _ h rfl
  exact resolveFold_keep p (connSettle r0 ia) rfl ks2 _ hAtP

theorem emptyCore_conn (r : Route) (ia : Nat × IP)
    (h : r.connected = some ia) : emptyCore r = false := by
  show ((decide (r.contribs = []) && decide (r.action = none))
      && decide (r.connected = none)) = false
  rw [h]
  rw [decide_eq_false (fun hh => Option.noConfusion hh :
        ¬ (some ia : Option (Nat × IP)) = none)]
  rw [Bool.and_false]

/-- C9: a route carrying connected data (interface id, address) — as
contributed by the connected add_route overload, whose effect records
exactly the latest (interface, address) pair even when the interface has
multiple addresses in the prefix — is flagged connected and resolves to
action NEXTHOPS with exactly the single egress pair (interface_id,
address) in the published snapshot. -/
theorem connected_route_resolution :
    (∀ (orig u : Table) (p : Pfx) (r : Route) (ia : Nat × IP),
      lookupTbl u p = some r →
      r.connected = some ia →
      (r.action.isSome && decide (r.contribs = [])) = false →
      ∃ rn, lookupTbl (effectiveTables orig u) p = some rn ∧
        Route.isConnected rn = true ∧
        rn.connected = some ia ∧
        rn.fwd = ⟨.NEXTHOPS, [(ia.1, ia.2)]⟩ ∧
        rn.resolved = true ∧ rn.unresolvable = false)
    ∧ (∀ (r : Route) (i : Nat) (a : IP) (m : Nat),
        (opApply (AddOp.conn i a m) r).connected = some (i, a)) := by
  constructor
  · intro orig u p r ia hlk hc hact
    have h0 : lookupTbl (resetAll u) p = some (resetFn r) := by
      rw [lookupTbl_resetAll, hlk]
      rfl
    have hall := resolveAll_conn (resetAll u) p (resetFn r) ia h0 rfl rfl rfl hact hc
    have hprune : lookupTbl (prune (resolveAll (resetAll u))) p
        = some (connSettle (resetFn r) ia) :=
      lookupTbl_prune_some _ p _ hall (emptyCore_conn _ ia hc)
    rw [effectiveTables_eq, lookupTbl_mergeGens, hprune]
    refine ⟨mergeFn orig p (connSettle (resetFn r) ia), rfl, ?_, ?_, ?_, ?_, ?_⟩
    · have hcn := congrArg (fun x => x.connected)
        (content_mergeFn orig p (connSettle (resetFn r) ia))
      show ((mergeFn orig p (connSettle (resetFn r) ia)).connected).isSome = true
      rw [show (mergeFn orig p (connSettle (resetFn r) ia)).connected
            = r.connected from hcn, hc]
      rfl
    · have hcn := congrArg (fun x => x.connected)
        (content_mergeFn orig p (connSettle (resetFn r) ia))
      exact (show (mergeFn orig p (connSettle (resetFn r) ia)).connected
          = r.connected from hcn).trans hc
    · exact congrArg (fun x => x.fwd)
        (content_mergeFn orig p (connSettle (resetFn r) ia))
    · exact congrArg (fun x => x.resolved)
        (content_mergeFn orig p (connSettle (resetFn r) ia))
    · exact congrArg (fun x => x.unresolvable)
        (content_mergeFn orig p (connSettle (resetFn r) ia))
  · intro r i a m
    rfl

/-- The MultipleAddressInterface updater: interface 1 carries 1.1.1.1/24
and 1.1.1.2/24 — two connected adds for the same prefix. -/
def c9u : Table :=
  applyAddOps [] [.conn 1 (ip4 1 1 1 1) 24, .conn 1 (ip4 1 1 1 2) 24]

/-- The route the two connected adds leave: connected data records the
last address only. -/
def c9r : Route :=
  ⟨[], none, some (1, ip4 1 1 1 2), emptyFwd, false, false, false, false, 0⟩

/-- C9 witness: with two addresses of interface 1 inside 1.1.1.0/24, the
published route is connected, resolved, and carries exactly the single
egress (1, 1.1.1.2). -/
theorem connected_route_resolution_witness :
    ∃ rn, lookupTbl (effectiveTables [] c9u) (mkPfx (ip4 1 1 1 2) 24) = some rn ∧
      Route.isConnected rn = true ∧
      rn.connected = some (1, ip4 1 1 1 2) ∧
      rn.fwd = ⟨.NEXTHOPS, [(1, ip4 1 1 1 2)]⟩ ∧
      rn.resolved = true ∧ rn.unresolvable = false :=
  connected_route_resolution.1 [] c9u (mkPfx (ip4 1 1 1 2) 24) c9r
    (1, ip4 1 1 1 2) (by decide) (by decide) (by decide)

/-! ### C2: DROP / TO_CPU action overrides propagate along resolution chains -/

theorem white_markFn (r : Route) : white { r with processing := true } = false := by
  show ((!r.resolved && !r.unresolvable) && !true) = false
  rw [show (!true) = false from rfl, Bool.and_false]

theorem white_settleFn (fw : FwdInfo) (r : Route) :
    white { r with fwd := fw, resolved := true, processing := false,
                   needResolve := false } = false := rfl

theorem white_unresFn (r : Route) :
    white { r with unresolvable := true, processing := false,
                   needResolve := false } = false := by
  show ((!r.resolved && !true) && !false) = false
  rw [show (!true) = false from rfl, Bool.and_false, Bool.false_and]

theorem white_bMarkFn (r : Route) :
    white { r with unresolvable := true } = false := by
  show ((!r.resolved && !true) && !r.processing) = false
  rw [show (!true) = false from rfl, Bool.and_false, Bool.false_and]

theorem countWhite_cons (q : Pfx) (r : Route) (l : Table) :
    countWhite ((q, r) :: l) = (if white r = true then 1 else 0) + countWhite l := by
  show (List.filter (fun e => white e.2) ((q, r) :: l)).length = _
  simp only [List.filter_cons]
  by_cases h : white r = true
  · rw [if_pos h, if_pos h, List.length_cons]
    exact Nat.add_comm _ 1
  · rw [if_neg h, if_neg h, Nat.zero_add]
    rfl

theorem countWhite_setRoute_le (t : Table) (p : Pfx) (f : Route → Route)
    (hf : ∀ r, white (f r) = false) :
    countWhite (setRoute t p f) ≤ countWhite t := by
  induction t with
  | nil => exact Nat.le_refl 0
  | cons e l ih =>
    obtain ⟨q0, r0⟩ := e
    show countWhite ((q0, if q0 = p then f r0 else r0) :: setRoute l p f)
      ≤ countWhite ((q0, r0) :: l)
    rw [countWhite_cons, countWhite_cons]
    refine Nat.add_le_add ?_ ih
    by_cases hp : q0 = p
    · rw [if_pos hp, if_neg (by rw [hf r0]; exact Bool.false_ne_true)]
      exact Nat.zero_le _
    · rw [if_neg hp]

theorem countWhite_markProcessing_lt (t : Table) (p : Pfx) (r : Route)
    (hlk : lookupTbl t p = some r) (hw : white r = true) :
    countWhite (markProcessing t p) < countWhite t := by
  induction t with
  | nil => cases hlk
  | cons e l ih =>
    obtain ⟨q0, r0⟩ := e
    have hlk' : (if q0 = p then some r0 else lookupTbl l p) = some r := hlk
    show countWhite ((q0, if q0 = p then { r0 with processing := true } else r0)
        :: setRoute l p (fun r => { r with processing := true }))
      < countWhite ((q0, r0) :: l)
    rw [countWhite_cons, countWhite_cons]
    by_cases hp : q0 = p
    · rw [if_pos hp] at hlk' ⊢
      have her : r0 = r := Option.some.inj hlk'
      rw [if_neg (by rw [white_markFn r0]; exact Bool.false_ne_true),
          if_pos (by rw [her]; exact hw), Nat.zero_add]
      have := countWhite_setRoute_le l p
        (fun r => { r with processing := true }) white_markFn
      omega
    · rw [if_neg hp] at hlk' ⊢
      have hih := ih hlk'
      unfold markProcessing at hih
      by_cases h1 : white r0 = true
      · rw [if_pos h1]
        omega
      · rw [if_neg h1]
        omega

theorem countWhite_resolveFinish_le (p : Pfx)
    (st : Table × List Egress × Option FwdAction) :
    countWhite (resolveFinish p st) ≤ countWhite st.1 := by
  obtain ⟨t, eg, inh⟩ := st
  cases inh with
  | some act =>
    show countWhite (settleWith t p ⟨act, []⟩) ≤ countWhite t
    unfold settleWith
    exact countWhite_setRoute_le t p _ (white_settleFn _)
  | none =>
    show countWhite (if eg = [] then settleUnres t p
        else settleWith t p ⟨.NEXTHOPS, eg⟩) ≤ countWhite t
    by_cases he : eg = []
    · rw [if_pos he]
      exact countWhite_setRoute_le t p _ white_unresFn
    · rw [if_neg he]
      exact countWhite_setRoute_le t p _ (white_settleFn _)

theorem countWhite_nhFold_le (rec : Table → Pfx → Table)
    (hrec : ∀ t k, countWhite (rec t k) ≤ countWhite t) :
    ∀ (nhs : List NextHop) (st : Table × List Egress × Option FwdAction),
      countWhite ((nhs.foldl (nhStep rec) st)).1 ≤ countWhite st.1 := by
  intro nhs
  induction nhs with
  | nil => intro st; exact Nat.le_refl _
  | cons nh rest ih =>
    intro st
    rw [List.foldl_cons]
    refine Nat.le_trans (ih (nhStep rec st nh)) ?_
    rcases nhStep_fst rec st nh with h | ⟨j, h⟩
    · rw [h]
    · rw [h]; exact hrec st.1 j

theorem countWhite_resolveBody_le (rec : Table → Pfx → Table)
    (hrec : ∀ t k, countWhite (rec t k) ≤ countWhite t)
    (t : Table) (p : Pfx) (r : Route) :
    countWhite (resolveBody rec t p r) ≤ countWhite t := by
  unfold resolveBody
  by_cases h1 : (r.resolved || r.unresolvable) = true
  · rw [if_pos h1]
  · rw [if_neg h1]
    by_cases h2 : r.processing = true
    · rw [if_pos h2]
      exact countWhite_setRoute_le t p _ white_bMarkFn
    · rw [if_neg h2]
      have hm : countWhite (markProcessing t p) ≤ countWhite t :=
        countWhite_setRoute_le t p _ white_markFn
      by_cases h3 : (r.action.isSome && decide (r.contribs = [])) = true
      · rw [if_pos h3]
        exact Nat.le_trans (countWhite_setRoute_le _ p _ (white_settleFn _)) hm
      · rw [if_neg h3]
        cases hc : r.connected with
        | some ia =>
          exact Nat.le_trans (countWhite_setRoute_le _ p _ (white_settleFn _)) hm
        | none =>
          refine Nat.le_trans (countWhite_resolveFinish_le p _) ?_
          exact Nat.le_trans (countWhite_nhFold_le rec hrec _ _) hm

theorem countWhite_resolveGo_le :
    ∀ (f : Nat) (t : Table) (p : Pfx),
      countWhite (resolveGo f t p) ≤ countWhite t := by
  intro f
  induction f with
  | zero => intro t p; exact Nat.le_refl _
  | succ f ih =>
    intro t p
    simp only [resolveGo]
    cases hl : lookupTbl t p with
    | none => exact Nat.le_refl _
    | some r => exact countWhite_resolveBody_le (resolveGo f) (fun t' k => ih t' k) t p r

theorem countWhite_pos (t : Table) (p : Pfx) (r : Route)
    (hlk : lookupTbl t p = some r) (hw : white r = true) :
    0 < countWhite t := by
  induction t with
  | nil => cases hlk
  | cons e l ih =>
    obtain ⟨q0, r0⟩ := e
    have hlk' : (if q0 = p then some r0 else lookupTbl l p) = some r := hlk
    rw [countWhite_cons]
    by_cases hp : q0 = p
    · rw [if_pos hp] at hlk'
      rw [if_pos (by rw [Option.some.inj hlk']; exact hw)]
      omega
    · rw [if_neg hp] at hlk'
      have := ih hlk'
      by_cases h1 : white r0 = true
      · rw [if_pos h1]; omega
      · rw [if_neg h1]; omega

theorem countWhite_le_length (t : Table) : countWhite t ≤ t.length :=
  List.length_filter_le _ t

/-- A resolver call on a settled route leaves the whole table unchanged. -/
theorem resolveGo_settled_id (f : Nat) (t : Table) (p : Pfx) (r : Route)
    (hlk : lookupTbl t p = some r)
    (hs : (r.resolved || r.unresolvable) = true) :
    resolveGo f t p = t := by
  cases f with
  | zero => rfl
  | succ f =>
    simp only [resolveGo]
    rw [hlk]
    show resolveBody (resolveGo f) t p r = t
    unfold resolveBody
    rw [if_pos hs]

/-- The settled form of a route that inherited the action α (spec
section 4.4, step f then g): resolved, forward action α, empty egress. -/
def actSettle (r : Route) (α : FwdAction) : Route :=
  { r with fwd := ⟨α, []⟩, resolved := true, processing := false,
           needResolve := false }

/-- The single recursion target of a single-next-hop route, relative to a
fixed key list: the longest match of its only best-list next-hop. -/
def chainStep (K : List Pfx) (r : Route) : Option Pfx :=
  match bestListD r.contribs with
  | [nh] => pickLM K nh.addr
  | _ => none

/-- chainWb K α cs: cs is an inheritance chain — each intermediate
route's single best next-hop longest-matches the next element's prefix,
carries no connected data, and the last element carries the action
override α with no client sets; all flags clear (fresh reset routes). -/
def chainWb (K : List Pfx) (α : FwdAction) : List (Pfx × Route) → Bool
  | [] => false
  | [e] => decide (e.2.action = some α) && decide (e.2.contribs = []) &&
      !e.2.resolved && !e.2.unresolvable && !e.2.processing
  | e :: e' :: rest => decide (e.2.connected = none) && !e.2.resolved &&
      !e.2.unresolvable && !e.2.processing &&
      decide (chainStep K e.2 = some e'.1) && chainWb K α (e' :: rest)

/-- During the pass, each chain node is either still its white self or
already settled with the inherited action. -/
def chainState (t : Table) (α : FwdAction) (cs : List (Pfx × Route)) : Prop :=
  ∀ e ∈ cs, lookupTbl t e.1 = some e.2
    ∨ lookupTbl t e.1 = some (actSettle e.2 α)

theorem chainWb_last (K : List Pfx) (α : FwdAction) (e : Pfx × Route)
    (h : chainWb K α [e] = true) :
    e.2.action = some α ∧ e.2.contribs = [] ∧ e.2.resolved = false ∧
    e.2.unresolvable = false ∧ e.2.processing = false := by
  have h' : (decide (e.2.action = some α) && decide (e.2.contribs = []) &&
      !e.2.resolved && !e.2.unresolvable && !e.2.processing) = true := h
  simp only [Bool.and_eq_true, decide_eq_true_eq, Bool.not_eq_true'] at h'
  exact ⟨h'.1.1.1.1, h'.1.1.1.2, h'.1.1.2, h'.1.2, h'.2⟩

theorem chainWb_cons (K : List Pfx) (α : FwdAction) (e e' : Pfx × Route)
    (rest : List (Pfx × Route)) (h : chainWb K α (e :: e' :: rest) = true) :
    e.2.connected = none ∧ e.2.resolved = false ∧ e.2.unresolvable = false ∧
    e.2.processing = false ∧ chainStep K e.2 = some e'.1 ∧
    chainWb K α (e' :: rest) = true := by
  have h' : (decide (e.2.connected = none) && !e.2.resolved &&
      !e.2.unresolvable && !e.2.processing &&
      decide (chainStep K e.2 = some e'.1) && chainWb K α (e' :: rest)) = true := h
  simp only [Bool.and_eq_true, decide_eq_true_eq, Bool.not_eq_true'] at h'
  exact ⟨h'.1.1.1.1.1, h'.1.1.1.1.2, h'.1.1.1.2, h'.1.1.2, h'.1.2, h'.2⟩

theorem chainStep_some_elim (K : List Pfx) (r : Route) (q : Pfx)
    (h : chainStep K r = some q) :
    ∃ nh, bestListD r.contribs = [nh] ∧ pickLM K nh.addr = some q := by
  unfold chainStep at h
  cases hb : bestListD r.contribs with
  | nil =>
    rw [hb] at h
    exact Option.noConfusion h
  | cons nh rest =>
    cases rest with
    | nil =>
      rw [hb] at h
      exact ⟨nh, rfl, h⟩
    | cons x xs =>
      rw [hb] at h
      exact Option.noConfusion h

theorem chainWb_append (K : List Pfx) (α : FwdAction) :
    ∀ (pre tail : List (Pfx × Route)),
      chainWb K α (pre ++ tail) = true → tail ≠ [] →
      chainWb K α tail = true := by
  intro pre
  induction pre with
  | nil => intro tail h _; exact h
  | cons e pre' ih =>
    intro tail h hne
    rw [List.cons_append] at h
    cases hpt : pre' ++ tail with
    | nil => exact absurd (List.append_eq_nil.mp hpt).2 hne
    | cons e'' rest =>
      rw [hpt] at h
      have hparts := chainWb_cons K α e e'' rest h
      apply ih tail ?_ hne
      rw [hpt]
      exact hparts.2.2.2.2.2

theorem chainWb_nonempty (K : List Pfx) (α : FwdAction) :
    ∀ cs, chainWb K α cs = true → ∀ e ∈ cs, emptyCore e.2 = false := by
  intro cs
  induction cs with
  | nil => intro _ e he; cases he
  | cons e0 rest ih =>
    intro h e he
    cases rest with
    | nil =>
      have hfacts := chainWb_last K α e0 h
      have hee := List.mem_singleton.mp he
      rw [hee]
      show ((decide (e0.2.contribs = []) && decide (e0.2.action = none))
          && decide (e0.2.connected = none)) = false
      rw [hfacts.1]
      rw [decide_eq_false (fun hh => Option.noConfusion hh :
            ¬ (some α : Option FwdAction) = none),
          Bool.and_false, Bool.false_and]
    | cons e1 rest' =>
      have hfacts := chainWb_cons K α e0 e1 rest' h
      rcases List.mem_cons.mp he with hee | hee
      · rw [hee]
        obtain ⟨nh, hbl, _⟩ := chainStep_some_elim K e0.2 e1.1 hfacts.2.2.2.2.1
        have hcne : e0.2.contribs ≠ [] := by
          intro hc
          rw [hc] at hbl
          exact List.noConfusion hbl
        show ((decide (e0.2.contribs = []) && decide (e0.2.action = none))
            && decide (e0.2.connected = none)) = false
        rw [decide_eq_false hcne, Bool.false_and, Bool.false_and]
      · exact ih hfacts.2.2.2.2.2 e hee

theorem chainState_setRoute_ne (t : Table) (k : Pfx) (g : Route → Route)
    (α : FwdAction) (cs : List (Pfx × Route))
    (h : chainState t α cs) (hk : ∀ e ∈ cs, e.1 ≠ k) :
    chainState (setRoute t k g) α cs := by
  intro e he
  rcases h e he with h' | h'
  · exact Or.inl ((lookup_setRoute_ne t k g e.1 (hk e he)).trans h')
  · exact Or.inr ((lookup_setRoute_ne t k g e.1 (hk e he)).trans h')

theorem nhAcc_resolved_inherit (t' : Table) (q : Pfx) (nh : NextHop)
    (eg : List Egress) (L : Route) (hL : lookupTbl t' q = some L)
    (hres : L.resolved = true) (hinh : inheritAct L.fwd.action = true) :
    nhAcc t' q nh eg none = (eg, some L.fwd.action) := by
  unfold nhAcc
  rw [hL]
  show (if L.resolved then
          if inheritAct L.fwd.action then (eg, some L.fwd.action)
          else match L.connected with
            | some ia => (insEg (ia.1, nh.addr) eg, none)
            | none => (unionEg eg L.fwd.nexthops, none)
        else (eg, none)) = (eg, some L.fwd.action)
  rw [if_pos hres, if_pos hinh]

/-- Progress along an inheritance chain: resolving the chain's head (with
fuel exceeding the white count) settles it with the inherited action,
modifies no key outside the chain, and keeps every other chain node
white-or-settled. -/
theorem chainProg (K : List Pfx) (α : FwdAction) (hα : inheritAct α = true) :
    ∀ (f : Nat) (e0 : Pfx × Route) (cstail : List (Pfx × Route)) (t : Table),
      chainWb K α (e0 :: cstail) = true →
      (List.map Prod.fst (e0 :: cstail)).Nodup →
      tblKeys t = K →
      lookupTbl t e0.1 = some e0.2 →
      chainState t α cstail →
      countWhite t < f →
      lookupTbl (resolveGo f t e0.1) e0.1 = some (actSettle e0.2 α) ∧
      (∀ q, q ∉ List.map Prod.fst (e0 :: cstail) →
        lookupTbl (resolveGo f t e0.1) q = lookupTbl t q) ∧
      chainState (resolveGo f t e0.1) α cstail := by
  intro f
  induction f with
  | zero =>
    intro e0 cstail t _ _ _ _ _ hfuel
    exact absurd hfuel (Nat.not_lt_zero _)
  | succ f ih =>
    intro e0 cstail t hch hnd hK hlk hst hfuel
    obtain ⟨p0, r0⟩ := e0
    cases cstail with
    | nil =>
      obtain ⟨ha, hcq, h1, h2, h3⟩ := chainWb_last K α (p0, r0) hch
      have hfw : r0.action.getD FwdAction.DROP = α := by rw [ha]; rfl
      have hgo : resolveGo (f + 1) t p0
          = settleWith (markProcessing t p0) p0 ⟨r0.action.getD .DROP, []⟩ := by
        simp only [resolveGo]
        rw [hlk]
        show resolveBody (resolveGo f) t p0 r0 = _
        unfold resolveBody
        rw [if_neg (by rw [h1, h2]; decide),
            if_neg (by rw [h3]; exact Bool.false_ne_true),
            if_pos (by rw [ha, hcq]; rfl)]
      have m1 : lookupTbl (markProcessing t p0) p0
          = some { r0 with processing := true } :=
        lookup_setRoute_self t p0 _ r0 hlk
      refine ⟨?_, ?_, ?_⟩
      · rw [hgo]
        unfold settleWith
        rw [lookup_setRoute_self (markProcessing t p0) p0 _
            { r0 with processing := true } m1, hfw]
        rfl
      · intro q hq
        have hq0 : q ≠ p0 := fun hh => hq (by rw [hh]; exact List.mem_singleton_self p0)
        rw [hgo]
        unfold settleWith
        exact (lookup_setRoute_ne _ p0 _ q hq0).trans (lookup_setRoute_ne t p0 _ q hq0)
      · intro e he; cases he
    | cons e1 rest =>
      obtain ⟨hconn, h1, h2, h3, hstep, hchtail⟩ := chainWb_cons K α (p0, r0) e1 rest hch
      obtain ⟨nh, hbl, hpick⟩ := chainStep_some_elim K r0 e1.1 hstep
      have hcne : r0.contribs ≠ [] := fun hc => by
        rw [hc] at hbl; exact List.noConfusion hbl
      have hw0 : white r0 = true := by
        unfold white
        rw [h1, h2, h3]
        rfl
      have hnd' : p0 ∉ List.map Prod.fst (e1 :: rest)
          ∧ (List.map Prod.fst (e1 :: rest)).Nodup :=
        List.nodup_cons.mp (show (p0 :: List.map Prod.fst (e1 :: rest)).Nodup from hnd)
      have hp0e1 : p0 ≠ e1.1 := fun hh => hnd'.1 (by rw [hh]; exact List.mem_cons_self _ _)
      have hgo : resolveGo (f + 1) t p0
          = resolveFinish p0 ((bestListD r0.contribs).foldl (nhStep (resolveGo f))
              (markProcessing t p0, [], none)) := by
        simp only [resolveGo]
        rw [hlk]
        show resolveBody (resolveGo f) t p0 r0 = _
        unfold resolveBody
        rw [if_neg (by rw [h1, h2]; decide),
            if_neg (by rw [h3]; exact Bool.false_ne_true),
            if_neg (by rw [decide_eq_false hcne, Bool.and_false]; exact Bool.false_ne_true),
            hconn]
      have hfold : (bestListD r0.contribs).foldl (nhStep (resolveGo f))
          (markProcessing t p0, [], none)
          = nhStep (resolveGo f) (markProcessing t p0, [], none) nh := by
        rw [hbl]
        rfl
      have hkeysM : tblKeys (markProcessing t p0) = K :=
        (tblKeys_markProcessing t p0).trans hK
      have hlm : longestMatch (markProcessing t p0) nh.addr = some e1.1 := by
        unfold longestMatch
        rw [hkeysM]
        exact hpick
      have hstepEq : nhStep (resolveGo f) (markProcessing t p0, [], none) nh
          = (resolveGo f (markProcessing t p0) e1.1,
             nhAcc (resolveGo f (markProcessing t p0) e1.1) e1.1 nh [] none) := by
        show (match longestMatch (markProcessing t p0) nh.addr with
              | none => (markProcessing t p0, ([] : List Egress), (none : Option FwdAction))
              | some q => (resolveGo f (markProcessing t p0) q,
                  nhAcc (resolveGo f (markProcessing t p0) q) q nh [] none)) = _
        rw [hlm]
      have hlkM : lookupTbl (markProcessing t p0) p0
          = some { r0 with processing := true } :=
        lookup_setRoute_self t p0 _ r0 hlk
      have hstM : chainState (markProcessing t p0) α (e1 :: rest) :=
        chainState_setRoute_ne t p0 _ α (e1 :: rest) hst
          (fun e he => fun hh => hnd'.1 (hh ▸ List.mem_map.mpr ⟨e, he, rfl⟩))
      have hmain : lookupTbl (resolveGo f (markProcessing t p0) e1.1) e1.1
            = some (actSettle e1.2 α)
          ∧ (∀ q, q ∉ List.map Prod.fst (e1 :: rest) →
              lookupTbl (resolveGo f (markProcessing t p0) e1.1) q
                = lookupTbl (markProcessing t p0) q)
          ∧ chainState (resolveGo f (markProcessing t p0) e1.1) α rest := by
        rcases hst e1 (List.mem_cons_self _ _) with hwhite | hsettled
        · have hlkM1 : lookupTbl (markProcessing t p0) e1.1 = some e1.2 :=
            (lookup_setRoute_ne t p0 _ e1.1 (fun hh => hp0e1 hh.symm)).trans hwhite
          have hfuel' : countWhite (markProcessing t p0) < f := by
            have hlt := countWhite_markProcessing_lt t p0 r0 hlk hw0
            omega
          exact ih e1 rest (markProcessing t p0) hchtail hnd'.2 hkeysM hlkM1
            (fun e he => hstM e (List.mem_cons_of_mem _ he)) hfuel'
        · have hlkM1 : lookupTbl (markProcessing t p0) e1.1
              = some (actSettle e1.2 α) :=
            (lookup_setRoute_ne t p0 _ e1.1 (fun hh => hp0e1 hh.symm)).trans hsettled
          have hid : resolveGo f (markProcessing t p0) e1.1 = markProcessing t p0 :=
            resolveGo_settled_id f _ e1.1 _ hlkM1 rfl
          refine ⟨?_, ?_, ?_⟩
          · rw [hid]; exact hlkM1
          · intro q _; rw [hid]
          · rw [hid]
            exact fun e he => hstM e (List.mem_cons_of_mem _ he)
      have hacc := nhAcc_resolved_inherit (resolveGo f (markProcessing t p0) e1.1)
        e1.1 nh [] (actSettle e1.2 α) hmain.1 rfl hα
      have hgo2 : resolveGo (f + 1) t p0
          = settleWith (resolveGo f (markProcessing t p0) e1.1) p0 ⟨α, []⟩ := by
        rw [hgo, hfold, hstepEq, hacc]
        rfl
      have hlkT2p0 : lookupTbl (resolveGo f (markProcessing t p0) e1.1) p0
          = some { r0 with processing := true } :=
        (hmain.2.1 p0 hnd'.1).trans hlkM
      refine ⟨?_, ?_, ?_⟩
      · rw [hgo2]
        unfold settleWith
        rw [lookup_setRoute_self _ p0 _ { r0 with processing := true } hlkT2p0]
        rfl
      · intro q hq
        have hq0 : q ≠ p0 := fun hh => hq (by rw [hh]; exact List.mem_cons_self _ _)
        have hqtail : q ∉ List.map Prod.fst (e1 :: rest) :=
          fun hh => hq (List.mem_cons_of_mem _ hh)
        rw [hgo2]
        unfold settleWith
        rw [lookup_setRoute_ne _ p0 _ q hq0, hmain.2.1 q hqtail]
        exact lookup_setRoute_ne t p0 _ q hq0
      · intro e he
        have hne : e.1 ≠ p0 := fun hh => hnd'.1 (hh ▸ List.mem_map.mpr ⟨e, he, rfl⟩)
        rcases List.mem_cons.mp he with hee | hee
        · right
          rw [hgo2]
          unfold settleWith
          rw [lookup_setRoute_ne _ p0 _ e.1 hne, hee]
          exact hmain.1
        · rcases hmain.2.2 e hee with h' | h'
          · left
            rw [hgo2]
            unfold settleWith
            rw [lookup_setRoute_ne _ p0 _ e.1 hne]
            exact h'
          · right
            rw [hgo2]
            unfold settleWith
            rw [lookup_setRoute_ne _ p0 _ e.1 hne]
            exact h'

/-- Any resolver call (with fuel exceeding the white count) keeps every
chain node white-or-settled. -/
theorem chainPres (K : List Pfx) (α : FwdAction) (hα : inheritAct α = true) :
    ∀ (f : Nat) (t : Table) (k : Pfx) (cs : List (Pfx × Route)),
      chainWb K α cs = true →
      (cs.map Prod.fst).Nodup →
      tblKeys t = K →
      chainState t α cs →
      countWhite t < f →
      chainState (resolveGo f t k) α cs := by
  intro f
  induction f with
  | zero =>
    intro t k cs _ _ _ _ hfuel
    exact absurd hfuel (Nat.not_lt_zero _)
  | succ f ih =>
    intro t k cs hch hnd hK hst hfuel
    cases hlkk : lookupTbl t k with
    | none =>
      have hid : resolveGo (f + 1) t k = t := by
        simp only [resolveGo]
        rw [hlkk]
      rw [hid]
      exact hst
    | some rk =>
      by_cases hkc : ∃ e ∈ cs, e.1 = k
      · obtain ⟨e, hecs, hek⟩ := hkc
        rcases hst e hecs with hwhite | hsettled
        · have hrk : rk = e.2 := by
            rw [hek] at hwhite
            exact Option.some.inj (hlkk.symm.trans hwhite)
          obtain ⟨pre, post, hsplit⟩ := List.append_of_mem hecs
          have hchsuf : chainWb K α (e :: post) = true := by
            apply chainWb_append K α pre (e :: post) ?_ (List.cons_ne_nil _ _)
            rw [← hsplit]
            exact hch
          have hmapsplit : List.map Prod.fst cs
              = List.map Prod.fst pre ++ e.1 :: List.map Prod.fst post := by
            rw [hsplit, List.map_append, List.map_cons]
          have hndparts := List.nodup_append.mp (hmapsplit ▸ hnd)
          have hndsuf : (List.map Prod.fst (e :: post)).Nodup := by
            rw [List.map_cons]
            exact hndparts.2.1
          have hsttail : chainState t α post := fun x hx => hst x (by
            rw [hsplit]
            exact List.mem_append_right _ (List.mem_cons_of_mem _ hx))
          have hprog := chainProg K α hα (f + 1) e post t hchsuf hndsuf hK
            hwhite hsttail hfuel
          rw [← hek]
          intro x hx
          rw [hsplit] at hx
          rcases List.mem_append.mp hx with hxpre | hxpost
          · have hxnot : x.1 ∉ List.map Prod.fst (e :: post) := by
              rw [List.map_cons]
              exact hndparts.2.2 (List.mem_map.mpr ⟨x, hxpre, rfl⟩)
            have hloc := hprog.2.1 x.1 hxnot
            rcases hst x (by rw [hsplit]; exact List.mem_append_left _ hxpre) with h' | h'
            · exact Or.inl (hloc.trans h')
            · exact Or.inr (hloc.trans h')
          · rcases List.mem_cons.mp hxpost with hxe | hxrest
            · rw [hxe]
              exact Or.inr hprog.1
            · exact hprog.2.2 x hxrest
        · have hrk : rk = actSettle e.2 α := by
            rw [hek] at hsettled
            exact Option.some.inj (hlkk.symm.trans hsettled)
          have hid : resolveGo (f + 1) t k = t :=
            resolveGo_settled_id (f + 1) t k rk hlkk (by rw [hrk]; rfl)
          rw [hid]
          exact hst
      · push_neg at hkc
        have hbody : resolveGo (f + 1) t k = resolveBody (resolveGo f) t k rk := by
          simp only [resolveGo]
          rw [hlkk]
        rw [hbody]
        unfold resolveBody
        by_cases hb1 : (rk.resolved || rk.unresolvable) = true
        · rw [if_pos hb1]
          exact hst
        · rw [if_neg hb1]
          by_cases hb2 : rk.processing = true
          · rw [if_pos hb2]
            exact chainState_setRoute_ne t k _ α cs hst hkc
          · rw [if_neg hb2]
            have hres : rk.resolved = false := by
              cases hx : rk.resolved with
              | false => rfl
              | true =>
                exact absurd (show (rk.resolved || rk.unresolvable) = true
                  from by rw [hx]; rfl) hb1
            have hunr : rk.unresolvable = false := by
              cases hx : rk.unresolvable with
              | false => rfl
              | true =>
                exact absurd (show (rk.resolved || rk.unresolvable) = true
                  from by rw [hx, Bool.or_true]) hb1
            have hproc : rk.processing = false := by
              cases hx : rk.processing with
              | false => rfl
              | true => exact absurd hx hb2
            have hwrk : white rk = true := by
              unfold white
              rw [hres, hunr, hproc]
              rfl
            by_cases hb3 : (rk.action.isSome && decide (rk.contribs = [])) = true
            · rw [if_pos hb3]
              exact chainState_setRoute_ne _ k _ α cs
                (chainState_setRoute_ne t k _ α cs hst hkc) hkc
            · rw [if_neg hb3]
              cases hck : rk.connected with
              | some ia =>
                exact chainState_setRoute_ne _ k _ α cs
                  (chainState_setRoute_ne t k _ α cs hst hkc) hkc
              | none =>
                have hstM : chainState (markProcessing t k) α cs :=
                  chainState_setRoute_ne t k _ α cs hst hkc
                have hkeysM : tblKeys (markProcessing t k) = K :=
                  (tblKeys_markProcessing t k).trans hK
                have hfuelM : countWhite (markProcessing t k) < f := by
                  have := countWhite_markProcessing_lt t k rk hlkk hwrk
                  omega
                have hfoldInv : ∀ (nhs : List NextHop)
                    (st : Table × List Egress × Option FwdAction),
                    tblKeys st.1 = K → chainState st.1 α cs →
                    countWhite st.1 < f →
                    (tblKeys ((nhs.foldl (nhStep (resolveGo f)) st)).1 = K ∧
                     chainState ((nhs.foldl (nhStep (resolveGo f)) st)).1 α cs ∧
                     countWhite ((nhs.foldl (nhStep (resolveGo f)) st)).1 < f) := by
                  intro nhs
                  induction nhs with
                  | nil => intro st h1' h2' h3'; exact ⟨h1', h2', h3'⟩
                  | cons nh0 rest0 ihf =>
                    intro st h1' h2' h3'
                    rw [List.foldl_cons]
                    have hh : tblKeys (nhStep (resolveGo f) st nh0).1 = K ∧
                        chainState (nhStep (resolveGo f) st nh0).1 α cs ∧
                        countWhite (nhStep (resolveGo f) st nh0).1 < f := by
                      rcases nhStep_fst (resolveGo f) st nh0 with he | ⟨j, he⟩
                      · rw [he]
                        exact ⟨h1', h2', h3'⟩
                      · rw [he]
                        refine ⟨(resolveGo_skel f st.1 j).1.trans h1',
                          ih st.1 j cs hch hnd h1' h2' h3', ?_⟩
                        have := countWhite_resolveGo_le f st.1 j
                        omega
                    exact ihf (nhStep (resolveGo f) st nh0) hh.1 hh.2.1 hh.2.2
                have hfold := hfoldInv (bestListD rk.contribs)
                  (markProcessing t k, [], none) hkeysM hstM hfuelM
                intro e he
                have hne : e.1 ≠ k := hkc e he
                have hfin := lookup_resolveFinish_ne k
                  ((bestListD rk.contribs).foldl (nhStep (resolveGo f))
                    (markProcessing t k, [], none)) e.1 hne
                rcases hfold.2.1 e he with h' | h'
                · exact Or.inl (hfin.trans h')
                · exact Or.inr (hfin.trans h')

/-- After the full resolution pass, every node of an inheritance chain is
settled with the inherited action. -/
theorem chainResolveAll (K : List Pfx) (α : FwdAction) (hα : inheritAct α = true)
    (u : Table) (cs : List (Pfx × Route))
    (hch : chainWb K α cs = true)
    (hnd : (cs.map Prod.fst).Nodup)
    (hK : tblKeys u = K)
    (hst0 : ∀ e ∈ cs, lookupTbl u e.1 = some e.2) :
    ∀ e ∈ cs, lookupTbl (resolveAll u) e.1 = some (actSettle e.2 α) := by
  have hfoldpres : ∀ (ks : List Pfx) (t : Table),
      tblKeys t = K → chainState t α cs →
      tblKeys (ks.foldl (fun t' q => resolveGo (t'.length + 1) t' q) t) = K ∧
      chainState (ks.foldl (fun t' q => resolveGo (t'.length + 1) t' q) t) α cs := by
    intro ks
    induction ks with
    | nil => intro t h1 h2; exact ⟨h1, h2⟩
    | cons q0 rest ihk =>
      intro t h1 h2
      rw [List.foldl_cons]
      apply ihk
      · exact (resolveGo_skel (t.length + 1) t q0).1.trans h1
      · apply chainPres K α hα (t.length + 1) t q0 cs hch hnd h1 h2
        have := countWhite_le_length t
        omega
  intro e he
  have hmem : e.1 ∈ tblKeys u := mem_keys_of_lookup_some u e.1 e.2 (hst0 e he)
  obtain ⟨ks1, ks2, hks⟩ := List.append_of_mem hmem
  show lookupTbl ((tblKeys u).foldl (fun t' p => resolveGo (t'.length + 1) t' p) u)
      e.1 = some (actSettle e.2 α)
  rw [hks, List.foldl_append, List.foldl_cons]
  have ht1 := hfoldpres ks1 u hK (fun x hx => Or.inl (hst0 x hx))
  have hAt : lookupTbl
      (resolveGo
        ((ks1.foldl (fun t' p => resolveGo (t'.length + 1) t' p) u).length + 1)
        (ks1.foldl (fun t' p => resolveGo (t'.length + 1) t' p) u) e.1) e.1
      = some (actSettle e.2 α) := by
    rcases ht1.2 e he with hwhite | hsettled
    · obtain ⟨pre, post, hsplit⟩ := List.append_of_mem he
      have hchsuf : chainWb K α (e :: post) = true := by
        apply chainWb_append K α pre (e :: post) ?_ (List.cons_ne_nil _ _)
        rw [← hsplit]
        exact hch
      have hmapsplit : List.map Prod.fst cs
          = List.map Prod.fst pre ++ e.1 :: List.map Prod.fst post := by
        rw [hsplit, List.map_append, List.map_cons]
      have hndparts := List.nodup_append.mp (hmapsplit ▸ hnd)
      have hndsuf : (List.map Prod.fst (e :: post)).Nodup := by
        rw [List.map_cons]
        exact hndparts.2.1
      have hsttail : chainState
          (ks1.foldl (fun t' p => resolveGo (t'.length + 1) t' p) u) α post :=
        fun x hx => ht1.2 x (by
          rw [hsplit]
          exact List.mem_append_right _ (List.mem_cons_of_mem _ hx))
      have hfuel : countWhite
          (ks1.foldl (fun t' p => resolveGo (t'.length + 1) t' p) u)
          < (ks1.foldl (fun t' p => resolveGo (t'.length + 1) t' p) u).length + 1 := by
        have := countWhite_le_length
          (ks1.foldl (fun t' p => resolveGo (t'.length + 1) t' p) u)
        omega
      exact (chainProg K α hα _ e post _ hchsuf hndsuf ht1.1 hwhite hsttail hfuel).1
    · exact resolveGo_keep _ _ e.1 e.1 _ hsettled rfl
  exact resolveFold_keep e.1 (actSettle e.2 α) rfl ks2 _ hAt

/-- C2: a route carrying a DROP or TO_CPU action override and no client
next-hop sets, and every route whose recursive resolution reaches it
through longest match of its (single) best next-hop — a chain of any
length — is published resolved with that forward action and an empty
egress set. -/
theorem drop_tocpu_inheritance :
    ∀ (orig u : Table) (α : FwdAction) (cs : List (Pfx × Route)),
      inheritAct α = true →
      (cs.map Prod.fst).Nodup →
      (∀ e ∈ cs, lookupTbl u e.1 = some e.2) →
      chainWb (tblKeys u) α (cs.map (fun e => (e.1, resetFn e.2))) = true →
      ∀ e ∈ cs, ∃ rn, lookupTbl (effectiveTables orig u) e.1 = some rn ∧
        rn.fwd = ⟨α, []⟩ ∧ rn.resolved = true ∧ rn.unresolvable = false := by
  intro orig u α cs hα hnd hlk hch e he
  have hK : tblKeys (resetAll u) = tblKeys u := tblKeys_resetAll u
  have hnd' : ((cs.map (fun e => (e.1, resetFn e.2))).map Prod.fst).Nodup := by
    rw [List.map_map]
    have heq : List.map (Prod.fst ∘ fun e => (e.1, resetFn e.2)) cs
        = List.map Prod.fst cs := List.map_congr_left (fun a _ => rfl)
    rw [heq]
    exact hnd
  have hlk' : ∀ e' ∈ cs.map (fun e => (e.1, resetFn e.2)),
      lookupTbl (resetAll u) e'.1 = some e'.2 := by
    intro e' he'
    obtain ⟨x, hx, hxe⟩ := List.mem_map.mp he'
    rw [← hxe]
    show lookupTbl (resetAll u) x.1 = some (resetFn x.2)
    rw [lookupTbl_resetAll, hlk x hx]
    rfl
  have hall := chainResolveAll (tblKeys u) α hα (resetAll u)
    (cs.map (fun e => (e.1, resetFn e.2))) hch hnd' hK hlk'
  have he' : (e.1, resetFn e.2) ∈ cs.map (fun e => (e.1, resetFn e.2)) :=
    List.mem_map.mpr ⟨e, he, rfl⟩
  have hset := hall (e.1, resetFn e.2) he'
  have hprune : lookupTbl (prune (resolveAll (resetAll u))) e.1
      = some (actSettle (resetFn e.2) α) := by
    apply lookupTbl_prune_some _ _ _ hset
    have hne := chainWb_nonempty (tblKeys u) α _ hch (e.1, resetFn e.2) he'
    have hco : emptyCore (actSettle (resetFn e.2) α) = emptyCore (resetFn e.2) :=
      emptyCore_of_core rfl
    rw [hco]
    exact hne
  rw [effectiveTables_eq, lookupTbl_mergeGens, hprune]
  refine ⟨mergeFn orig e.1 (actSettle (resetFn e.2) α), rfl, ?_, ?_, ?_⟩
  · exact congrArg (fun x => x.fwd)
      (content_mergeFn orig e.1 (actSettle (resetFn e.2) α))
  · exact congrArg (fun x => x.resolved)
      (content_mergeFn orig e.1 (actSettle (resetFn e.2) α))
  · exact congrArg (fun x => x.unresolvable)
      (content_mergeFn orig e.1 (actSettle (resetFn e.2) α))

/-- The dropRoutes updater: 10.10.10.10/32 DROP, and 20.20.20.0/24 with
client 1007 next-hop 10.10.10.10. -/
def c2u : Table :=
  applyAddOps [] [.act (ip4 10 10 10 10) 32 .DROP,
    .client (ip4 20 20 20 0) 24 1007 (mkNhs [ip4 10 10 10 10])]

/-- The chain: 20.20.20.0/24 reaches the DROP route 10.10.10.10/32. -/
def c2cs : List (Pfx × Route) :=
  [(mkPfx (ip4 20 20 20 0) 24,
    ⟨[(1007, [⟨ip4 10 10 10 10, none⟩])], none, none, emptyFwd,
     false, false, false, false, 0⟩),
   (mkPfx (ip4 10 10 10 10) 32,
    ⟨[], some .DROP, none, emptyFwd, false, false, false, false, 0⟩)]

/-- C2 witness (TEST(Route, dropRoutes)): 20.20.20.0/24, whose next-hop
resolves to the DROP route, is published resolved with action DROP and
empty egress. -/
theorem drop_tocpu_inheritance_witness :
    ∃ rn, lookupTbl (effectiveTables [] c2u) (mkPfx (ip4 20 20 20 0) 24)
        = some rn ∧
      rn.fwd = ⟨.DROP, []⟩ ∧ rn.resolved = true ∧ rn.unresolvable = false :=
  drop_tocpu_inheritance [] c2u .DROP c2cs (by decide) (by decide) (by decide)
    (by decide)
    (mkPfx (ip4 20 20 20 0) 24,
     ⟨[(1007, [⟨ip4 10 10 10 10, none⟩])], none, none, emptyFwd,
      false, false, false, false, 0⟩)
    (by decide)

/-! ### C1: cycles in the best-set next-hop graph settle as unresolvable -/

/-- A route marked as on the DFS stack (spec section 4.4, step c). -/
def procMark (r : Route) : Route := { r with processing := true }

/-- A stacked route that was re-entered and cycle-marked (step b). -/
def procMarkB (r : Route) : Route :=
  { r with processing := true, unresolvable := true }

/-- The final settled-unresolvable form (step g). -/
def unresSettle (r : Route) : Route :=
  { r with unresolvable := true, processing := false, needResolve := false }

/-- The targets of every best-list next-hop stay inside the member set ps
(or have no longest match at all). -/
def cycTargets (K ps : List Pfx) (r : Route) : Bool :=
  (bestListD r.contribs).all (fun nh =>
    match pickLM K nh.addr with
    | none => true
    | some q => decide (q ∈ ps))

/-- cycWb K ps cs: cs is a closed set of white client routes (no
connected data, non-empty client sets, all flags clear) whose best-list
next-hops longest-match only inside ps. -/
def cycWb (K ps : List Pfx) (cs : List (Pfx × Route)) : Bool :=
  cs.all (fun e => decide (e.2.connected = none) && !e.2.resolved &&
    !e.2.unresolvable && !e.2.processing && !decide (e.2.contribs = []) &&
    cycTargets K ps e.2)

/-- The four states a cycle node passes through during the pass. -/
def cycAt (t : Table) (x : Pfx × Route) : Prop :=
  lookupTbl t x.1 = some x.2 ∨ lookupTbl t x.1 = some (procMark x.2)
    ∨ lookupTbl t x.1 = some (procMarkB x.2)
    ∨ lookupTbl t x.1 = some (unresSettle x.2)

def cycState (t : Table) (cs : List (Pfx × Route)) : Prop :=
  ∀ e ∈ cs, cycAt t e

/-- The per-call transition relation of one cycle node: a white node may
settle unresolvable, a stacked node may get cycle-marked, marked and
settled nodes are final. -/
def cycEvolve (tin tout : Table) (x : Pfx × Route) : Prop :=
  (lookupTbl tin x.1 = some x.2 →
    lookupTbl tout x.1 = some x.2 ∨ lookupTbl tout x.1 = some (unresSettle x.2)) ∧
  (lookupTbl tin x.1 = some (procMark x.2) →
    lookupTbl tout x.1 = some (procMark x.2)
      ∨ lookupTbl tout x.1 = some (procMarkB x.2)) ∧
  (lookupTbl tin x.1 = some (procMarkB x.2) →
    lookupTbl tout x.1 = some (procMarkB x.2)) ∧
  (lookupTbl tin x.1 = some (unresSettle x.2) →
    lookupTbl tout x.1 = some (unresSettle x.2))

theorem cycEvolve_refl (t : Table) (x : Pfx × Route) : cycEvolve t t x :=
  ⟨fun h => Or.inl h, fun h => Or.inl h, fun h => h, fun h => h⟩

theorem cycEvolve_of_eq (tin tout : Table) (x : Pfx × Route)
    (h : lookupTbl tout x.1 = lookupTbl tin x.1) : cycEvolve tin tout x :=
  ⟨fun hh => Or.inl (h.trans hh), fun hh => Or.inl (h.trans hh),
   fun hh => h.trans hh, fun hh => h.trans hh⟩

theorem cycEvolve_trans (t1 t2 t3 : Table) (x : Pfx × Route)
    (a : cycEvolve t1 t2 x) (b : cycEvolve t2 t3 x) : cycEvolve t1 t3 x := by
  refine ⟨?_, ?_, ?_, ?_⟩
  · intro h
    rcases a.1 h with h2 | h2
    · exact b.1 h2
    · exact Or.inr (b.2.2.2 h2)
  · intro h
    rcases a.2.1 h with h2 | h2
    · exact b.2.1 h2
    · exact Or.inr (b.2.2.1 h2)
  · intro h
    exact b.2.2.1 (a.2.2.1 h)
  · intro h
    exact b.2.2.2 (a.2.2.2 h)

theorem cycAt_of_eq (t1 t2 : Table) (x : Pfx × Route)
    (h : lookupTbl t2 x.1 = lookupTbl t1 x.1) (hs : cycAt t1 x) : cycAt t2 x := by
  rcases hs with h' | h' | h' | h'
  · exact Or.inl (h.trans h')
  · exact Or.inr (Or.inl (h.trans h'))
  · exact Or.inr (Or.inr (Or.inl (h.trans h')))
  · exact Or.inr (Or.inr (Or.inr (h.trans h')))

theorem cycState_of_evolve (t tout : Table) (cs : List (Pfx × Route))
    (hst : cycState t cs) (hev : ∀ e ∈ cs, cycEvolve t tout e) :
    cycState tout cs := by
  intro e he
  rcases hst e he with h | h | h | h
  · rcases (hev e he).1 h with h' | h'
    · exact Or.inl h'
    · exact Or.inr (Or.inr (Or.inr h'))
  · rcases (hev e he).2.1 h with h' | h'
    · exact Or.inr (Or.inl h')
    · exact Or.inr (Or.inr (Or.inl h'))
  · exact Or.inr (Or.inr (Or.inl ((hev e he).2.2.1 h)))
  · exact Or.inr (Or.inr (Or.inr ((hev e he).2.2.2 h)))

theorem cycWb_elim (K ps : List Pfx) (cs : List (Pfx × Route))
    (h : cycWb K ps cs = true) :
    ∀ e ∈ cs, e.2.connected = none ∧ e.2.resolved = false ∧
      e.2.unresolvable = false ∧ e.2.processing = false ∧
      e.2.contribs ≠ [] ∧ cycTargets K ps e.2 = true := by
  intro e he
  have h' := List.all_eq_true.mp h e he
  simp only [Bool.and_eq_true, decide_eq_true_eq, Bool.not_eq_true'] at h'
  refine ⟨h'.1.1.1.1.1, h'.1.1.1.1.2, h'.1.1.1.2, h'.1.1.2, ?_, h'.2⟩
  intro hc
  have := h'.1.2
  rw [decide_eq_true hc] at this
  cases this

theorem cycTargets_elim (K ps : List Pfx) (r : Route)
    (h : cycTargets K ps r = true) :
    ∀ nh ∈ bestListD r.contribs,
      pickLM K nh.addr = none ∨ ∃ q, pickLM K nh.addr = some q ∧ q ∈ ps := by
  intro nh hnh
  have h' := List.all_eq_true.mp h nh hnh
  cases hp : pickLM K nh.addr with
  | none => exact Or.inl rfl
  | some q =>
    rw [hp] at h'
    exact Or.inr ⟨q, rfl, of_decide_eq_true h'⟩

theorem nodup_fst_inj : ∀ (cs : List (Pfx × Route)),
    (cs.map Prod.fst).Nodup →
    ∀ x ∈ cs, ∀ y ∈ cs, x.1 = y.1 → x = y := by
  intro cs
  induction cs with
  | nil => intro _ x hx; cases hx
  | cons a l ih =>
    intro hnd x hx y hy hxy
    have hnd' := List.nodup_cons.mp
      (show (a.1 :: l.map Prod.fst).Nodup from hnd)
    rcases List.mem_cons.mp hx with hxa | hxl
    · rcases List.mem_cons.mp hy with hya | hyl
      · rw [hxa, hya]
      · exfalso
        apply hnd'.1
        subst hxa
        exact List.mem_map.mpr ⟨y, hyl, hxy.symm⟩
    · rcases List.mem_cons.mp hy with hya | hyl
      · exfalso
        apply hnd'.1
        subst hya
        exact List.mem_map.mpr ⟨x, hxl, hxy⟩
      · exact ih hnd'.2 x hxl y hyl hxy

theorem nhAcc_unresolved (t' : Table) (q : Pfx) (nh : NextHop)
    (eg : List Egress) (inh : Option FwdAction) (L : Route)
    (hL : lookupTbl t' q = some L) (hres : L.resolved = false) :
    nhAcc t' q nh eg inh = (eg, inh) := by
  unfold nhAcc
  rw [hL]
  show (if L.resolved then
          if inheritAct L.fwd.action then (eg, some L.fwd.action)
          else match L.connected with
            | some ia => (insEg (ia.1, nh.addr) eg, inh)
            | none => (unionEg eg L.fwd.nexthops, inh)
        else (eg, inh)) = (eg, inh)
  rw [if_neg (by rw [hres]; exact Bool.false_ne_true)]

theorem cyc_states_ne (r : Route) (hunr : r.unresolvable = false)
    (hproc : r.processing = false) :
    (r = procMark r → False) ∧ (r = procMarkB r → False) ∧
    (r = unresSettle r → False) ∧ (procMark r = procMarkB r → False) ∧
    (procMark r = unresSettle r → False) ∧ (procMarkB r = unresSettle r → False) := by
  refine ⟨?_, ?_, ?_, ?_, ?_, ?_⟩
  · intro h
    have h2 : r.processing = true := congrArg (fun x => x.processing) h
    rw [hproc] at h2
    exact Bool.noConfusion h2
  · intro h
    have h2 : r.processing = true := congrArg (fun x => x.processing) h
    rw [hproc] at h2
    exact Bool.noConfusion h2
  · intro h
    have h2 : r.unresolvable = true := congrArg (fun x => x.unresolvable) h
    rw [hunr] at h2
    exact Bool.noConfusion h2
  · intro h
    have h2 : r.unresolvable = true := congrArg (fun x => x.unresolvable) h
    rw [hunr] at h2
    exact Bool.noConfusion h2
  · intro h
    have h2 : (true : Bool) = false := congrArg (fun x => x.processing) h
    exact Bool.noConfusion h2
  · intro h
    have h2 : (true : Bool) = false := congrArg (fun x => x.processing) h
    exact Bool.noConfusion h2

/-- Master invariant of the cycle set: every resolver call moves each
member along the white → stacked → cycle-marked → settled-unresolvable
transitions only, and a call at a white member settles it unresolvable. -/
theorem cycPres (K ps : List Pfx) (cs : List (Pfx × Route))
    (hps : ps = cs.map Prod.fst)
    (hcyc : cycWb K ps cs = true)
    (hnd : (cs.map Prod.fst).Nodup) :
    ∀ (f : Nat) (t : Table) (k : Pfx),
      tblKeys t = K → cycState t cs →
      (∀ x ∈ cs, cycEvolve t (resolveGo f t k) x) ∧
      (∀ e ∈ cs, e.1 = k → lookupTbl t k = some e.2 → 0 < f →
        lookupTbl (resolveGo f t k) k = some (unresSettle e.2)) := by
  intro f
  induction f with
  | zero =>
    intro t k _ _
    exact ⟨fun x _ => cycEvolve_refl t x,
      fun e _ _ _ h0 => absurd h0 (Nat.lt_irrefl 0)⟩
  | succ f ih =>
    intro t k hK hst
    cases hlkk : lookupTbl t k with
    | none =>
      have hid : resolveGo (f + 1) t k = t := by
        simp only [resolveGo]
        rw [hlkk]
      rw [hid]
      refine ⟨fun x _ => cycEvolve_refl t x, ?_⟩
      intro e _ _ hlk _
      exact Option.noConfusion hlk
    | some rk =>
      by_cases hkc : ∃ e ∈ cs, e.1 = k
      · obtain ⟨e, hecs, hek⟩ := hkc
        subst hek
        obtain ⟨hconn, hres, hunr, hproc, hcne, htgt⟩ :=
          cycWb_elim K ps cs hcyc e hecs
        rcases hst e hecs with hw | hp1 | hp2 | hu
        · -- white: the full body runs and settles unresolvable
          have hrk : rk = e.2 := Option.some.inj (hlkk.symm.trans hw)
          have hbody : resolveGo (f + 1) t e.1
              = resolveBody (resolveGo f) t e.1 e.2 := by
            simp only [resolveGo]
            rw [hlkk, hrk]
          have hgo : resolveBody (resolveGo f) t e.1 e.2
              = resolveFinish e.1 ((bestListD e.2.contribs).foldl
                  (nhStep (resolveGo f)) (markProcessing t e.1, [], none)) := by
            unfold resolveBody
            rw [if_neg (by rw [hres, hunr]; decide),
                if_neg (by rw [hproc]; exact Bool.false_ne_true),
                if_neg (by rw [decide_eq_false hcne, Bool.and_false]; exact Bool.false_ne_true),
                hconn]
          have hkeysM : tblKeys (markProcessing t e.1) = K :=
            (tblKeys_markProcessing t e.1).trans hK
          have hlkM : lookupTbl (markProcessing t e.1) e.1
              = some (procMark e.2) :=
            lookup_setRoute_self t e.1 _ e.2 hw
          have hstM : cycState (markProcessing t e.1) cs := by
            intro x hx
            by_cases hxe : x = e
            · subst hxe
              exact Or.inr (Or.inl hlkM)
            · have hxne : x.1 ≠ e.1 :=
                fun hh => hxe (nodup_fst_inj cs hnd x hx e hecs hh)
              exact cycAt_of_eq t (markProcessing t e.1) x
                (lookup_setRoute_ne t e.1 _ x.1 hxne) (hst x hx)
          have hfold : ∀ (nhs : List NextHop),
              (∀ nh ∈ nhs, pickLM K nh.addr = none
                ∨ ∃ q, pickLM K nh.addr = some q ∧ q ∈ ps) →
              ∀ (t' : Table), tblKeys t' = K → cycState t' cs →
              ∃ t'', nhs.foldl (nhStep (resolveGo f)) (t', [], none)
                  = (t'', [], none) ∧
                tblKeys t'' = K ∧ cycState t'' cs ∧
                ∀ x ∈ cs, cycEvolve t' t'' x := by
            intro nhs
            induction nhs with
            | nil =>
              intro _ t' hk' hs'
              exact ⟨t', rfl, hk', hs', fun x _ => cycEvolve_refl t' x⟩
            | cons nh0 rest0 ihn =>
              intro htgts t' hk' hs'
              rcases htgts nh0 (List.mem_cons_self _ _) with hp | ⟨q, hp, hqps⟩
              · have hlm : longestMatch t' nh0.addr = none := by
                  unfold longestMatch
                  rw [hk']
                  exact hp
                have hstep : nhStep (resolveGo f) (t', [], none) nh0
                    = (t', [], none) := by
                  show (match longestMatch t' nh0.addr with
                        | none => (t', ([] : List Egress), (none : Option FwdAction))
                        | some j => (resolveGo f t' j,
                            nhAcc (resolveGo f t' j) j nh0 [] none)) = (t', [], none)
                  rw [hlm]
                rw [List.foldl_cons, hstep]
                exact ihn (fun nh hnh => htgts nh (List.mem_cons_of_mem _ hnh))
                  t' hk' hs'
              · have hlm : longestMatch t' nh0.addr = some q := by
                  unfold longestMatch
                  rw [hk']
                  exact hp
                have hih := ih t' q hk' hs'
                have hkeys2 : tblKeys (resolveGo f t' q) = K :=
                  (resolveGo_skel f t' q).1.trans hk'
                have hstate2 : cycState (resolveGo f t' q) cs :=
                  cycState_of_evolve _ _ cs hs' hih.1
                obtain ⟨x0, hx0cs, hx0q⟩ := List.mem_map.mp (hps ▸ hqps)
                obtain ⟨_, hres0, _, _, _, _⟩ := cycWb_elim K ps cs hcyc x0 hx0cs
                have hacc : nhAcc (resolveGo f t' q) q nh0 [] none = ([], none) := by
                  rcases hstate2 x0 hx0cs with h' | h' | h' | h'
                  · exact nhAcc_unresolved _ q nh0 [] none x0.2 (hx0q ▸ h') hres0
                  · exact nhAcc_unresolved _ q nh0 [] none (procMark x0.2)
                      (hx0q ▸ h') hres0
                  · exact nhAcc_unresolved _ q nh0 [] none (procMarkB x0.2)
                      (hx0q ▸ h') hres0
                  · exact nhAcc_unresolved _ q nh0 [] none (unresSettle x0.2)
                      (hx0q ▸ h') hres0
                have hstep0 : nhStep (resolveGo f) (t', [], none) nh0
                    = (resolveGo f t' q, nhAcc (resolveGo f t' q) q nh0 [] none) := by
                  show (match longestMatch t' nh0.addr with
                        | none => (t', ([] : List Egress), (none : Option FwdAction))
                        | some j => (resolveGo f t' j,
                            nhAcc (resolveGo f t' j) j nh0 [] none)) = _
                  rw [hlm]
                have hstep : nhStep (resolveGo f) (t', [], none) nh0
                    = (resolveGo f t' q, [], none) := by
                  rw [hstep0, hacc]
                rw [List.foldl_cons, hstep]
                obtain ⟨t'', ht'', hk'', hs'', hev''⟩ :=
                  ihn (fun nh hnh => htgts nh (List.mem_cons_of_mem _ hnh))
                    (resolveGo f t' q) hkeys2 hstate2
                exact ⟨t'', ht'', hk'', hs'',
                  fun x hx => cycEvolve_trans _ _ _ x (hih.1 x hx) (hev'' x hx)⟩
          obtain ⟨tF, hF, hkF, hsF, hevF⟩ := hfold (bestListD e.2.contribs)
            (cycTargets_elim K ps e.2 htgt) (markProcessing t e.1) hkeysM hstM
          have hgoAll : resolveGo (f + 1) t e.1 = settleUnres tF e.1 := by
            rw [hbody, hgo, hF]
            rfl
          have heF := (hevF e hecs).2.1 hlkM
          have heFinal : lookupTbl (settleUnres tF e.1) e.1
              = some (unresSettle e.2) := by
            rcases heF with h' | h'
            · exact lookup_setRoute_self tF e.1 _ (procMark e.2) h'
            · exact lookup_setRoute_self tF e.1 _ (procMarkB e.2) h'
          refine ⟨?_, ?_⟩
          · intro x hx
            by_cases hxe : x = e
            · have hx1 : x.1 = e.1 := congrArg Prod.fst hxe
              have hx2 : x.2 = e.2 := congrArg Prod.snd hxe
              have hne := cyc_states_ne e.2 hunr hproc
              refine ⟨?_, ?_, ?_, ?_⟩
              · intro _
                right
                rw [hx1, hx2, hgoAll]
                exact heFinal
              · intro hcon
                rw [hx1, hx2] at hcon
                exact absurd (Option.some.inj (hw.symm.trans hcon)) hne.1
              · intro hcon
                rw [hx1, hx2] at hcon
                exact absurd (Option.some.inj (hw.symm.trans hcon)) hne.2.1
              · intro hcon
                rw [hx1, hx2] at hcon
                exact absurd (Option.some.inj (hw.symm.trans hcon)) hne.2.2.1
            · have hxne : x.1 ≠ e.1 :=
                fun hh => hxe (nodup_fst_inj cs hnd x hx e hecs hh)
              have e1 : cycEvolve t (markProcessing t e.1) x :=
                cycEvolve_of_eq _ _ x (lookup_setRoute_ne t e.1 _ x.1 hxne)
              have e3 : cycEvolve tF (settleUnres tF e.1) x :=
                cycEvolve_of_eq _ _ x (lookup_setRoute_ne tF e.1 _ x.1 hxne)
              rw [hgoAll]
              exact cycEvolve_trans _ _ _ x
                (cycEvolve_trans _ _ _ x e1 (hevF x hx)) e3
          · intro e' he' hek' _ _
            have hee : e' = e := nodup_fst_inj cs hnd e' he' e hecs hek'
            rw [hee, hgoAll]
            exact heFinal
        · -- stacked: the body cycle-marks the route
          have hrk : rk = procMark e.2 := Option.some.inj (hlkk.symm.trans hp1)
          have hbody : resolveGo (f + 1) t e.1
              = resolveBody (resolveGo f) t e.1 (procMark e.2) := by
            simp only [resolveGo]
            rw [hlkk, hrk]
          have hgo : resolveBody (resolveGo f) t e.1 (procMark e.2)
              = bMark t e.1 := by
            unfold resolveBody
            rw [if_neg (by
                  show ¬ (e.2.resolved || e.2.unresolvable) = true
                  rw [hres, hunr]
                  decide),
                if_pos (show (procMark e.2).processing = true from rfl)]
          have hlkB : lookupTbl (bMark t e.1) e.1 = some (procMarkB e.2) :=
            lookup_setRoute_self t e.1 _ (procMark e.2) hp1
          refine ⟨?_, ?_⟩
          · intro x hx
            by_cases hxe : x = e
            · have hx1 : x.1 = e.1 := congrArg Prod.fst hxe
              have hx2 : x.2 = e.2 := congrArg Prod.snd hxe
              have hne := cyc_states_ne e.2 hunr hproc
              rw [hbody, hgo]
              refine ⟨?_, ?_, ?_, ?_⟩
              · intro hcon
                rw [hx1, hx2] at hcon
                exact absurd (Option.some.inj (hp1.symm.trans hcon)).symm hne.1
              · intro _
                right
                rw [hx1, hx2]
                exact hlkB
              · intro hcon
                rw [hx1, hx2] at hcon
                exact absurd (Option.some.inj (hp1.symm.trans hcon)) hne.2.2.2.1
              · intro hcon
                rw [hx1, hx2] at hcon
                exact absurd (Option.some.inj (hp1.symm.trans hcon)) hne.2.2.2.2.1
            · have hxne : x.1 ≠ e.1 :=
                fun hh => hxe (nodup_fst_inj cs hnd x hx e hecs hh)
              rw [hbody, hgo]
              exact cycEvolve_of_eq _ _ x (lookup_setRoute_ne t e.1 _ x.1 hxne)
          · intro e' he' hek' hlk' _
            have hee : e' = e := nodup_fst_inj cs hnd e' he' e hecs hek'
            have h23 : rk = e'.2 := Option.some.inj hlk'
            rw [hee] at h23
            exact absurd (h23.symm.trans hrk) (cyc_states_ne e.2 hunr hproc).1
        · -- cycle-marked: already unresolvable, the body is a no-op
          have hrk : rk = procMarkB e.2 := Option.some.inj (hlkk.symm.trans hp2)
          have hid : resolveGo (f + 1) t e.1 = t :=
            resolveGo_settled_id (f + 1) t e.1 rk hlkk
              (by rw [hrk]; exact Bool.or_true _)
          rw [hid]
          refine ⟨fun x _ => cycEvolve_refl t x, ?_⟩
          intro e' he' hek' hlk' _
          have hee : e' = e := nodup_fst_inj cs hnd e' he' e hecs hek'
          have h23 : rk = e'.2 := Option.some.inj hlk'
          rw [hee] at h23
          exact absurd (h23.symm.trans hrk) (cyc_states_ne e.2 hunr hproc).2.1
        · -- settled: the body is a no-op
          have hrk : rk = unresSettle e.2 := Option.some.inj (hlkk.symm.trans hu)
          have hid : resolveGo (f + 1) t e.1 = t :=
            resolveGo_settled_id (f + 1) t e.1 rk hlkk
              (by rw [hrk]; exact Bool.or_true _)
          rw [hid]
          refine ⟨fun x _ => cycEvolve_refl t x, ?_⟩
          intro e' he' hek' hlk' _
          have hee : e' = e := nodup_fst_inj cs hnd e' he' e hecs hek'
          have h23 : rk = e'.2 := Option.some.inj hlk'
          rw [hee] at h23
          exact absurd (h23.symm.trans hrk) (cyc_states_ne e.2 hunr hproc).2.2.1
      · -- a key outside the set: only setRoute at k and recursion happen
        push_neg at hkc
        have hbody : resolveGo (f + 1) t k = resolveBody (resolveGo f) t k rk := by
          simp only [resolveGo]
          rw [hlkk]
        refine ⟨?_, fun e' he' hek' _ _ => absurd hek' (hkc e' he')⟩
        rw [hbody]
        unfold resolveBody
        by_cases hb1 : (rk.resolved || rk.unresolvable) = true
        · rw [if_pos hb1]
          exact fun x _ => cycEvolve_refl t x
        · rw [if_neg hb1]
          by_cases hb2 : rk.processing = true
          · rw [if_pos hb2]
            exact fun x hx => cycEvolve_of_eq _ _ x
              (lookup_setRoute_ne t k _ x.1 (hkc x hx))
          · rw [if_neg hb2]
            by_cases hb3 : (rk.action.isSome && decide (rk.contribs = [])) = true
            · rw [if_pos hb3]
              exact fun x hx => cycEvolve_of_eq _ _ x
                ((lookup_setRoute_ne (markProcessing t k) k _ x.1 (hkc x hx)).trans
                  (lookup_setRoute_ne t k _ x.1 (hkc x hx)))
            · rw [if_neg hb3]
              cases hck : rk.connected with
              | some ia =>
                exact fun x hx => cycEvolve_of_eq _ _ x
                  ((lookup_setRoute_ne (markProcessing t k) k _ x.1 (hkc x hx)).trans
                    (lookup_setRoute_ne t k _ x.1 (hkc x hx)))
              | none =>
                have hstM : cycState (markProcessing t k) cs :=
                  fun x hx => cycAt_of_eq t _ x
                    (lookup_setRoute_ne t k _ x.1 (hkc x hx)) (hst x hx)
                have hfoldF : ∀ (nhs : List NextHop)
                    (st : Table × List Egress × Option FwdAction),
                    tblKeys st.1 = K → cycState st.1 cs →
                    ((∀ x ∈ cs, cycEvolve st.1
                        ((nhs.foldl (nhStep (resolveGo f)) st)).1 x) ∧
                     tblKeys ((nhs.foldl (nhStep (resolveGo f)) st)).1 = K ∧
                     cycState ((nhs.foldl (nhStep (resolveGo f)) st)).1 cs) := by
                  intro nhs
                  induction nhs with
                  | nil =>
                    intro st h1' h2'
                    exact ⟨fun x _ => cycEvolve_refl st.1 x, h1', h2'⟩
                  | cons nh0 rest0 ihn =>
                    intro st h1' h2'
                    rw [List.foldl_cons]
                    have hstepFacts : (∀ x ∈ cs, cycEvolve st.1
                          (nhStep (resolveGo f) st nh0).1 x) ∧
                        tblKeys (nhStep (resolveGo f) st nh0).1 = K ∧
                        cycState (nhStep (resolveGo f) st nh0).1 cs := by
                      rcases nhStep_fst (resolveGo f) st nh0 with he | ⟨j, he⟩
                      · rw [he]
                        exact ⟨fun x _ => cycEvolve_refl st.1 x, h1', h2'⟩
                      · rw [he]
                        have hih := ih st.1 j h1' h2'
                        exact ⟨hih.1, (resolveGo_skel f st.1 j).1.trans h1',
                          cycState_of_evolve _ _ cs h2' hih.1⟩
                    obtain ⟨ha1, ha2, ha3⟩ := hstepFacts
                    obtain ⟨hc1, hc2, hc3⟩ :=
                      ihn (nhStep (resolveGo f) st nh0) ha2 ha3
                    exact ⟨fun x hx => cycEvolve_trans _ _ _ x (ha1 x hx) (hc1 x hx),
                      hc2, hc3⟩
                obtain ⟨hevFo, _, _⟩ := hfoldF (bestListD rk.contribs)
                  (markProcessing t k, [], none)
                  ((tblKeys_markProcessing t k).trans hK) hstM
                intro x hx
                have e1 := cycEvolve_of_eq t (markProcessing t k) x
                  (lookup_setRoute_ne t k _ x.1 (hkc x hx))
                have e3 := cycEvolve_of_eq
                  ((bestListD rk.contribs).foldl (nhStep (resolveGo f))
                    (markProcessing t k, [], none)).1
                  (resolveFinish k ((bestListD rk.contribs).foldl
                    (nhStep (resolveGo f)) (markProcessing t k, [], none))) x
                  (lookup_resolveFinish_ne k _ x.1 (hkc x hx))
                exact cycEvolve_trans _ _ _ x
                  (cycEvolve_trans _ _ _ x e1 (hevFo x hx)) e3

theorem cycWb_nonempty (K ps : List Pfx) (cs : List (Pfx × Route))
    (h : cycWb K ps cs = true) :
    ∀ e ∈ cs, emptyCore e.2 = false := by
  intro e he
  obtain ⟨_, _, _, _, hcne, _⟩ := cycWb_elim K ps cs h e he
  unfold emptyCore
  rw [decide_eq_false hcne]
  rfl

/-- The full resolution pass settles every member of a closed white cycle
set as unresolvable. -/
theorem cycResolveAll (K : List Pfx) (u : Table) (cs : List (Pfx × Route))
    (hcyc : cycWb K (cs.map Prod.fst) cs = true)
    (hnd : (cs.map Prod.fst).Nodup)
    (hK : tblKeys u = K)
    (hst0 : ∀ e ∈ cs, lookupTbl u e.1 = some e.2) :
    ∀ e ∈ cs, lookupTbl (resolveAll u) e.1 = some (unresSettle e.2) := by
  have hfoldpres : ∀ (ks : List Pfx) (t : Table),
      tblKeys t = K →
      (∀ x ∈ cs, lookupTbl t x.1 = some x.2
        ∨ lookupTbl t x.1 = some (unresSettle x.2)) →
      tblKeys (ks.foldl (fun t' q => resolveGo (t'.length + 1) t' q) t) = K ∧
      (∀ x ∈ cs,
        lookupTbl (ks.foldl (fun t' q => resolveGo (t'.length + 1) t' q) t) x.1
            = some x.2
        ∨ lookupTbl (ks.foldl (fun t' q => resolveGo (t'.length + 1) t' q) t) x.1
            = some (unresSettle x.2)) := by
    intro ks
    induction ks with
    | nil => intro t h1 h2; exact ⟨h1, h2⟩
    | cons q0 rest ihk =>
      intro t h1 h2
      rw [List.foldl_cons]
      have hstC : cycState t cs := by
        intro x hx
        rcases h2 x hx with h | h
        · exact Or.inl h
        · exact Or.inr (Or.inr (Or.inr h))
      have hev := (cycPres K (cs.map Prod.fst) cs rfl hcyc hnd
        (t.length + 1) t q0 h1 hstC).1
      apply ihk
      · exact (resolveGo_skel (t.length + 1) t q0).1.trans h1
      · intro x hx
        rcases h2 x hx with h | h
        · rcases (hev x hx).1 h with h' | h'
          · exact Or.inl h'
          · exact Or.inr h'
        · exact Or.inr ((hev x hx).2.2.2 h)
  intro e he
  have hmem : e.1 ∈ tblKeys u := mem_keys_of_lookup_some u e.1 e.2 (hst0 e he)
  obtain ⟨ks1, ks2, hks⟩ := List.append_of_mem hmem
  show lookupTbl ((tblKeys u).foldl (fun t' p => resolveGo (t'.length + 1) t' p) u)
      e.1 = some (unresSettle e.2)
  rw [hks, List.foldl_append, List.foldl_cons]
  have ht1 := hfoldpres ks1 u hK (fun x hx => Or.inl (hst0 x hx))
  have hAt : lookupTbl
      (resolveGo
        ((ks1.foldl (fun t' p => resolveGo (t'.length + 1) t' p) u).length + 1)
        (ks1.foldl (fun t' p => resolveGo (t'.length + 1) t' p) u) e.1) e.1
      = some (unresSettle e.2) := by
    have hstC : cycState
        (ks1.foldl (fun t' p => resolveGo (t'.length + 1) t' p) u) cs := by
      intro x hx
      rcases ht1.2 x hx with h | h
      · exact Or.inl h
      · exact Or.inr (Or.inr (Or.inr h))
    rcases ht1.2 e he with hwhite | hsettled
    · exact (cycPres K (cs.map Prod.fst) cs rfl hcyc hnd
        ((ks1.foldl (fun t' p => resolveGo (t'.length + 1) t' p) u).length + 1)
        (ks1.foldl (fun t' p => resolveGo (t'.length + 1) t' p) u) e.1
        ht1.1 hstC).2 e he rfl hwhite (Nat.succ_pos _)
    · exact resolveGo_keep _ _ e.1 e.1 (unresSettle e.2) hsettled (Bool.or_true _)
  exact resolveFold_keep e.1 (unresSettle e.2) (Bool.or_true _) ks2 _ hAt

/-- C1: a set of routes whose best-set next-hop graph is closed on itself
(each member a white client route whose best next-hops longest-match only
other members, with no interface route covering any next-hop — e.g. the
three-route cycle of TEST(Route, resolve)): after update_done every
member is published with unresolvable = true, resolved = false,
processing = false and needResolve = false. -/
theorem cycle_unresolvable :
    ∀ (orig u : Table) (cs : List (Pfx × Route)),
      (cs.map Prod.fst).Nodup →
      (∀ e ∈ cs, lookupTbl u e.1 = some e.2) →
      cycWb (tblKeys u) (cs.map Prod.fst)
        (cs.map (fun e => (e.1, resetFn e.2))) = true →
      ∀ e ∈ cs, ∃ rn, lookupTbl (effectiveTables orig u) e.1 = some rn ∧
        rn.unresolvable = true ∧ rn.resolved = false ∧
        rn.processing = false ∧ rn.needResolve = false := by
  intro orig u cs hnd hlk hch e he
  have hK : tblKeys (resetAll u) = tblKeys u := tblKeys_resetAll u
  have heq : (cs.map (fun e => (e.1, resetFn e.2))).map Prod.fst
      = cs.map Prod.fst := by
    rw [List.map_map]
    exact List.map_congr_left (fun a _ => rfl)
  have hnd' : ((cs.map (fun e => (e.1, resetFn e.2))).map Prod.fst).Nodup := by
    rw [heq]
    exact hnd
  have hch' : cycWb (tblKeys u)
      ((cs.map (fun e => (e.1, resetFn e.2))).map Prod.fst)
      (cs.map (fun e => (e.1, resetFn e.2))) = true := by
    rw [heq]
    exact hch
  have hlk' : ∀ e' ∈ cs.map (fun e => (e.1, resetFn e.2)),
      lookupTbl (resetAll u) e'.1 = some e'.2 := by
    intro e' he'
    obtain ⟨x, hx, hxe⟩ := List.mem_map.mp he'
    rw [← hxe]
    show lookupTbl (resetAll u) x.1 = some (resetFn x.2)
    rw [lookupTbl_resetAll, hlk x hx]
    rfl
  have hall := cycResolveAll (tblKeys u) (resetAll u)
    (cs.map (fun e => (e.1, resetFn e.2))) hch' hnd' hK hlk'
  have he' : (e.1, resetFn e.2) ∈ cs.map (fun e => (e.1, resetFn e.2)) :=
    List.mem_map.mpr ⟨e, he, rfl⟩
  have hset := hall (e.1, resetFn e.2) he'
  have hprune : lookupTbl (prune (resolveAll (resetAll u))) e.1
      = some (unresSettle (resetFn e.2)) := by
    apply lookupTbl_prune_some _ _ _ hset
    have hne := cycWb_nonempty (tblKeys u) _ _ hch' (e.1, resetFn e.2) he'
    have hco : emptyCore (unresSettle (resetFn e.2)) = emptyCore (resetFn e.2) :=
      emptyCore_of_core rfl
    rw [hco]
    exact hne
  rw [effectiveTables_eq, lookupTbl_mergeGens, hprune]
  refine ⟨mergeFn orig e.1 (unresSettle (resetFn e.2)), rfl, ?_, ?_, ?_, ?_⟩
  · exact congrArg (fun x => x.unresolvable)
      (content_mergeFn orig e.1 (unresSettle (resetFn e.2)))
  · exact congrArg (fun x => x.resolved)
      (content_mergeFn orig e.1 (unresSettle (resetFn e.2)))
  · exact congrArg (fun x => x.processing)
      (content_mergeFn orig e.1 (unresSettle (resetFn e.2)))
  · exact congrArg (fun x => x.needResolve)
      (content_mergeFn orig e.1 (unresSettle (resetFn e.2)))

/-- The TEST(Route, resolve) cycle updater: 10.0.0.0/8 → 30.1.1.1,
20.0.0.0/8 → 10.1.1.1, 30.0.0.0/8 → 20.1.1.1, no interface route
covering any next-hop. -/
def c1u : Table :=
  applyAddOps [] [.client (ip4 10 0 0 0) 8 10 (mkNhs [ip4 30 1 1 1]),
    .client (ip4 20 0 0 0) 8 10 (mkNhs [ip4 10 1 1 1]),
    .client (ip4 30 0 0 0) 8 10 (mkNhs [ip4 20 1 1 1])]

/-- The three members of the cycle as they sit in c1u. -/
def c1cs : List (Pfx × Route) :=
  [(mkPfx (ip4 10 0 0 0) 8,
    ⟨[(10, [⟨ip4 30 1 1 1, none⟩])], none, none, emptyFwd,
     false, false, false, false, 0⟩),
   (mkPfx (ip4 20 0 0 0) 8,
    ⟨[(10, [⟨ip4 10 1 1 1, none⟩])], none, none, emptyFwd,
     false, false, false, false, 0⟩),
   (mkPfx (ip4 30 0 0 0) 8,
    ⟨[(10, [⟨ip4 20 1 1 1, none⟩])], none, none, emptyFwd,
     false, false, false, false, 0⟩)]

/-- C1 witness (TEST(Route, resolve), cycle case): the member 10.0.0.0/8
of the three-route cycle is published unresolvable, not resolved, with
the processing and need-resolve flags clear. -/
theorem cycle_unresolvable_witness :
    ∃ rn, lookupTbl (effectiveTables [] c1u) (mkPfx (ip4 10 0 0 0) 8)
        = some rn ∧
      rn.unresolvable = true ∧ rn.resolved = false ∧
      rn.processing = false ∧ rn.needResolve = false :=
  cycle_unresolvable [] c1u c1cs (by decide) (by decide) (by decide)
    (mkPfx (ip4 10 0 0 0) 8,
     ⟨[(10, [⟨ip4 30 1 1 1, none⟩])], none, none, emptyFwd,
      false, false, false, false, 0⟩)
    (by decide)

end Fboss
